import Mathlib

/-!
Verification development for the quickbook BoostBook-to-HTML pipeline
(src/bb2html.cpp and the tree/chunker/parser companions).

Part 1 models the intrusive doubly-linked tree builder
(tree_builder in src/bb2html.cpp lines 34-139, src/tree.hpp lines 16-123,
and the tree_builder_base variant in src/tree.cpp lines 78-101) as a heap
of numbered nodes, each holding parent/children/next/prev pointers, plus
the builder cursors root_/current_/parent_.
-/

set_option maxHeartbeats 1000000
set_option maxRecDepth 8000

namespace QB

/-- One tree node's four link fields, mirroring tree_node in bb2html.cpp
(parent_, children_, next_, prev_); a null pointer is none. -/
structure NodeRec where
  parent? : Option Nat
  children? : Option Nat
  next? : Option Nat
  prev? : Option Nat
deriving DecidableEq, Repr

/-- A freshly constructed node: all four pointers null
(tree_node's default constructor). -/
def NodeRec.blank : NodeRec := ⟨none, none, none, none⟩

/-- Builder state: the heap of nodes plus the three cursor members
root_, current_ and parent_ of tree_builder. -/
structure BState where
  mem : Nat → NodeRec
  root? : Option Nat
  current? : Option Nat
  parentCur? : Option Nat

/-- Heap update at one address. -/
def upd (m : Nat → NodeRec) (i : Nat) (r : NodeRec) : Nat → NodeRec :=
  fun j => if j = i then r else m j

@[simp] theorem upd_same (m : Nat → NodeRec) (i : Nat) (r : NodeRec) :
    upd m i r i = r := by simp [upd]

theorem upd_other (m : Nat → NodeRec) {i j : Nat} (r : NodeRec) (h : j ≠ i) :
    upd m i r j = m j := by simp [upd, h]

/-- tree_builder::add_element (bb2html.cpp lines 112-126): link the fresh
node after the cursor, or as first child of parent_, or as the root. -/
def add_element (s : BState) (n : Nat) : BState :=
  let m1 := upd s.mem n { s.mem n with parent? := s.parentCur?, prev? := s.current? }
  match s.current? with
  | some c =>
      { s with mem := upd m1 c { m1 c with next? := some n }, current? := some n }
  | none =>
      match s.parentCur? with
      | some p =>
          { s with mem := upd m1 p { m1 p with children? := some n }, current? := some n }
      | none => { s with mem := m1, root? := some n, current? := some n }

/-- tree_builder::start_children (bb2html.cpp lines 128-132). -/
def start_children (s : BState) : BState :=
  { s with parentCur? := s.current?, current? := none }

/-- tree_builder::end_children (bb2html.cpp lines 134-138).  The C++
dereferences current_ after the first assignment, so parent_ must be
non-null; the step relation guards that precondition and the none branch
below is unreachable under it. -/
def end_children (s : BState) : BState :=
  match s.parentCur? with
  | some p => { s with current? := some p, parentCur? := (s.mem p).parent? }
  | none => s

/-- tree_builder::extract (bb2html.cpp lines 77-101, identical in
tree.hpp lines 61-85): unlink x, repair the neighbour/parent/root links,
null x's own parent/prev/next, and return the old next pointer. -/
def extract (s : BState) (x : Nat) : BState × Option Nat :=
  let nx := (s.mem x).next?
  let pv := (s.mem x).prev?
  let s1 :=
    match pv with
    | none =>
      match (s.mem x).parent? with
      | some p => { s with mem := upd s.mem p { s.mem p with children? := nx } }
      | none => { s with root? := nx, parentCur? := none, current? := nx }
    | some p => { s with mem := upd s.mem p { s.mem p with next? := nx } }
  let s2 :=
    match nx with
    | some m => { s1 with mem := upd s1.mem m { s1.mem m with prev? := pv } }
    | none => s1
  let s3 :=
    { s2 with
      mem := upd s2.mem x { s2.mem x with parent? := none, next? := none, prev? := none } }
  (s3, nx)

/-- tree_builder_base::extract from src/tree.cpp lines 78-101: the same
unlinking (its root branch writes current_ = root_, which equals the new
root x->next_), but the function returns x itself rather than x->next_. -/
def extract_base (s : BState) (x : Nat) : BState × Nat :=
  ((extract s x).1, x)

/-- The empty builder (root_, current_, parent_ all null, no nodes). -/
def initB : BState := ⟨fun _ => NodeRec.blank, none, none, none⟩

/-- Membership in the builder's tree: reachable from root_ through
next_/children_ links. -/
inductive InTree (s : BState) : Nat → Prop where
  | root (r : Nat) : s.root? = some r → InTree s r
  | via_next (m n : Nat) : InTree s m → (s.mem m).next? = some n → InTree s n
  | via_children (m n : Nat) : InTree s m → (s.mem m).children? = some n → InTree s n

/-- A rank function certifying that next_/children_ links are acyclic on
the tree. -/
def Ranked (s : BState) : Prop :=
  ∃ rk : Nat → Nat, ∀ n, InTree s n →
    (∀ m, (s.mem n).next? = some m → rk n < rk m) ∧
    (∀ m, (s.mem n).children? = some m → rk n < rk m)

/-- Well-formedness of a builder state: the doubly-linked structure
invariants of the tree plus cursor coherence. -/
structure WF (s : BState) : Prop where
  root_ok : ∀ r, s.root? = some r → (s.mem r).prev? = none ∧ (s.mem r).parent? = none
  next_matched : ∀ q x, (s.mem q).next? = some x → (s.mem x).prev? = some q
  children_matched : ∀ q x, (s.mem q).children? = some x →
      (s.mem x).parent? = some q ∧ (s.mem x).prev? = none
  prev_next : ∀ n p, InTree s n → (s.mem n).prev? = some p →
      (s.mem p).next? = some n ∧ (s.mem p).parent? = (s.mem n).parent?
  sib_parent : ∀ n m, InTree s n → (s.mem n).next? = some m →
      (s.mem m).parent? = (s.mem n).parent?
  parent_ok : ∀ n q, InTree s n → (s.mem n).parent? = some q →
      ((s.mem q).children? = some n ↔ (s.mem n).prev? = none)
  cur_ok : ∀ c, s.current? = some c → InTree s c → (s.mem c).parent? = s.parentCur?
  ranked : Ranked s

/-- A fresh node for add_element: blank fields, not referenced by any
builder cursor. -/
def Fresh (s : BState) (n : Nat) : Prop :=
  s.mem n = NodeRec.blank ∧ s.root? ≠ some n ∧ s.current? ≠ some n ∧ s.parentCur? ≠ some n

/-- Builder operations. -/
inductive Op where
  | add (n : Nat)
  | startc
  | endc
  | extr (x : Nat)

/-- Executing a sequence of builder operations, with each step's C++
precondition as a guard: add_element takes a fresh node, end_children
requires a non-null parent_ (the C++ dereferences it), extract takes a
node of the builder's tree. -/
inductive Steps : BState → List Op → BState → Prop where
  | nil (s : BState) : Steps s [] s
  | add (s s' : BState) (n : Nat) (ops : List Op) :
      Fresh s n → Steps (add_element s n) ops s' → Steps s (.add n :: ops) s'
  | startc (s s' : BState) (ops : List Op) :
      Steps (start_children s) ops s' → Steps s (.startc :: ops) s'
  | endc (s s' : BState) (ops : List Op) :
      s.parentCur? ≠ none → Steps (end_children s) ops s' → Steps s (.endc :: ops) s'
  | extr (s s' : BState) (x : Nat) (ops : List Op) :
      InTree s x → Steps ((extract s x).1) ops s' → Steps s (.extr x :: ops) s'

theorem inTree_congr {s s' : BState} (h1 : s'.mem = s.mem) (h2 : s'.root? = s.root?) :
    ∀ {n}, InTree s n → InTree s' n := by
  intro n h
  induction h with
  | root r hr => exact .root r (by rw [h2]; exact hr)
  | via_next m n _ he ih => exact .via_next m n ih (by rw [h1]; exact he)
  | via_children m n _ he ih => exact .via_children m n ih (by rw [h1]; exact he)

theorem inTree_inv {s : BState} {z : Nat} (h : InTree s z) :
    s.root? = some z ∨ (∃ m, InTree s m ∧ (s.mem m).next? = some z) ∨
      (∃ m, InTree s m ∧ (s.mem m).children? = some z) := by
  cases h with
  | root r hr => exact .inl hr
  | via_next m n hm he => exact .inr (.inl ⟨m, hm, he⟩)
  | via_children m n hm he => exact .inr (.inr ⟨m, hm, he⟩)

theorem no_self_next {s : BState} (hwf : WF s) {n : Nat} (hn : InTree s n) :
    (s.mem n).next? ≠ some n := by
  obtain ⟨rk, hrk⟩ := hwf.ranked
  intro h
  exact absurd ((hrk n hn).1 n h) (lt_irrefl _)

theorem no_self_children {s : BState} (hwf : WF s) {n : Nat} (hn : InTree s n) :
    (s.mem n).children? ≠ some n := by
  obtain ⟨rk, hrk⟩ := hwf.ranked
  intro h
  exact absurd ((hrk n hn).2 n h) (lt_irrefl _)

theorem blank_no_next_edge {s : BState} (hwf : WF s) {n : Nat}
    (hb : s.mem n = NodeRec.blank) (q : Nat) : (s.mem q).next? ≠ some n := by
  intro h
  have := hwf.next_matched q n h
  rw [hb] at this
  exact Option.noConfusion this

theorem blank_no_children_edge {s : BState} (hwf : WF s) {n : Nat}
    (hb : s.mem n = NodeRec.blank) (q : Nat) : (s.mem q).children? ≠ some n := by
  intro h
  have := (hwf.children_matched q n h).1
  rw [hb] at this
  exact Option.noConfusion this

theorem blank_not_inTree {s : BState} (hwf : WF s) {n : Nat}
    (hb : s.mem n = NodeRec.blank) (hr : s.root? ≠ some n) : ¬InTree s n := by
  intro h
  cases h with
  | root r hr' => exact hr hr'
  | via_next m n _ he => exact blank_no_next_edge hwf hb m he
  | via_children m n _ he => exact blank_no_children_edge hwf hb m he

theorem parent_has_child {s : BState} (hwf : WF s) {n q : Nat} (hn : InTree s n)
    (hq : (s.mem n).parent? = some q) : (s.mem q).children? ≠ none := by
  induction hn with
  | root r hr =>
    rw [(hwf.root_ok r hr).2] at hq
    exact Option.noConfusion hq
  | via_next m n hm he ih =>
    have hpar := hwf.sib_parent m n hm he
    exact ih (hpar ▸ hq)
  | via_children m n hm he _ =>
    have := (hwf.children_matched m n he).1
    rw [this] at hq
    cases hq
    intro hc
    rw [he] at hc
    exact Option.noConfusion hc

/-- The initial builder state is well-formed. -/
theorem wf_initB : WF initB := by
  have hni : ∀ n, ¬InTree initB n := by
    intro n h
    cases h with
    | root r hr => exact Option.noConfusion hr
    | via_next m n _ he => exact Option.noConfusion he
    | via_children m n _ he => exact Option.noConfusion he
  refine ⟨?_, ?_, ?_, ?_, ?_, ?_, ?_, ?_⟩
  · intro r hr; exact absurd hr (fun h => Option.noConfusion h)
  · intro q x h; exact absurd h (fun h => Option.noConfusion h)
  · intro q x h; exact absurd h (fun h => Option.noConfusion h)
  · intro n p hn; exact absurd hn (hni n)
  · intro n m hn; exact absurd hn (hni n)
  · intro n q hn; exact absurd hn (hni n)
  · intro c hc; exact absurd hc (fun h => Option.noConfusion h)
  · exact ⟨fun _ => 0, fun n hn => absurd hn (hni n)⟩

theorem wf_start_children {s : BState} (hwf : WF s) : WF (start_children s) := by
  have hmem : (start_children s).mem = s.mem := rfl
  have hroot : (start_children s).root? = s.root? := rfl
  have hit : ∀ {n}, InTree (start_children s) n → InTree s n :=
    fun {n} h => @inTree_congr (start_children s) s rfl rfl n h
  refine ⟨hwf.root_ok, hwf.next_matched, hwf.children_matched, ?_, ?_, ?_, ?_, ?_⟩
  · intro n p hn hp; exact hwf.prev_next n p (hit hn) hp
  · intro n m hn he; exact hwf.sib_parent n m (hit hn) he
  · intro n q hn hq; exact hwf.parent_ok n q (hit hn) hq
  · intro c hc; exact absurd hc (fun h => Option.noConfusion h)
  · obtain ⟨rk, hrk⟩ := hwf.ranked
    exact ⟨rk, fun n hn => hrk n (hit hn)⟩

theorem wf_end_children {s : BState} (hwf : WF s) (hp : s.parentCur? ≠ none) :
    WF (end_children s) := by
  obtain ⟨p, hpc⟩ := Option.ne_none_iff_exists'.1 hp
  have hdef : end_children s = { s with current? := some p, parentCur? := (s.mem p).parent? } := by
    simp [end_children, hpc]
  rw [hdef]
  have hit : ∀ {n}, InTree { s with current? := some p, parentCur? := (s.mem p).parent? } n →
      InTree s n :=
    fun {n} h =>
      @inTree_congr { s with current? := some p, parentCur? := (s.mem p).parent? } s rfl rfl n h
  refine ⟨hwf.root_ok, hwf.next_matched, hwf.children_matched, ?_, ?_, ?_, ?_, ?_⟩
  · intro n pp hn hpp; exact hwf.prev_next n pp (hit hn) hpp
  · intro n m hn he; exact hwf.sib_parent n m (hit hn) he
  · intro n q hn hq; exact hwf.parent_ok n q (hit hn) hq
  · intro c hc hc2
    cases hc
    rfl
  · obtain ⟨rk, hrk⟩ := hwf.ranked
    exact ⟨rk, fun n hn => hrk n (hit hn)⟩

theorem wf_add_cur {s : BState} {n c : Nat} (hwf : WF s) (hf : Fresh s n)
    (hc : s.current? = some c) : WF (add_element s n) := by
  obtain ⟨hblank, hroot, hcur, hpar⟩ := hf
  have hcn : c ≠ n := fun h => hcur (h ▸ hc)
  have hnc : n ≠ c := Ne.symm hcn
  set s' := add_element s n with hs'
  have hn_par : (s'.mem n).parent? = s.parentCur? := by
    simp [hs', add_element, hc, upd, hcn, hnc]
  have hn_ch : (s'.mem n).children? = none := by
    simp [hs', add_element, hc, upd, hcn, hnc, hblank, NodeRec.blank]
  have hn_nx : (s'.mem n).next? = none := by
    simp [hs', add_element, hc, upd, hcn, hnc, hblank, NodeRec.blank]
  have hn_pv : (s'.mem n).prev? = some c := by
    simp [hs', add_element, hc, upd, hcn, hnc]
  have hc_nx : (s'.mem c).next? = some n := by
    simp [hs', add_element, hc, upd, hcn, hnc]
  have hnx : ∀ j, j ≠ n → j ≠ c → (s'.mem j).next? = (s.mem j).next? := by
    intro j h1 h2; simp [hs', add_element, hc, upd, h1, h2]
  have hch : ∀ j, j ≠ n → (s'.mem j).children? = (s.mem j).children? := by
    intro j h1
    by_cases h2 : j = c
    · subst h2; simp [hs', add_element, hc, upd, h1]
    · simp [hs', add_element, hc, upd, h1, h2]
  have hpv2 : ∀ j, j ≠ n → (s'.mem j).prev? = (s.mem j).prev? := by
    intro j h1
    by_cases h2 : j = c
    · subst h2; simp [hs', add_element, hc, upd, h1]
    · simp [hs', add_element, hc, upd, h1, h2]
  have hpf : ∀ j, j ≠ n → (s'.mem j).parent? = (s.mem j).parent? := by
    intro j h1
    by_cases h2 : j = c
    · subst h2; simp [hs', add_element, hc, upd, h1]
    · simp [hs', add_element, hc, upd, h1, h2]
  have hrt : s'.root? = s.root? := by simp [hs', add_element, hc]
  have hcur' : s'.current? = some n := by simp [hs', add_element, hc]
  have hpc' : s'.parentCur? = s.parentCur? := by simp [hs', add_element, hc]
  have hno_next_n : ∀ q, (s.mem q).next? ≠ some n := blank_no_next_edge hwf hblank
  have hno_child_n : ∀ q, (s.mem q).children? ≠ some n := blank_no_children_edge hwf hblank
  -- transfer of reachability
  have htr : ∀ z, InTree s' z → InTree s z ∨ z = n := by
    intro z hz
    induction hz with
    | root r hr => exact .inl (.root r (hrt ▸ hr))
    | via_next m z hm he ih =>
      by_cases hmn : m = n
      · subst hmn; rw [hn_nx] at he; exact Option.noConfusion he
      · by_cases hmc : m = c
        · subst hmc; rw [hc_nx] at he
          exact .inr (Option.some.inj he).symm
        · rw [hnx m hmn hmc] at he
          rcases ih with h | h
          · exact .inl (.via_next m z h he)
          · exact absurd h hmn
    | via_children m z hm he ih =>
      by_cases hmn : m = n
      · subst hmn; rw [hn_ch] at he; exact Option.noConfusion he
      · rw [hch m hmn] at he
        rcases ih with h | h
        · exact .inl (.via_children m z h he)
        · exact absurd h hmn
  -- the old next sibling of the cursor is orphaned, not in the new tree
  have horph : ∀ d, (s.mem c).next? = some d → ¬InTree s' d := by
    intro d hd hzd
    have hdprev : (s.mem d).prev? = some c := hwf.next_matched c d hd
    have hdn : d ≠ n := by intro h; exact hno_next_n c (h ▸ hd)
    rcases inTree_inv hzd with hr | ⟨m, hm', he⟩ | ⟨m, hm', he⟩
    · rw [hrt] at hr
      have := (hwf.root_ok d hr).1
      rw [this] at hdprev; exact Option.noConfusion hdprev
    · by_cases hmn : m = n
      · subst hmn; rw [hn_nx] at he; exact Option.noConfusion he
      · by_cases hmc : m = c
        · rw [hmc, hc_nx] at he
          exact hdn (Option.some.inj he).symm
        · rw [hnx m hmn hmc] at he
          have := hwf.next_matched m d he
          rw [this] at hdprev
          exact hmc (Option.some.inj hdprev)
    · by_cases hmn : m = n
      · subst hmn; rw [hn_ch] at he; exact Option.noConfusion he
      · rw [hch m hmn] at he
        have := (hwf.children_matched m d he).2
        rw [this] at hdprev; exact Option.noConfusion hdprev
  -- reaching the fresh node goes through the cursor
  have hntoc : InTree s' n → InTree s c := by
    intro h
    rcases inTree_inv h with hr | ⟨m, hm', he⟩ | ⟨m, hm', he⟩
    · rw [hrt] at hr; exact absurd hr hroot
    · by_cases hmn : m = n
      · subst hmn; rw [hn_nx] at he; exact Option.noConfusion he
      · by_cases hmc : m = c
        · rw [hmc] at hm'
          rcases htr c hm' with h2 | h2
          · exact h2
          · exact absurd h2 hcn
        · rw [hnx m hmn hmc] at he
          exact absurd he (hno_next_n m)
    · by_cases hmn : m = n
      · subst hmn; rw [hn_ch] at he; exact Option.noConfusion he
      · rw [hch m hmn] at he
        exact absurd he (hno_child_n m)
  have htrc : ∀ z, InTree s' z → z ≠ n → InTree s z := by
    intro z hz hzn
    rcases htr z hz with h | h
    · exact h
    · exact absurd h hzn
  refine ⟨?_, ?_, ?_, ?_, ?_, ?_, ?_, ?_⟩
  · -- root_ok
    intro r hr
    rw [hrt] at hr
    have hrn : r ≠ n := fun h => hroot (h ▸ hr)
    have := hwf.root_ok r hr
    rw [hpv2 r hrn, hpf r hrn]
    exact this
  · -- next_matched
    intro q x' he
    by_cases hqn : q = n
    · subst hqn; rw [hn_nx] at he; exact Option.noConfusion he
    · by_cases hqc : q = c
      · subst hqc; rw [hc_nx] at he
        cases he; rw [hn_pv]
      · rw [hnx q hqn hqc] at he
        have hx'n : x' ≠ n := fun h => hno_next_n q (h ▸ he)
        have := hwf.next_matched q x' he
        rw [hpv2 x' hx'n]
        exact this
  · -- children_matched
    intro q x' he
    by_cases hqn : q = n
    · subst hqn; rw [hn_ch] at he; exact Option.noConfusion he
    · rw [hch q hqn] at he
      have hx'n : x' ≠ n := fun h => hno_child_n q (h ▸ he)
      have := hwf.children_matched q x' he
      rw [hpf x' hx'n, hpv2 x' hx'n]
      exact this
  · -- prev_next
    intro z p hz hp
    by_cases hzn : z = n
    · subst hzn
      rw [hn_pv] at hp
      have hpeq := Option.some.inj hp
      subst hpeq
      have hsc : InTree s c := hntoc hz
      refine ⟨hc_nx, ?_⟩
      rw [hn_par, hpf c hcn]
      exact hwf.cur_ok c hc hsc
    · have hsz : InTree s z := htrc z hz hzn
      rw [hpv2 z hzn] at hp
      have ⟨hp1, hp2⟩ := hwf.prev_next z p hsz hp
      have hpn : p ≠ n := by
        intro h; subst h
        rw [hblank] at hp1; exact Option.noConfusion hp1
      by_cases hpc2 : p = c
      · subst hpc2
        -- z is the orphaned old next of the cursor: contradiction
        exact absurd hz (horph z hp1)
      · rw [hnx p hpn hpc2, hpf p hpn, hpf z hzn]
        exact ⟨hp1, hp2⟩
  · -- sib_parent
    intro z m hz he
    by_cases hzn : z = n
    · subst hzn; rw [hn_nx] at he; exact Option.noConfusion he
    · by_cases hzc : z = c
      · rw [hzc] at hz he
        rw [hc_nx] at he
        have hmeq := Option.some.inj he
        subst hmeq
        have hsc : InTree s c := htrc c hz hcn
        rw [hzc, hn_par, hpf c hcn]
        exact (hwf.cur_ok c hc hsc).symm
      · rw [hnx z hzn hzc] at he
        have hsz : InTree s z := htrc z hz hzn
        have hmn : m ≠ n := fun h => hno_next_n z (h ▸ he)
        rw [hpf m hmn, hpf z hzn]
        exact hwf.sib_parent z m hsz he
  · -- parent_ok
    intro z q hz hq
    by_cases hzn : z = n
    · have hzn2 : n = z := hzn.symm
      subst hzn2
      rw [hn_par] at hq
      have hqn : q ≠ n := fun h => hpar (h ▸ hq)
      rw [hn_pv, hch q hqn]
      constructor
      · intro h; exact absurd h (hno_child_n q)
      · intro h; exact Option.noConfusion h
    · have hsz : InTree s z := htrc z hz hzn
      rw [hpf z hzn] at hq
      have hiff := hwf.parent_ok z q hsz hq
      have hqn : q ≠ n := by
        intro h; subst h
        have := parent_has_child hwf hsz hq
        rw [hblank] at this
        exact this rfl
      rw [hch q hqn, hpv2 z hzn]
      exact hiff
  · -- cur_ok
    intro c' hc' _
    rw [hcur'] at hc'
    cases hc'
    rw [hn_par, hpc']
  · -- ranked
    obtain ⟨rk, hrk⟩ := hwf.ranked
    refine ⟨fun z => if z = n then rk c + 1 else rk z, ?_⟩
    intro z hz
    by_cases hzn : z = n
    · subst hzn
      exact ⟨fun m h => absurd h (hn_nx ▸ fun h => Option.noConfusion h),
             fun m h => absurd h (hn_ch ▸ fun h => Option.noConfusion h)⟩
    · have hsz : InTree s z := htrc z hz hzn
      constructor
      · intro m hm
        by_cases hzc : z = c
        · subst hzc
          rw [hc_nx] at hm
          cases hm
          simp [hcn]
        · rw [hnx z hzn hzc] at hm
          have hmn : m ≠ n := fun h => hno_next_n z (h ▸ hm)
          simp only [if_neg hzn, if_neg hmn]
          exact (hrk z hsz).1 m hm
      · intro m hm
        rw [hch z hzn] at hm
        have hmn : m ≠ n := fun h => hno_child_n z (h ▸ hm)
        simp only [if_neg hzn, if_neg hmn]
        exact (hrk z hsz).2 m hm

theorem wf_add_parent {s : BState} {n p : Nat} (hwf : WF s) (hf : Fresh s n)
    (hc : s.current? = none) (hp : s.parentCur? = some p) : WF (add_element s n) := by
  obtain ⟨hblank, hroot, hcur, hpar⟩ := hf
  have hpn : p ≠ n := fun h => hpar (h ▸ hp)
  have hnp : n ≠ p := Ne.symm hpn
  set s' := add_element s n with hs'
  have hn_par : (s'.mem n).parent? = some p := by
    simp [hs', add_element, hc, hp, upd, hpn, hnp]
  have hn_ch : (s'.mem n).children? = none := by
    simp [hs', add_element, hc, hp, upd, hpn, hnp, hblank, NodeRec.blank]
  have hn_nx : (s'.mem n).next? = none := by
    simp [hs', add_element, hc, hp, upd, hpn, hnp, hblank, NodeRec.blank]
  have hn_pv : (s'.mem n).prev? = none := by
    simp [hs', add_element, hc, hp, upd, hpn, hnp]
  have hp_ch : (s'.mem p).children? = some n := by
    simp [hs', add_element, hc, hp, upd, hpn, hnp]
  have hnx : ∀ j, j ≠ n → (s'.mem j).next? = (s.mem j).next? := by
    intro j h1
    by_cases h2 : j = p
    · subst h2; simp [hs', add_element, hc, hp, upd, h1]
    · simp [hs', add_element, hc, hp, upd, h1, h2]
  have hch : ∀ j, j ≠ n → j ≠ p → (s'.mem j).children? = (s.mem j).children? := by
    intro j h1 h2; simp [hs', add_element, hc, hp, upd, h1, h2]
  have hpv2 : ∀ j, j ≠ n → (s'.mem j).prev? = (s.mem j).prev? := by
    intro j h1
    by_cases h2 : j = p
    · subst h2; simp [hs', add_element, hc, hp, upd, h1]
    · simp [hs', add_element, hc, hp, upd, h1, h2]
  have hpf : ∀ j, j ≠ n → (s'.mem j).parent? = (s.mem j).parent? := by
    intro j h1
    by_cases h2 : j = p
    · subst h2; simp [hs', add_element, hc, hp, upd, h1]
    · simp [hs', add_element, hc, hp, upd, h1, h2]
  have hrt : s'.root? = s.root? := by simp [hs', add_element, hc, hp]
  have hcur' : s'.current? = some n := by simp [hs', add_element, hc, hp]
  have hpc' : s'.parentCur? = s.parentCur? := by simp [hs', add_element, hc, hp]
  have hno_next_n : ∀ q, (s.mem q).next? ≠ some n := blank_no_next_edge hwf hblank
  have hno_child_n : ∀ q, (s.mem q).children? ≠ some n := blank_no_children_edge hwf hblank
  have htr : ∀ z, InTree s' z → InTree s z ∨ z = n := by
    intro z hz
    induction hz with
    | root r hr => exact .inl (.root r (hrt ▸ hr))
    | via_next m z hm he ih =>
      by_cases hmn : m = n
      · subst hmn; rw [hn_nx] at he; exact Option.noConfusion he
      · rw [hnx m hmn] at he
        rcases ih with h | h
        · exact .inl (.via_next m z h he)
        · exact absurd h hmn
    | via_children m z hm he ih =>
      by_cases hmn : m = n
      · subst hmn; rw [hn_ch] at he; exact Option.noConfusion he
      · by_cases hmp : m = p
        · subst hmp; rw [hp_ch] at he
          exact .inr (Option.some.inj he).symm
        · rw [hch m hmn hmp] at he
          rcases ih with h | h
          · exact .inl (.via_children m z h he)
          · exact absurd h hmn
  have htrc : ∀ z, InTree s' z → z ≠ n → InTree s z := by
    intro z hz hzn
    rcases htr z hz with h | h
    · exact h
    · exact absurd h hzn
  -- the old first child of p is orphaned
  have horph : ∀ d, (s.mem p).children? = some d → ¬InTree s' d := by
    intro d hd hzd
    have ⟨hdpar, hdprev⟩ := hwf.children_matched p d hd
    have hdn : d ≠ n := by
      intro h; subst h
      rw [hblank] at hdpar; exact Option.noConfusion hdpar
    rcases inTree_inv hzd with hr | ⟨m, hm', he⟩ | ⟨m, hm', he⟩
    · rw [hrt] at hr
      have := (hwf.root_ok d hr).2
      rw [this] at hdpar; exact Option.noConfusion hdpar
    · by_cases hmn : m = n
      · subst hmn; rw [hn_nx] at he; exact Option.noConfusion he
      · rw [hnx m hmn] at he
        have := hwf.next_matched m d he
        rw [this] at hdprev; exact Option.noConfusion hdprev
    · by_cases hmn : m = n
      · subst hmn; rw [hn_ch] at he; exact Option.noConfusion he
      · by_cases hmp : m = p
        · subst hmp; rw [hp_ch] at he
          exact hdn (Option.some.inj he).symm
        · rw [hch m hmn hmp] at he
          have := (hwf.children_matched m d he).1
          rw [hdpar] at this
          exact hmp (Option.some.inj this).symm
  refine ⟨?_, ?_, ?_, ?_, ?_, ?_, ?_, ?_⟩
  · -- root_ok
    intro r hr
    rw [hrt] at hr
    have hrn : r ≠ n := fun h => hroot (h ▸ hr)
    rw [hpv2 r hrn, hpf r hrn]
    exact hwf.root_ok r hr
  · -- next_matched
    intro q x' he
    by_cases hqn : q = n
    · subst hqn; rw [hn_nx] at he; exact Option.noConfusion he
    · rw [hnx q hqn] at he
      have hx'n : x' ≠ n := fun h => hno_next_n q (h ▸ he)
      rw [hpv2 x' hx'n]
      exact hwf.next_matched q x' he
  · -- children_matched
    intro q x' he
    by_cases hqn : q = n
    · subst hqn; rw [hn_ch] at he; exact Option.noConfusion he
    · by_cases hqp : q = p
      · subst hqp; rw [hp_ch] at he
        have hx := (Option.some.inj he).symm
        subst hx
        exact ⟨hn_par, hn_pv⟩
      · rw [hch q hqn hqp] at he
        have hx'n : x' ≠ n := fun h => hno_child_n q (h ▸ he)
        rw [hpf x' hx'n, hpv2 x' hx'n]
        exact hwf.children_matched q x' he
  · -- prev_next
    intro z pp hz hpp
    by_cases hzn : z = n
    · subst hzn; rw [hn_pv] at hpp; exact Option.noConfusion hpp
    · have hsz : InTree s z := htrc z hz hzn
      rw [hpv2 z hzn] at hpp
      have ⟨hp1, hp2⟩ := hwf.prev_next z pp hsz hpp
      have hppn : pp ≠ n := by
        intro h; subst h
        rw [hblank] at hp1; exact Option.noConfusion hp1
      rw [hnx pp hppn, hpf pp hppn, hpf z hzn]
      exact ⟨hp1, hp2⟩
  · -- sib_parent
    intro z m hz he
    by_cases hzn : z = n
    · subst hzn; rw [hn_nx] at he; exact Option.noConfusion he
    · rw [hnx z hzn] at he
      have hsz : InTree s z := htrc z hz hzn
      have hmn : m ≠ n := fun h => hno_next_n z (h ▸ he)
      rw [hpf m hmn, hpf z hzn]
      exact hwf.sib_parent z m hsz he
  · -- parent_ok
    intro z q hz hq
    by_cases hzn : z = n
    · have hzn2 : n = z := hzn.symm
      subst hzn2
      rw [hn_par] at hq
      have hq2 := (Option.some.inj hq)
      subst hq2
      rw [hp_ch, hn_pv]
      simp
    · have hsz : InTree s z := htrc z hz hzn
      rw [hpf z hzn] at hq
      have hiff := hwf.parent_ok z q hsz hq
      have hqn : q ≠ n := by
        intro h; subst h
        have := parent_has_child hwf hsz hq
        rw [hblank] at this
        exact this rfl
      by_cases hqp : q = p
      · subst hqp
        rw [hp_ch, hpv2 z hzn]
        constructor
        · intro h
          exact absurd (Option.some.inj h).symm hzn
        · intro h
          have := hiff.mpr h
          exact absurd hz (horph z this)
      · rw [hch q hqn hqp, hpv2 z hzn]
        exact hiff
  · -- cur_ok
    intro c' hc' _
    rw [hcur'] at hc'
    cases hc'
    rw [hn_par, hpc', hp]
  · -- ranked
    obtain ⟨rk, hrk⟩ := hwf.ranked
    refine ⟨fun z => if z = n then rk p + 1 else rk z, ?_⟩
    intro z hz
    by_cases hzn : z = n
    · subst hzn
      exact ⟨fun m h => absurd h (hn_nx ▸ fun h => Option.noConfusion h),
             fun m h => absurd h (hn_ch ▸ fun h => Option.noConfusion h)⟩
    · have hsz : InTree s z := htrc z hz hzn
      constructor
      · intro m hm
        rw [hnx z hzn] at hm
        have hmn : m ≠ n := fun h => hno_next_n z (h ▸ hm)
        simp only [if_neg hzn, if_neg hmn]
        exact (hrk z hsz).1 m hm
      · intro m hm
        by_cases hzp : z = p
        · subst hzp
          rw [hp_ch] at hm
          have hm2 := (Option.some.inj hm).symm
          subst hm2
          simp [hpn]
        · rw [hch z hzn hzp] at hm
          have hmn : m ≠ n := fun h => hno_child_n z (h ▸ hm)
          simp only [if_neg hzn, if_neg hmn]
          exact (hrk z hsz).2 m hm

theorem wf_add_root {s : BState} {n : Nat} (hwf : WF s) (hf : Fresh s n)
    (hc : s.current? = none) (hp : s.parentCur? = none) : WF (add_element s n) := by
  obtain ⟨hblank, hroot, hcur, hpar⟩ := hf
  set s' := add_element s n with hs'
  have hmm : s'.mem = s.mem := by
    funext j
    by_cases hj : j = n
    · subst hj
      simp [hs', add_element, hc, hp, upd, hblank, NodeRec.blank]
    · simp [hs', add_element, hc, hp, upd, hj]
  have hrt : s'.root? = some n := by simp [hs', add_element, hc, hp]
  have hcur' : s'.current? = some n := by simp [hs', add_element, hc, hp]
  have hpc' : s'.parentCur? = none := by simp [hs', add_element, hc, hp]
  have hmemn : s.mem n = NodeRec.blank := hblank
  have hionly : ∀ z, InTree s' z → z = n := by
    intro z hz
    induction hz with
    | root r hr => rw [hrt] at hr; exact (Option.some.inj hr).symm
    | via_next m z hm he ih =>
      subst ih
      rw [hmm, hmemn] at he
      exact Option.noConfusion he
    | via_children m z hm he ih =>
      subst ih
      rw [hmm, hmemn] at he
      exact Option.noConfusion he
  refine ⟨?_, ?_, ?_, ?_, ?_, ?_, ?_, ?_⟩
  · intro r hr
    rw [hrt] at hr
    cases hr
    rw [hmm, hmemn]
    exact ⟨rfl, rfl⟩
  · intro q x' he
    rw [hmm] at he ⊢
    exact hwf.next_matched q x' he
  · intro q x' he
    rw [hmm] at he ⊢
    exact hwf.children_matched q x' he
  · intro z pp hz hpp
    have := hionly z hz
    subst this
    rw [hmm, hmemn] at hpp
    exact Option.noConfusion hpp
  · intro z m hz he
    have := hionly z hz
    subst this
    rw [hmm, hmemn] at he
    exact Option.noConfusion he
  · intro z q hz hq
    have := hionly z hz
    subst this
    rw [hmm, hmemn] at hq
    exact Option.noConfusion hq
  · intro c' hc' _
    rw [hcur'] at hc'
    cases hc'
    rw [hmm, hmemn, hpc']
    rfl
  · refine ⟨fun _ => 0, ?_⟩
    intro z hz
    have := hionly z hz
    subst this
    rw [hmm, hmemn]
    exact ⟨fun m h => Option.noConfusion h, fun m h => Option.noConfusion h⟩

/-- add_element preserves well-formedness. -/
theorem wf_add {s : BState} {n : Nat} (hwf : WF s) (hf : Fresh s n) :
    WF (add_element s n) := by
  rcases hcur : s.current? with _ | c
  · rcases hpc : s.parentCur? with _ | p
    · exact wf_add_root hwf hf hcur hpc
    · exact wf_add_parent hwf hf hcur hpc
  · exact wf_add_cur hwf hf hcur

theorem wf_extract_prev {s : BState} {x p : Nat} (hwf : WF s) (hx : InTree s x)
    (hpv : (s.mem x).prev? = some p) : WF (extract s x).1 := by
  have ⟨hpnx, hppar⟩ := hwf.prev_next x p hx hpv
  have hpx : p ≠ x := by
    intro h; rw [h] at hpnx; exact no_self_next hwf hx hpnx
  have hxp : x ≠ p := Ne.symm hpx
  have hip : InTree s p := by
    rcases inTree_inv hx with hr | ⟨q, hq, he⟩ | ⟨q, hq, he⟩
    · have := (hwf.root_ok x hr).1
      rw [hpv] at this; exact Option.noConfusion this
    · have h1 := hwf.next_matched q x he
      rw [hpv] at h1
      have h2 := Option.some.inj h1
      rw [← h2] at hq; exact hq
    · have := (hwf.children_matched q x he).2
      rw [hpv] at this; exact Option.noConfusion this
  obtain ⟨rk, hrk⟩ := hwf.ranked
  have hlt_px : rk p < rk x := (hrk p hip).1 x hpnx
  set s' := (extract s x).1 with hs'
  rcases hnx : (s.mem x).next? with _ | m
  · -- x has no next sibling
    have f1 : (s'.mem x).parent? = none := by
      simp [hs', extract, hpv, hnx, upd]
    have f2 : (s'.mem x).next? = none := by
      simp [hs', extract, hpv, hnx, upd]
    have f3 : (s'.mem x).prev? = none := by
      simp [hs', extract, hpv, hnx, upd]
    have f4 : ∀ j, (s'.mem j).children? = (s.mem j).children? := by
      intro j
      by_cases hj : j = x
      · subst hj; simp [hs', extract, hpv, hnx, upd, hxp]
      · by_cases hj2 : j = p
        · subst hj2; simp [hs', extract, hpv, hnx, upd, hpx]
        · simp [hs', extract, hpv, hnx, upd, hj, hj2]
    have f5 : (s'.mem p).next? = none := by
      simp [hs', extract, hpv, hnx, upd, hpx]
    have f7 : ∀ j, j ≠ x → (s'.mem j).parent? = (s.mem j).parent? := by
      intro j hj
      by_cases hj2 : j = p
      · subst hj2; simp [hs', extract, hpv, hnx, upd, hpx]
      · simp [hs', extract, hpv, hnx, upd, hj, hj2]
    have f8 : ∀ j, j ≠ x → j ≠ p → (s'.mem j).next? = (s.mem j).next? := by
      intro j hj hj2; simp [hs', extract, hpv, hnx, upd, hj, hj2]
    have f9 : ∀ j, j ≠ x → (s'.mem j).prev? = (s.mem j).prev? := by
      intro j hj
      by_cases hj2 : j = p
      · subst hj2; simp [hs', extract, hpv, hnx, upd, hpx]
      · simp [hs', extract, hpv, hnx, upd, hj, hj2]
    have f10 : s'.root? = s.root? := by simp [hs', extract, hpv, hnx]
    have f11 : s'.current? = s.current? := by simp [hs', extract, hpv, hnx]
    have f12 : s'.parentCur? = s.parentCur? := by simp [hs', extract, hpv, hnx]
    have htr : ∀ z, InTree s' z → InTree s z := by
      intro z hz
      induction hz with
      | root r hr => exact .root r (f10 ▸ hr)
      | via_next q z hq he ih =>
        by_cases hqx : q = x
        · subst hqx; rw [f2] at he; exact Option.noConfusion he
        · by_cases hqp : q = p
          · subst hqp; rw [f5] at he; exact Option.noConfusion he
          · rw [f8 q hqx hqp] at he
            exact .via_next q z ih he
      | via_children q z hq he ih =>
        rw [f4 q] at he
        exact .via_children q z ih he
    have hnix : ¬InTree s' x := by
      intro h
      rcases inTree_inv h with hr | ⟨q, hq, he⟩ | ⟨q, hq, he⟩
      · rw [f10] at hr
        have := (hwf.root_ok x hr).1
        rw [hpv] at this; exact Option.noConfusion this
      · by_cases hqx : q = x
        · subst hqx; rw [f2] at he; exact Option.noConfusion he
        · by_cases hqp : q = p
          · subst hqp; rw [f5] at he; exact Option.noConfusion he
          · rw [f8 q hqx hqp] at he
            have := hwf.next_matched q x he
            rw [hpv] at this
            exact hqp (Option.some.inj this).symm
      · rw [f4 q] at he
        have := (hwf.children_matched q x he).2
        rw [hpv] at this; exact Option.noConfusion this
    refine ⟨?_, ?_, ?_, ?_, ?_, ?_, ?_, ?_⟩
    · intro r hr
      rw [f10] at hr
      have h := hwf.root_ok r hr
      have hrx : r ≠ x := by
        intro hh; rw [hh] at h
        rw [hpv] at h; exact Option.noConfusion h.1
      rw [f9 r hrx, f7 r hrx]
      exact h
    · intro q x' he
      by_cases hqx : q = x
      · subst hqx; rw [f2] at he; exact Option.noConfusion he
      · by_cases hqp : q = p
        · subst hqp; rw [f5] at he; exact Option.noConfusion he
        · rw [f8 q hqx hqp] at he
          have h := hwf.next_matched q x' he
          have hx'x : x' ≠ x := by
            intro hh; rw [hh] at h
            rw [hpv] at h
            exact hqp (Option.some.inj h).symm
          rw [f9 x' hx'x]
          exact h
    · intro q x' he
      rw [f4 q] at he
      have ⟨h1, h2⟩ := hwf.children_matched q x' he
      have hx'x : x' ≠ x := by
        intro hh; rw [hh] at h2
        rw [hpv] at h2; exact Option.noConfusion h2
      rw [f7 x' hx'x, f9 x' hx'x]
      exact ⟨h1, h2⟩
    · intro z w hz hw
      by_cases hzx : z = x
      · subst hzx; rw [f3] at hw; exact Option.noConfusion hw
      · have hsz : InTree s z := htr z hz
        rw [f9 z hzx] at hw
        have ⟨h1, h2⟩ := hwf.prev_next z w hsz hw
        have hwx : w ≠ x := by
          intro hh; rw [hh] at h1
          rw [hnx] at h1; exact Option.noConfusion h1
        have hwp : w ≠ p := by
          intro hh; rw [hh] at h1
          rw [hpnx] at h1
          exact hzx (Option.some.inj h1).symm
        rw [f8 w hwx hwp, f7 w hwx, f7 z hzx]
        exact ⟨h1, h2⟩
    · intro z w hz he
      by_cases hzx : z = x
      · subst hzx; rw [f2] at he; exact Option.noConfusion he
      · by_cases hzp : z = p
        · subst hzp; rw [f5] at he; exact Option.noConfusion he
        · rw [f8 z hzx hzp] at he
          have hsz : InTree s z := htr z hz
          have h := hwf.sib_parent z w hsz he
          have hwx : w ≠ x := by
            intro hh; rw [hh] at he
            have := hwf.next_matched z x he
            rw [hpv] at this
            exact hzp (Option.some.inj this).symm
          rw [f7 w hwx, f7 z hzx]
          exact h
    · intro z q hz hq
      by_cases hzx : z = x
      · subst hzx; rw [f1] at hq; exact Option.noConfusion hq
      · have hsz : InTree s z := htr z hz
        rw [f7 z hzx] at hq
        have hiff := hwf.parent_ok z q hsz hq
        rw [f4 q, f9 z hzx]
        exact hiff
    · intro c hc hc2
      rw [f11] at hc
      by_cases hcx : c = x
      · subst hcx; exact absurd hc2 hnix
      · rw [f7 c hcx, f12]
        exact hwf.cur_ok c hc (htr c hc2)
    · refine ⟨rk, ?_⟩
      intro z hz
      have hsz : InTree s z := htr z hz
      constructor
      · intro w hw
        by_cases hzx : z = x
        · subst hzx; rw [f2] at hw; exact Option.noConfusion hw
        · by_cases hzp : z = p
          · subst hzp; rw [f5] at hw; exact Option.noConfusion hw
          · rw [f8 z hzx hzp] at hw
            exact (hrk z hsz).1 w hw
      · intro w hw
        rw [f4 z] at hw
        exact (hrk z hsz).2 w hw
  · -- x has a next sibling m
    have hmx : m ≠ x := by
      intro h; rw [h] at hnx; exact no_self_next hwf hx hnx
    have hxm : x ≠ m := Ne.symm hmx
    have hm_prev : (s.mem m).prev? = some x := hwf.next_matched x m hnx
    have hm_par : (s.mem m).parent? = (s.mem x).parent? := hwf.sib_parent x m hx hnx
    have him : InTree s m := .via_next x m hx hnx
    have hlt_xm : rk x < rk m := (hrk x hx).1 m hnx
    have hmp : m ≠ p := by
      intro h; rw [h] at hlt_xm
      exact absurd (hlt_px.trans hlt_xm) (lt_irrefl _)
    have hpm : p ≠ m := Ne.symm hmp
    have f1 : (s'.mem x).parent? = none := by
      simp [hs', extract, hpv, hnx, upd]
    have f2 : (s'.mem x).next? = none := by
      simp [hs', extract, hpv, hnx, upd]
    have f3 : (s'.mem x).prev? = none := by
      simp [hs', extract, hpv, hnx, upd]
    have f4 : ∀ j, (s'.mem j).children? = (s.mem j).children? := by
      intro j
      by_cases hj : j = x
      · subst hj; simp [hs', extract, hpv, hnx, upd, hxp, hxm]
      · by_cases hj2 : j = p
        · subst hj2; simp [hs', extract, hpv, hnx, upd, hpx, hpm]
        · by_cases hj3 : j = m
          · subst hj3; simp [hs', extract, hpv, hnx, upd, hmx, hmp]
          · simp [hs', extract, hpv, hnx, upd, hj, hj2, hj3]
    have f5 : (s'.mem p).next? = some m := by
      simp [hs', extract, hpv, hnx, upd, hpx, hpm]
    have f6 : (s'.mem m).prev? = some p := by
      simp [hs', extract, hpv, hnx, upd, hmx, hmp]
    have f7 : ∀ j, j ≠ x → (s'.mem j).parent? = (s.mem j).parent? := by
      intro j hj
      by_cases hj2 : j = p
      · subst hj2; simp [hs', extract, hpv, hnx, upd, hpx, hpm]
      · by_cases hj3 : j = m
        · subst hj3; simp [hs', extract, hpv, hnx, upd, hmx, hmp]
        · simp [hs', extract, hpv, hnx, upd, hj, hj2, hj3]
    have f8 : ∀ j, j ≠ x → j ≠ p → (s'.mem j).next? = (s.mem j).next? := by
      intro j hj hj2
      by_cases hj3 : j = m
      · subst hj3; simp [hs', extract, hpv, hnx, upd, hmx, hmp]
      · simp [hs', extract, hpv, hnx, upd, hj, hj2, hj3]
    have f9 : ∀ j, j ≠ x → j ≠ m → (s'.mem j).prev? = (s.mem j).prev? := by
      intro j hj hj3
      by_cases hj2 : j = p
      · subst hj2; simp [hs', extract, hpv, hnx, upd, hpx, hpm]
      · simp [hs', extract, hpv, hnx, upd, hj, hj2, hj3]
    have f10 : s'.root? = s.root? := by simp [hs', extract, hpv, hnx]
    have f11 : s'.current? = s.current? := by simp [hs', extract, hpv, hnx]
    have f12 : s'.parentCur? = s.parentCur? := by simp [hs', extract, hpv, hnx]
    have htr : ∀ z, InTree s' z → InTree s z := by
      intro z hz
      induction hz with
      | root r hr => exact .root r (f10 ▸ hr)
      | via_next q z hq he ih =>
        by_cases hqx : q = x
        · subst hqx; rw [f2] at he; exact Option.noConfusion he
        · by_cases hqp : q = p
          · subst hqp; rw [f5] at he
            have h2 := (Option.some.inj he).symm
            rw [h2]; exact him
          · rw [f8 q hqx hqp] at he
            exact .via_next q z ih he
      | via_children q z hq he ih =>
        rw [f4 q] at he
        exact .via_children q z ih he
    have hnix : ¬InTree s' x := by
      intro h
      rcases inTree_inv h with hr | ⟨q, hq, he⟩ | ⟨q, hq, he⟩
      · rw [f10] at hr
        have := (hwf.root_ok x hr).1
        rw [hpv] at this; exact Option.noConfusion this
      · by_cases hqx : q = x
        · subst hqx; rw [f2] at he; exact Option.noConfusion he
        · by_cases hqp : q = p
          · subst hqp; rw [f5] at he
            exact hmx (Option.some.inj he)
          · rw [f8 q hqx hqp] at he
            have := hwf.next_matched q x he
            rw [hpv] at this
            exact hqp (Option.some.inj this).symm
      · rw [f4 q] at he
        have := (hwf.children_matched q x he).2
        rw [hpv] at this; exact Option.noConfusion this
    refine ⟨?_, ?_, ?_, ?_, ?_, ?_, ?_, ?_⟩
    · intro r hr
      rw [f10] at hr
      have h := hwf.root_ok r hr
      have hrx : r ≠ x := by
        intro hh; rw [hh] at h
        rw [hpv] at h; exact Option.noConfusion h.1
      have hrm : r ≠ m := by
        intro hh; rw [hh] at h
        rw [hm_prev] at h; exact Option.noConfusion h.1
      rw [f9 r hrx hrm, f7 r hrx]
      exact h
    · intro q x' he
      by_cases hqx : q = x
      · subst hqx; rw [f2] at he; exact Option.noConfusion he
      · by_cases hqp : q = p
        · subst hqp; rw [f5] at he
          have h2 := (Option.some.inj he).symm
          rw [h2, f6]
        · rw [f8 q hqx hqp] at he
          have h := hwf.next_matched q x' he
          have hx'x : x' ≠ x := by
            intro hh; rw [hh] at h
            rw [hpv] at h
            exact hqp (Option.some.inj h).symm
          have hx'm : x' ≠ m := by
            intro hh; rw [hh] at h
            rw [hm_prev] at h
            exact hqx (Option.some.inj h).symm
          rw [f9 x' hx'x hx'm]
          exact h
    · intro q x' he
      rw [f4 q] at he
      have ⟨h1, h2⟩ := hwf.children_matched q x' he
      have hx'x : x' ≠ x := by
        intro hh; rw [hh] at h2
        rw [hpv] at h2; exact Option.noConfusion h2
      have hx'm : x' ≠ m := by
        intro hh; rw [hh] at h2
        rw [hm_prev] at h2; exact Option.noConfusion h2
      rw [f7 x' hx'x, f9 x' hx'x hx'm]
      exact ⟨h1, h2⟩
    · intro z w hz hw
      by_cases hzx : z = x
      · subst hzx; rw [f3] at hw; exact Option.noConfusion hw
      · by_cases hzm : z = m
        · have hzm2 : m = z := hzm.symm
          subst hzm2
          rw [f6] at hw
          have h2 := Option.some.inj hw
          rw [← h2]
          refine ⟨f5, ?_⟩
          rw [f7 p hpx, f7 m hmx, hm_par, hppar]
        · have hsz : InTree s z := htr z hz
          rw [f9 z hzx hzm] at hw
          have ⟨h1, h2⟩ := hwf.prev_next z w hsz hw
          have hwx : w ≠ x := by
            intro hh; rw [hh] at h1
            rw [hnx] at h1
            exact hzm (Option.some.inj h1).symm
          have hwp : w ≠ p := by
            intro hh; rw [hh] at h1
            rw [hpnx] at h1
            exact hzx (Option.some.inj h1).symm
          rw [f8 w hwx hwp, f7 w hwx, f7 z hzx]
          exact ⟨h1, h2⟩
    · intro z w hz he
      by_cases hzx : z = x
      · subst hzx; rw [f2] at he; exact Option.noConfusion he
      · by_cases hzp : z = p
        · have hzp2 : p = z := hzp.symm
          subst hzp2
          rw [f5] at he
          have h2 := (Option.some.inj he).symm
          rw [h2, f7 m hmx, f7 p hpx, hm_par, hppar]
        · rw [f8 z hzx hzp] at he
          have hsz : InTree s z := htr z hz
          have h := hwf.sib_parent z w hsz he
          have hwx : w ≠ x := by
            intro hh; rw [hh] at he
            have := hwf.next_matched z x he
            rw [hpv] at this
            exact hzp (Option.some.inj this).symm
          rw [f7 w hwx, f7 z hzx]
          exact h
    · intro z q hz hq
      by_cases hzx : z = x
      · subst hzx; rw [f1] at hq; exact Option.noConfusion hq
      · have hsz : InTree s z := htr z hz
        rw [f7 z hzx] at hq
        have hiff := hwf.parent_ok z q hsz hq
        by_cases hzm : z = m
        · subst hzm
          rw [f4 q, f6]
          rw [hm_prev] at hiff
          constructor
          · intro h
            have := hiff.mp h
            exact Option.noConfusion this
          · intro h; exact Option.noConfusion h
        · rw [f4 q, f9 z hzx hzm]
          exact hiff
    · intro c hc hc2
      rw [f11] at hc
      by_cases hcx : c = x
      · subst hcx; exact absurd hc2 hnix
      · rw [f7 c hcx, f12]
        exact hwf.cur_ok c hc (htr c hc2)
    · refine ⟨rk, ?_⟩
      intro z hz
      have hsz : InTree s z := htr z hz
      constructor
      · intro w hw
        by_cases hzx : z = x
        · subst hzx; rw [f2] at hw; exact Option.noConfusion hw
        · by_cases hzp : z = p
          · subst hzp; rw [f5] at hw
            have h2 := (Option.some.inj hw).symm
            rw [h2]
            exact hlt_px.trans hlt_xm
          · rw [f8 z hzx hzp] at hw
            exact (hrk z hsz).1 w hw
      · intro w hw
        rw [f4 z] at hw
        exact (hrk z hsz).2 w hw

theorem wf_extract_parent {s : BState} {x p : Nat} (hwf : WF s) (hx : InTree s x)
    (hpv : (s.mem x).prev? = none) (hpr : (s.mem x).parent? = some p) :
    WF (extract s x).1 := by
  have hpch : (s.mem p).children? = some x := (hwf.parent_ok x p hx hpr).mpr hpv
  have hpx : p ≠ x := by
    intro h; rw [h] at hpch; exact no_self_children hwf hx hpch
  have hxp : x ≠ p := Ne.symm hpx
  have hip : InTree s p := by
    rcases inTree_inv hx with hr | ⟨q, hq, he⟩ | ⟨q, hq, he⟩
    · have := (hwf.root_ok x hr).2
      rw [hpr] at this; exact Option.noConfusion this
    · have := hwf.next_matched q x he
      rw [hpv] at this; exact Option.noConfusion this
    · have h1 := (hwf.children_matched q x he).1
      rw [hpr] at h1
      have h2 := Option.some.inj h1
      rw [← h2] at hq; exact hq
  obtain ⟨rk, hrk⟩ := hwf.ranked
  have hlt_px : rk p < rk x := (hrk p hip).2 x hpch
  set s' := (extract s x).1 with hs'
  rcases hnx : (s.mem x).next? with _ | m
  · -- no next sibling: parent's child list becomes empty
    have f1 : (s'.mem x).parent? = none := by
      simp [hs', extract, hpv, hpr, hnx, upd]
    have f2 : (s'.mem x).next? = none := by
      simp [hs', extract, hpv, hpr, hnx, upd]
    have f3 : (s'.mem x).prev? = none := by
      simp [hs', extract, hpv, hpr, hnx, upd]
    have f4p : (s'.mem p).children? = none := by
      simp [hs', extract, hpv, hpr, hnx, upd, hpx]
    have f4 : ∀ j, j ≠ p → (s'.mem j).children? = (s.mem j).children? := by
      intro j hj
      by_cases hj2 : j = x
      · subst hj2; simp [hs', extract, hpv, hpr, hnx, upd, hxp]
      · simp [hs', extract, hpv, hpr, hnx, upd, hj, hj2]
    have f5 : ∀ j, j ≠ x → (s'.mem j).next? = (s.mem j).next? := by
      intro j hj
      by_cases hj2 : j = p
      · subst hj2; simp [hs', extract, hpv, hpr, hnx, upd, hpx]
      · simp [hs', extract, hpv, hpr, hnx, upd, hj, hj2]
    have f7 : ∀ j, j ≠ x → (s'.mem j).parent? = (s.mem j).parent? := by
      intro j hj
      by_cases hj2 : j = p
      · subst hj2; simp [hs', extract, hpv, hpr, hnx, upd, hpx]
      · simp [hs', extract, hpv, hpr, hnx, upd, hj, hj2]
    have f9 : ∀ j, j ≠ x → (s'.mem j).prev? = (s.mem j).prev? := by
      intro j hj
      by_cases hj2 : j = p
      · subst hj2; simp [hs', extract, hpv, hpr, hnx, upd, hpx]
      · simp [hs', extract, hpv, hpr, hnx, upd, hj, hj2]
    have f10 : s'.root? = s.root? := by simp [hs', extract, hpv, hpr, hnx]
    have f11 : s'.current? = s.current? := by simp [hs', extract, hpv, hpr, hnx]
    have f12 : s'.parentCur? = s.parentCur? := by simp [hs', extract, hpv, hpr, hnx]
    have htr : ∀ z, InTree s' z → InTree s z := by
      intro z hz
      induction hz with
      | root r hr => exact .root r (f10 ▸ hr)
      | via_next q z hq he ih =>
        by_cases hqx : q = x
        · subst hqx; rw [f2] at he; exact Option.noConfusion he
        · rw [f5 q hqx] at he
          exact .via_next q z ih he
      | via_children q z hq he ih =>
        by_cases hqp : q = p
        · subst hqp; rw [f4p] at he; exact Option.noConfusion he
        · rw [f4 q hqp] at he
          exact .via_children q z ih he
    have hnix : ¬InTree s' x := by
      intro h
      rcases inTree_inv h with hr | ⟨q, hq, he⟩ | ⟨q, hq, he⟩
      · rw [f10] at hr
        have := (hwf.root_ok x hr).2
        rw [hpr] at this; exact Option.noConfusion this
      · by_cases hqx : q = x
        · subst hqx; rw [f2] at he; exact Option.noConfusion he
        · rw [f5 q hqx] at he
          have := hwf.next_matched q x he
          rw [hpv] at this; exact Option.noConfusion this
      · by_cases hqp : q = p
        · subst hqp; rw [f4p] at he; exact Option.noConfusion he
        · rw [f4 q hqp] at he
          have := (hwf.children_matched q x he).1
          rw [hpr] at this
          exact hqp (Option.some.inj this).symm
    refine ⟨?_, ?_, ?_, ?_, ?_, ?_, ?_, ?_⟩
    · intro r hr
      rw [f10] at hr
      have h := hwf.root_ok r hr
      have hrx : r ≠ x := by
        intro hh; rw [hh] at h
        rw [hpr] at h; exact Option.noConfusion h.2
      rw [f9 r hrx, f7 r hrx]
      exact h
    · intro q x' he
      by_cases hqx : q = x
      · subst hqx; rw [f2] at he; exact Option.noConfusion he
      · rw [f5 q hqx] at he
        have h := hwf.next_matched q x' he
        have hx'x : x' ≠ x := by
          intro hh; rw [hh] at h
          rw [hpv] at h; exact Option.noConfusion h
        rw [f9 x' hx'x]
        exact h
    · intro q x' he
      by_cases hqp : q = p
      · subst hqp; rw [f4p] at he; exact Option.noConfusion he
      · rw [f4 q hqp] at he
        have ⟨h1, h2⟩ := hwf.children_matched q x' he
        have hx'x : x' ≠ x := by
          intro hh; rw [hh] at h1
          rw [hpr] at h1
          exact hqp (Option.some.inj h1).symm
        rw [f7 x' hx'x, f9 x' hx'x]
        exact ⟨h1, h2⟩
    · intro z w hz hw
      by_cases hzx : z = x
      · subst hzx; rw [f3] at hw; exact Option.noConfusion hw
      · have hsz : InTree s z := htr z hz
        rw [f9 z hzx] at hw
        have ⟨h1, h2⟩ := hwf.prev_next z w hsz hw
        have hwx : w ≠ x := by
          intro hh; rw [hh] at h1
          rw [hnx] at h1; exact Option.noConfusion h1
        rw [f5 w hwx, f7 w hwx, f7 z hzx]
        exact ⟨h1, h2⟩
    · intro z w hz he
      by_cases hzx : z = x
      · subst hzx; rw [f2] at he; exact Option.noConfusion he
      · rw [f5 z hzx] at he
        have hsz : InTree s z := htr z hz
        have h := hwf.sib_parent z w hsz he
        have hwx : w ≠ x := by
          intro hh; rw [hh] at he
          have := hwf.next_matched z x he
          rw [hpv] at this; exact Option.noConfusion this
        rw [f7 w hwx, f7 z hzx]
        exact h
    · intro z q hz hq
      by_cases hzx : z = x
      · subst hzx; rw [f1] at hq; exact Option.noConfusion hq
      · have hsz : InTree s z := htr z hz
        rw [f7 z hzx] at hq
        have hiff := hwf.parent_ok z q hsz hq
        by_cases hqp : q = p
        · subst hqp
          rw [f4p, f9 z hzx]
          constructor
          · intro h; exact Option.noConfusion h
          · intro h
            have := hiff.mpr h
            rw [hpch] at this
            exact absurd (Option.some.inj this).symm hzx
        · rw [f4 q hqp, f9 z hzx]
          exact hiff
    · intro c hc hc2
      rw [f11] at hc
      by_cases hcx : c = x
      · subst hcx; exact absurd hc2 hnix
      · rw [f7 c hcx, f12]
        exact hwf.cur_ok c hc (htr c hc2)
    · refine ⟨rk, ?_⟩
      intro z hz
      have hsz : InTree s z := htr z hz
      constructor
      · intro w hw
        by_cases hzx : z = x
        · subst hzx; rw [f2] at hw; exact Option.noConfusion hw
        · rw [f5 z hzx] at hw
          exact (hrk z hsz).1 w hw
      · intro w hw
        by_cases hzp : z = p
        · subst hzp; rw [f4p] at hw; exact Option.noConfusion hw
        · rw [f4 z hzp] at hw
          exact (hrk z hsz).2 w hw
  · -- next sibling m becomes parent's first child
    have hmx : m ≠ x := by
      intro h; rw [h] at hnx; exact no_self_next hwf hx hnx
    have hxm : x ≠ m := Ne.symm hmx
    have hm_prev : (s.mem m).prev? = some x := hwf.next_matched x m hnx
    have hm_par : (s.mem m).parent? = (s.mem x).parent? := hwf.sib_parent x m hx hnx
    have him : InTree s m := .via_next x m hx hnx
    have hlt_xm : rk x < rk m := (hrk x hx).1 m hnx
    have hmp : m ≠ p := by
      intro h; rw [h] at hlt_xm
      exact absurd (hlt_px.trans hlt_xm) (lt_irrefl _)
    have hpm : p ≠ m := Ne.symm hmp
    have f1 : (s'.mem x).parent? = none := by
      simp [hs', extract, hpv, hpr, hnx, upd]
    have f2 : (s'.mem x).next? = none := by
      simp [hs', extract, hpv, hpr, hnx, upd]
    have f3 : (s'.mem x).prev? = none := by
      simp [hs', extract, hpv, hpr, hnx, upd]
    have f4p : (s'.mem p).children? = some m := by
      simp [hs', extract, hpv, hpr, hnx, upd, hpx, hpm]
    have f4 : ∀ j, j ≠ p → (s'.mem j).children? = (s.mem j).children? := by
      intro j hj
      by_cases hj2 : j = x
      · subst hj2; simp [hs', extract, hpv, hpr, hnx, upd, hxp, hxm]
      · by_cases hj3 : j = m
        · subst hj3; simp [hs', extract, hpv, hpr, hnx, upd, hmx, hmp]
        · simp [hs', extract, hpv, hpr, hnx, upd, hj, hj2, hj3]
    have f5 : ∀ j, j ≠ x → (s'.mem j).next? = (s.mem j).next? := by
      intro j hj
      by_cases hj2 : j = p
      · subst hj2; simp [hs', extract, hpv, hpr, hnx, upd, hpx, hpm]
      · by_cases hj3 : j = m
        · subst hj3; simp [hs', extract, hpv, hpr, hnx, upd, hmx, hmp]
        · simp [hs', extract, hpv, hpr, hnx, upd, hj, hj2, hj3]
    have f6 : (s'.mem m).prev? = none := by
      simp [hs', extract, hpv, hpr, hnx, upd, hmx, hmp]
    have f7 : ∀ j, j ≠ x → (s'.mem j).parent? = (s.mem j).parent? := by
      intro j hj
      by_cases hj2 : j = p
      · subst hj2; simp [hs', extract, hpv, hpr, hnx, upd, hpx, hpm]
      · by_cases hj3 : j = m
        · subst hj3; simp [hs', extract, hpv, hpr, hnx, upd, hmx, hmp]
        · simp [hs', extract, hpv, hpr, hnx, upd, hj, hj2, hj3]
    have f9 : ∀ j, j ≠ x → j ≠ m → (s'.mem j).prev? = (s.mem j).prev? := by
      intro j hj hj3
      by_cases hj2 : j = p
      · subst hj2; simp [hs', extract, hpv, hpr, hnx, upd, hpx, hpm]
      · simp [hs', extract, hpv, hpr, hnx, upd, hj, hj2, hj3]
    have f10 : s'.root? = s.root? := by simp [hs', extract, hpv, hpr, hnx]
    have f11 : s'.current? = s.current? := by simp [hs', extract, hpv, hpr, hnx]
    have f12 : s'.parentCur? = s.parentCur? := by simp [hs', extract, hpv, hpr, hnx]
    have htr : ∀ z, InTree s' z → InTree s z := by
      intro z hz
      induction hz with
      | root r hr => exact .root r (f10 ▸ hr)
      | via_next q z hq he ih =>
        by_cases hqx : q = x
        · subst hqx; rw [f2] at he; exact Option.noConfusion he
        · rw [f5 q hqx] at he
          exact .via_next q z ih he
      | via_children q z hq he ih =>
        by_cases hqp : q = p
        · subst hqp; rw [f4p] at he
          have h2 := (Option.some.inj he).symm
          rw [h2]; exact him
        · rw [f4 q hqp] at he
          exact .via_children q z ih he
    have hnix : ¬InTree s' x := by
      intro h
      rcases inTree_inv h with hr | ⟨q, hq, he⟩ | ⟨q, hq, he⟩
      · rw [f10] at hr
        have := (hwf.root_ok x hr).2
        rw [hpr] at this; exact Option.noConfusion this
      · by_cases hqx : q = x
        · subst hqx; rw [f2] at he; exact Option.noConfusion he
        · rw [f5 q hqx] at he
          have := hwf.next_matched q x he
          rw [hpv] at this; exact Option.noConfusion this
      · by_cases hqp : q = p
        · subst hqp; rw [f4p] at he
          exact hmx (Option.some.inj he)
        · rw [f4 q hqp] at he
          have := (hwf.children_matched q x he).1
          rw [hpr] at this
          exact hqp (Option.some.inj this).symm
    refine ⟨?_, ?_, ?_, ?_, ?_, ?_, ?_, ?_⟩
    · intro r hr
      rw [f10] at hr
      have h := hwf.root_ok r hr
      have hrx : r ≠ x := by
        intro hh; rw [hh] at h
        rw [hpr] at h; exact Option.noConfusion h.2
      refine ⟨?_, by rw [f7 r hrx]; exact h.2⟩
      by_cases hrm : r = m
      · subst hrm; exact f6
      · rw [f9 r hrx hrm]; exact h.1
    · intro q x' he
      by_cases hqx : q = x
      · subst hqx; rw [f2] at he; exact Option.noConfusion he
      · rw [f5 q hqx] at he
        have h := hwf.next_matched q x' he
        have hx'x : x' ≠ x := by
          intro hh; rw [hh] at h
          rw [hpv] at h; exact Option.noConfusion h
        have hx'm : x' ≠ m := by
          intro hh; rw [hh] at h
          rw [hm_prev] at h
          exact hqx (Option.some.inj h).symm
        rw [f9 x' hx'x hx'm]
        exact h
    · intro q x' he
      by_cases hqp : q = p
      · subst hqp; rw [f4p] at he
        have h2 := Option.some.inj he
        subst h2
        refine ⟨?_, f6⟩
        rw [f7 m hmx, hm_par, hpr]
      · rw [f4 q hqp] at he
        have ⟨h1, h2⟩ := hwf.children_matched q x' he
        have hx'x : x' ≠ x := by
          intro hh; rw [hh] at h1
          rw [hpr] at h1
          exact hqp (Option.some.inj h1).symm
        have hx'm : x' ≠ m := by
          intro hh; rw [hh] at h2
          rw [hm_prev] at h2; exact Option.noConfusion h2
        rw [f7 x' hx'x, f9 x' hx'x hx'm]
        exact ⟨h1, h2⟩
    · intro z w hz hw
      by_cases hzx : z = x
      · subst hzx; rw [f3] at hw; exact Option.noConfusion hw
      · by_cases hzm : z = m
        · have hzm2 : m = z := hzm.symm
          subst hzm2
          rw [f6] at hw; exact Option.noConfusion hw
        · have hsz : InTree s z := htr z hz
          rw [f9 z hzx hzm] at hw
          have ⟨h1, h2⟩ := hwf.prev_next z w hsz hw
          have hwx : w ≠ x := by
            intro hh; rw [hh] at h1
            rw [hnx] at h1
            exact hzm (Option.some.inj h1).symm
          rw [f5 w hwx, f7 w hwx, f7 z hzx]
          exact ⟨h1, h2⟩
    · intro z w hz he
      by_cases hzx : z = x
      · subst hzx; rw [f2] at he; exact Option.noConfusion he
      · rw [f5 z hzx] at he
        have hsz : InTree s z := htr z hz
        have h := hwf.sib_parent z w hsz he
        have hwx : w ≠ x := by
          intro hh; rw [hh] at he
          have := hwf.next_matched z x he
          rw [hpv] at this; exact Option.noConfusion this
        rw [f7 w hwx, f7 z hzx]
        exact h
    · intro z q hz hq
      by_cases hzx : z = x
      · subst hzx; rw [f1] at hq; exact Option.noConfusion hq
      · have hsz : InTree s z := htr z hz
        rw [f7 z hzx] at hq
        by_cases hzm : z = m
        · have hzm2 : m = z := hzm.symm
          subst hzm2
          rw [hm_par, hpr] at hq
          have hq2 := (Option.some.inj hq).symm
          subst hq2
          rw [f4p, f6]
          simp
        · have hiff := hwf.parent_ok z q hsz hq
          by_cases hqp : q = p
          · subst hqp
            rw [f4p, f9 z hzx hzm]
            constructor
            · intro h
              exact absurd (Option.some.inj h).symm hzm
            · intro h
              have := hiff.mpr h
              rw [hpch] at this
              exact absurd (Option.some.inj this).symm hzx
          · rw [f4 q hqp, f9 z hzx hzm]
            exact hiff
    · intro c hc hc2
      rw [f11] at hc
      by_cases hcx : c = x
      · subst hcx; exact absurd hc2 hnix
      · rw [f7 c hcx, f12]
        exact hwf.cur_ok c hc (htr c hc2)
    · refine ⟨rk, ?_⟩
      intro z hz
      have hsz : InTree s z := htr z hz
      constructor
      · intro w hw
        by_cases hzx : z = x
        · subst hzx; rw [f2] at hw; exact Option.noConfusion hw
        · rw [f5 z hzx] at hw
          exact (hrk z hsz).1 w hw
      · intro w hw
        by_cases hzp : z = p
        · subst hzp; rw [f4p] at hw
          have h2 := (Option.some.inj hw).symm
          rw [h2]
          exact hlt_px.trans hlt_xm
        · rw [f4 z hzp] at hw
          exact (hrk z hsz).2 w hw

theorem inTree_root_of_no_links {s : BState} (hwf : WF s) {x : Nat} (hx : InTree s x)
    (hpv : (s.mem x).prev? = none) (hpr : (s.mem x).parent? = none) :
    s.root? = some x := by
  rcases inTree_inv hx with hr | ⟨q, hq, he⟩ | ⟨q, hq, he⟩
  · exact hr
  · have := hwf.next_matched q x he
    rw [hpv] at this; exact Option.noConfusion this
  · have := (hwf.children_matched q x he).1
    rw [hpr] at this; exact Option.noConfusion this

theorem wf_extract_root {s : BState} {x : Nat} (hwf : WF s) (hx : InTree s x)
    (hpv : (s.mem x).prev? = none) (hpr : (s.mem x).parent? = none) :
    WF (extract s x).1 := by
  have hrx : s.root? = some x := inTree_root_of_no_links hwf hx hpv hpr
  obtain ⟨rk, hrk⟩ := hwf.ranked
  set s' := (extract s x).1 with hs'
  rcases hnx : (s.mem x).next? with _ | m
  · -- the tree becomes empty
    have f2 : (s'.mem x).next? = none := by
      simp [hs', extract, hpv, hpr, hnx, upd]
    have f4 : ∀ j, (s'.mem j).children? = (s.mem j).children? := by
      intro j
      by_cases hj : j = x
      · subst hj; simp [hs', extract, hpv, hpr, hnx, upd]
      · simp [hs', extract, hpv, hpr, hnx, upd, hj]
    have f5 : ∀ j, j ≠ x → (s'.mem j).next? = (s.mem j).next? := by
      intro j hj; simp [hs', extract, hpv, hpr, hnx, upd, hj]
    have f9 : ∀ j, j ≠ x → (s'.mem j).prev? = (s.mem j).prev? := by
      intro j hj; simp [hs', extract, hpv, hpr, hnx, upd, hj]
    have f10 : s'.root? = none := by simp [hs', extract, hpv, hpr, hnx]
    have f11 : s'.current? = none := by simp [hs', extract, hpv, hpr, hnx]
    have hempty : ∀ z, ¬InTree s' z := by
      intro z hz
      induction hz with
      | root r hr => rw [f10] at hr; exact Option.noConfusion hr
      | via_next q z hq he ih => exact ih
      | via_children q z hq he ih => exact ih
    refine ⟨?_, ?_, ?_, ?_, ?_, ?_, ?_, ?_⟩
    · intro r hr; rw [f10] at hr; exact Option.noConfusion hr
    · intro q x' he
      by_cases hqx : q = x
      · subst hqx; rw [f2] at he; exact Option.noConfusion he
      · rw [f5 q hqx] at he
        have h := hwf.next_matched q x' he
        have hx'x : x' ≠ x := by
          intro hh; rw [hh] at h
          rw [hpv] at h; exact Option.noConfusion h
        rw [f9 x' hx'x]
        exact h
    · intro q x' he
      rw [f4 q] at he
      have ⟨h1, h2⟩ := hwf.children_matched q x' he
      have hx'x : x' ≠ x := by
        intro hh; rw [hh] at h1
        rw [hpr] at h1; exact Option.noConfusion h1
      have hparu : ∀ j, j ≠ x → (s'.mem j).parent? = (s.mem j).parent? := by
        intro j hj; simp [hs', extract, hpv, hpr, hnx, upd, hj]
      rw [hparu x' hx'x, f9 x' hx'x]
      exact ⟨h1, h2⟩
    · intro z w hz; exact absurd hz (hempty z)
    · intro z w hz; exact absurd hz (hempty z)
    · intro z q hz; exact absurd hz (hempty z)
    · intro c hc; rw [f11] at hc; exact Option.noConfusion hc
    · exact ⟨rk, fun z hz => absurd hz (hempty z)⟩
  · -- the next sibling becomes the root
    have hmx : m ≠ x := by
      intro h; rw [h] at hnx; exact no_self_next hwf hx hnx
    have hxm : x ≠ m := Ne.symm hmx
    have hm_prev : (s.mem m).prev? = some x := hwf.next_matched x m hnx
    have hm_par : (s.mem m).parent? = (s.mem x).parent? := hwf.sib_parent x m hx hnx
    have him : InTree s m := .via_next x m hx hnx
    have f1 : (s'.mem x).parent? = none := by
      simp [hs', extract, hpv, hpr, hnx, upd]
    have f2 : (s'.mem x).next? = none := by
      simp [hs', extract, hpv, hpr, hnx, upd]
    have f3 : (s'.mem x).prev? = none := by
      simp [hs', extract, hpv, hpr, hnx, upd]
    have f4 : ∀ j, (s'.mem j).children? = (s.mem j).children? := by
      intro j
      by_cases hj : j = x
      · subst hj; simp [hs', extract, hpv, hpr, hnx, upd, hxm]
      · by_cases hj2 : j = m
        · subst hj2; simp [hs', extract, hpv, hpr, hnx, upd, hmx]
        · simp [hs', extract, hpv, hpr, hnx, upd, hj, hj2]
    have f5 : ∀ j, j ≠ x → (s'.mem j).next? = (s.mem j).next? := by
      intro j hj
      by_cases hj2 : j = m
      · subst hj2; simp [hs', extract, hpv, hpr, hnx, upd, hmx]
      · simp [hs', extract, hpv, hpr, hnx, upd, hj, hj2]
    have f6 : (s'.mem m).prev? = none := by
      simp [hs', extract, hpv, hpr, hnx, upd, hmx]
    have f7 : ∀ j, j ≠ x → (s'.mem j).parent? = (s.mem j).parent? := by
      intro j hj
      by_cases hj2 : j = m
      · subst hj2; simp [hs', extract, hpv, hpr, hnx, upd, hmx]
      · simp [hs', extract, hpv, hpr, hnx, upd, hj, hj2]
    have f9 : ∀ j, j ≠ x → j ≠ m → (s'.mem j).prev? = (s.mem j).prev? := by
      intro j hj hj2; simp [hs', extract, hpv, hpr, hnx, upd, hj, hj2]
    have f10 : s'.root? = some m := by simp [hs', extract, hpv, hpr, hnx]
    have f11 : s'.current? = some m := by simp [hs', extract, hpv, hpr, hnx]
    have f12 : s'.parentCur? = none := by simp [hs', extract, hpv, hpr, hnx]
    have htr : ∀ z, InTree s' z → InTree s z := by
      intro z hz
      induction hz with
      | root r hr =>
        rw [f10] at hr
        have h2 := (Option.some.inj hr).symm
        rw [h2]; exact him
      | via_next q z hq he ih =>
        by_cases hqx : q = x
        · subst hqx; rw [f2] at he; exact Option.noConfusion he
        · rw [f5 q hqx] at he
          exact .via_next q z ih he
      | via_children q z hq he ih =>
        rw [f4 q] at he
        exact .via_children q z ih he
    have hnix : ¬InTree s' x := by
      intro h
      rcases inTree_inv h with hr | ⟨q, hq, he⟩ | ⟨q, hq, he⟩
      · rw [f10] at hr
        exact hmx (Option.some.inj hr)
      · by_cases hqx : q = x
        · subst hqx; rw [f2] at he; exact Option.noConfusion he
        · rw [f5 q hqx] at he
          have := hwf.next_matched q x he
          rw [hpv] at this; exact Option.noConfusion this
      · rw [f4 q] at he
        have := (hwf.children_matched q x he).1
        rw [hpr] at this; exact Option.noConfusion this
    refine ⟨?_, ?_, ?_, ?_, ?_, ?_, ?_, ?_⟩
    · intro r hr
      rw [f10] at hr
      have h2 := Option.some.inj hr
      subst h2
      refine ⟨f6, ?_⟩
      rw [f7 m hmx, hm_par, hpr]
    · intro q x' he
      by_cases hqx : q = x
      · subst hqx; rw [f2] at he; exact Option.noConfusion he
      · rw [f5 q hqx] at he
        have h := hwf.next_matched q x' he
        have hx'x : x' ≠ x := by
          intro hh; rw [hh] at h
          rw [hpv] at h; exact Option.noConfusion h
        have hx'm : x' ≠ m := by
          intro hh; rw [hh] at h
          rw [hm_prev] at h
          exact hqx (Option.some.inj h).symm
        rw [f9 x' hx'x hx'm]
        exact h
    · intro q x' he
      rw [f4 q] at he
      have ⟨h1, h2⟩ := hwf.children_matched q x' he
      have hx'x : x' ≠ x := by
        intro hh; rw [hh] at h1
        rw [hpr] at h1; exact Option.noConfusion h1
      have hx'm : x' ≠ m := by
        intro hh; rw [hh] at h2
        rw [hm_prev] at h2; exact Option.noConfusion h2
      rw [f7 x' hx'x, f9 x' hx'x hx'm]
      exact ⟨h1, h2⟩
    · intro z w hz hw
      by_cases hzx : z = x
      · subst hzx; rw [f3] at hw; exact Option.noConfusion hw
      · by_cases hzm : z = m
        · have hzm2 : m = z := hzm.symm
          subst hzm2
          rw [f6] at hw; exact Option.noConfusion hw
        · have hsz : InTree s z := htr z hz
          rw [f9 z hzx hzm] at hw
          have ⟨h1, h2⟩ := hwf.prev_next z w hsz hw
          have hwx : w ≠ x := by
            intro hh; rw [hh] at h1
            rw [hnx] at h1
            exact hzm (Option.some.inj h1).symm
          rw [f5 w hwx, f7 w hwx, f7 z hzx]
          exact ⟨h1, h2⟩
    · intro z w hz he
      by_cases hzx : z = x
      · subst hzx; rw [f2] at he; exact Option.noConfusion he
      · rw [f5 z hzx] at he
        have hsz : InTree s z := htr z hz
        have h := hwf.sib_parent z w hsz he
        have hwx : w ≠ x := by
          intro hh; rw [hh] at he
          have := hwf.next_matched z x he
          rw [hpv] at this; exact Option.noConfusion this
        rw [f7 w hwx, f7 z hzx]
        exact h
    · intro z q hz hq
      by_cases hzx : z = x
      · subst hzx; rw [f1] at hq; exact Option.noConfusion hq
      · by_cases hzm : z = m
        · have hzm2 : m = z := hzm.symm
          subst hzm2
          rw [f7 m hmx, hm_par, hpr] at hq
          exact Option.noConfusion hq
        · have hsz : InTree s z := htr z hz
          rw [f7 z hzx] at hq
          have hiff := hwf.parent_ok z q hsz hq
          rw [f4 q, f9 z hzx hzm]
          exact hiff
    · intro c hc hc2
      rw [f11] at hc
      have h2 := Option.some.inj hc
      subst h2
      rw [f7 m hmx, hm_par, hpr, f12]
    · refine ⟨rk, ?_⟩
      intro z hz
      have hsz : InTree s z := htr z hz
      constructor
      · intro w hw
        by_cases hzx : z = x
        · subst hzx; rw [f2] at hw; exact Option.noConfusion hw
        · rw [f5 z hzx] at hw
          exact (hrk z hsz).1 w hw
      · intro w hw
        rw [f4 z] at hw
        exact (hrk z hsz).2 w hw

/-- extract preserves well-formedness when applied to a node of the tree. -/
theorem wf_extract {s : BState} {x : Nat} (hwf : WF s) (hx : InTree s x) :
    WF (extract s x).1 := by
  rcases hpv : (s.mem x).prev? with _ | p
  · rcases hpr : (s.mem x).parent? with _ | p
    · exact wf_extract_root hwf hx hpv hpr
    · exact wf_extract_parent hwf hx hpv hpr
  · exact wf_extract_prev hwf hx hpv

/-- Any guarded run of builder operations from a well-formed state ends in
a well-formed state. -/
theorem wf_steps {s s' : BState} {ops : List Op} (hwf : WF s)
    (h : Steps s ops s') : WF s' := by
  induction h with
  | nil s => exact hwf
  | add s s' n ops hf _ ih => exact ih (wf_add hwf hf)
  | startc s s' ops _ ih => exact ih (wf_start_children hwf)
  | endc s s' ops hp _ ih => exact ih (wf_end_children hwf hp)
  | extr s s' x ops hx _ ih => exact ih (wf_extract hwf hx)

/-- C4 counterexample: the claim states that extract returns the node that
immediately followed x, citing tree_builder_base::extract from src/tree.cpp
among its implementations.  On a builder holding two sibling nodes 0 and 1
(so that node 1 immediately follows node 0), that implementation applied to
node 0 returns node 0 itself, not the follower 1. -/
theorem c4_counterexample :
    (extract_base (add_element (add_element initB 0) 1) 0).2 = 0 ∧
      ((add_element (add_element initB 0) 1).mem 0).next? = some 1 ∧
      (extract_base (add_element (add_element initB 0) 1) 0).2 ≠ 1 :=
  ⟨rfl, by decide, by decide⟩

/-- C4 (amended): for every node x in the tree of a builder built by a
guarded run of operations, tree_builder::extract (bb2html.cpp/tree.hpp)
unlinks x touching only a bounded set of cells — the previous sibling's
next pointer, or the parent's children pointer, or the builder's root when
x is the first root sibling, plus the next sibling's prev pointer — sets
x's own parent, prev and next pointers to null, and returns the node that
immediately followed x; the tree_builder_base::extract variant in
src/tree.cpp performs the same unlinking but returns x itself. -/
theorem c4_extract_behavior (ops : List Op) (s : BState) (x : Nat)
    (h : Steps initB ops s) (hx : InTree s x) :
    (extract s x).2 = (s.mem x).next? ∧
      ((extract s x).1.mem x).parent? = none ∧
      ((extract s x).1.mem x).prev? = none ∧
      ((extract s x).1.mem x).next? = none ∧
      (∀ p, (s.mem x).prev? = some p →
        ((extract s x).1.mem p).next? = (s.mem x).next?) ∧
      ((s.mem x).prev? = none → ∀ p, (s.mem x).parent? = some p →
        ((extract s x).1.mem p).children? = (s.mem x).next?) ∧
      ((s.mem x).prev? = none → (s.mem x).parent? = none →
        s.root? = some x ∧ (extract s x).1.root? = (s.mem x).next?) ∧
      (∀ m, (s.mem x).next? = some m →
        ((extract s x).1.mem m).prev? = (s.mem x).prev?) ∧
      (∀ j, j ≠ x → (s.mem x).prev? ≠ some j → (s.mem x).parent? ≠ some j →
        (s.mem x).next? ≠ some j → (extract s x).1.mem j = s.mem j) ∧
      (extract_base s x).2 = x := by
  have hwf : WF s := wf_steps wf_initB h
  refine ⟨rfl, ?_, ?_, ?_, ?_, ?_, ?_, ?_, ?_, rfl⟩
  · rcases hpv : (s.mem x).prev? with _ | p
    · rcases hpr : (s.mem x).parent? with _ | p <;>
        rcases hnx : (s.mem x).next? with _ | m <;>
        simp [extract, hpv, hpr, hnx, upd]
    · rcases hnx : (s.mem x).next? with _ | m <;>
        simp [extract, hpv, hnx, upd]
  · rcases hpv : (s.mem x).prev? with _ | p
    · rcases hpr : (s.mem x).parent? with _ | p <;>
        rcases hnx : (s.mem x).next? with _ | m <;>
        simp [extract, hpv, hpr, hnx, upd]
    · rcases hnx : (s.mem x).next? with _ | m <;>
        simp [extract, hpv, hnx, upd]
  · rcases hpv : (s.mem x).prev? with _ | p
    · rcases hpr : (s.mem x).parent? with _ | p <;>
        rcases hnx : (s.mem x).next? with _ | m <;>
        simp [extract, hpv, hpr, hnx, upd]
    · rcases hnx : (s.mem x).next? with _ | m <;>
        simp [extract, hpv, hnx, upd]
  · intro p hpv
    have ⟨hpnx, _⟩ := hwf.prev_next x p hx hpv
    have hpx : p ≠ x := by
      intro hh; rw [hh] at hpnx; exact no_self_next hwf hx hpnx
    rcases hnx : (s.mem x).next? with _ | m
    · simp [extract, hpv, hnx, upd, hpx]
    · by_cases hpm : p = m
      · subst hpm
        simp [extract, hpv, hnx, upd, hpx]
      · simp [extract, hpv, hnx, upd, hpx, hpm]
  · intro hpv p hpr
    have hpch : (s.mem p).children? = some x := (hwf.parent_ok x p hx hpr).mpr hpv
    have hpx : p ≠ x := by
      intro hh; rw [hh] at hpch; exact no_self_children hwf hx hpch
    rcases hnx : (s.mem x).next? with _ | m
    · simp [extract, hpv, hpr, hnx, upd, hpx]
    · by_cases hpm : p = m
      · subst hpm
        simp [extract, hpv, hpr, hnx, upd, hpx]
      · simp [extract, hpv, hpr, hnx, upd, hpx, hpm]
  · intro hpv hpr
    refine ⟨inTree_root_of_no_links hwf hx hpv hpr, ?_⟩
    rcases hnx : (s.mem x).next? with _ | m <;>
      simp [extract, hpv, hpr, hnx, upd]
  · intro m hnx
    have hmx : m ≠ x := by
      intro hh; rw [hh] at hnx; exact no_self_next hwf hx hnx
    rcases hpv : (s.mem x).prev? with _ | p
    · rcases hpr : (s.mem x).parent? with _ | p
      · simp [extract, hpv, hpr, hnx, upd, hmx]
      · by_cases hmp : m = p
        · subst hmp
          simp [extract, hpv, hpr, hnx, upd, hmx]
        · simp [extract, hpv, hpr, hnx, upd, hmx, hmp]
    · by_cases hmp : m = p
      · subst hmp
        simp [extract, hpv, hnx, upd, hmx]
      · simp [extract, hpv, hnx, upd, hmx, hmp]
  · intro j hjx hjp hjq hjn
    rcases hpv : (s.mem x).prev? with _ | p
    · rcases hpr : (s.mem x).parent? with _ | p
      · rcases hnx : (s.mem x).next? with _ | m
        · simp [extract, hpv, hpr, hnx, upd, hjx]
        · have hjm : j ≠ m := fun hh => hjn (hh ▸ hnx ▸ rfl)
          simp [extract, hpv, hpr, hnx, upd, hjx, hjm]
      · have hjp2 : j ≠ p := fun hh => hjq (hh ▸ hpr ▸ rfl)
        rcases hnx : (s.mem x).next? with _ | m
        · simp [extract, hpv, hpr, hnx, upd, hjx, hjp2]
        · have hjm : j ≠ m := fun hh => hjn (hh ▸ hnx ▸ rfl)
          simp [extract, hpv, hpr, hnx, upd, hjx, hjp2, hjm]
    · have hjp2 : j ≠ p := fun hh => hjp (hh ▸ hpv ▸ rfl)
      rcases hnx : (s.mem x).next? with _ | m
      · simp [extract, hpv, hnx, upd, hjx, hjp2]
      · have hjm : j ≠ m := fun hh => hjn (hh ▸ hnx ▸ rfl)
        simp [extract, hpv, hnx, upd, hjx, hjp2, hjm]

/-- C9: after any guarded sequence of builder operations from the empty
builder, the tree is a well-formed doubly-linked structure: for every node
n in the tree, n is its parent's first child exactly when n's prev is
null, n's prev's next points back to n, n's next's prev points back to n;
and extracting any node of the tree leaves that node's parent, prev and
next pointers null. -/
theorem c9_builder_invariant (ops : List Op) (s : BState)
    (h : Steps initB ops s) :
    (∀ n q, InTree s n → (s.mem n).parent? = some q →
        ((s.mem q).children? = some n ↔ (s.mem n).prev? = none)) ∧
      (∀ n p, InTree s n → (s.mem n).prev? = some p →
        (s.mem p).next? = some n) ∧
      (∀ n m, InTree s n → (s.mem n).next? = some m →
        (s.mem m).prev? = some n) ∧
      (∀ x, InTree s x →
        ((extract s x).1.mem x).parent? = none ∧
          ((extract s x).1.mem x).prev? = none ∧
          ((extract s x).1.mem x).next? = none) := by
  have hwf : WF s := wf_steps wf_initB h
  refine ⟨hwf.parent_ok, ?_, ?_, ?_⟩
  · intro n p hn hp
    exact (hwf.prev_next n p hn hp).1
  · intro n m _ he
    exact hwf.next_matched n m he
  · intro x _
    refine ⟨?_, ?_, ?_⟩ <;>
      · rcases hpv : (s.mem x).prev? with _ | p
        · rcases hpr : (s.mem x).parent? with _ | p <;>
            rcases hnx : (s.mem x).next? with _ | m <;>
            simp [extract, hpv, hpr, hnx, upd]
        · rcases hnx : (s.mem x).next? with _ | m <;>
            simp [extract, hpv, hnx, upd]

/-- A concrete guarded run: build a root with two children, extract the
first child, close the child list. -/
theorem c9_witness_steps :
    Steps initB [.add 0, .startc, .add 1, .add 2, .extr 1, .endc]
      (end_children ((extract
        (add_element (add_element (start_children (add_element initB 0)) 1) 2)
        1).1)) := by
  refine .add _ _ _ _ (by refine ⟨rfl, ?_, ?_, ?_⟩ <;> decide) ?_
  refine .startc _ _ _ ?_
  refine .add _ _ _ _ (by refine ⟨by decide, ?_, ?_, ?_⟩ <;> decide) ?_
  refine .add _ _ _ _ (by refine ⟨by decide, ?_, ?_, ?_⟩ <;> decide) ?_
  refine .extr _ _ _ _ ?_ ?_
  · exact .via_children 0 1 (.root 0 (by decide)) (by decide)
  · refine .endc _ _ _ (by decide) ?_
    exact .nil _

theorem c9_builder_invariant_witness :
    (((end_children ((extract
        (add_element (add_element (start_children (add_element initB 0)) 1) 2)
        1).1)).mem 0).children? = some 2 ↔
      ((end_children ((extract
        (add_element (add_element (start_children (add_element initB 0)) 1) 2)
        1).1)).mem 2).prev? = none) := by
  exact (c9_builder_invariant _ _ c9_witness_steps).1 2 0
    (.via_children 0 2 (.root 0 (by decide)) (by decide)) (by decide)

theorem c4_extract_behavior_witness :
    (extract (end_children ((extract
        (add_element (add_element (start_children (add_element initB 0)) 1) 2)
        1).1)) 2).2 =
      ((end_children ((extract
        (add_element (add_element (start_children (add_element initB 0)) 1) 2)
        1).1)).mem 2).next? := by
  have hin : InTree (end_children ((extract
      (add_element (add_element (start_children (add_element initB 0)) 1) 2)
      1).1)) 2 :=
    .via_children 0 2 (.root 0 (by decide)) (by decide)
  exact (c4_extract_behavior _ _ 2 c9_witness_steps hin).1

/-!
Part 2 models relative_path_from (bb2html.cpp lines 1576-1601), the
generic forward-slash relative-link computation used for every href the
generator emits.
-/

/-- The scanning loop of relative_path_from: advance both iterators while
the characters match, remembering the positions just after the last
matching '/' (path_diff_start, base_diff_start); returns the two suffixes
from those positions. -/
def rpf_scan : List Char → List Char → List Char × List Char → List Char × List Char
  | c1 :: p', c2 :: b', st =>
    if c1 = c2 then
      if c1 = '/' then rpf_scan p' b' (p', b') else rpf_scan p' b' st
    else st
  | _, _, st => st

/-- relative_path_from (bb2html.cpp lines 1576-1601): one "../" per '/'
remaining in the base after the common directory part, then the path's
remainder. -/
def relative_path_from (path base : List Char) : List Char :=
  let st := rpf_scan path base (path, base)
  List.flatten (List.replicate (st.2.count '/') ['.', '.', '/']) ++ st.1

/-- String-level wrapper for relative_path_from. -/
def relative_path_from_str (path base : String) : String :=
  ⟨relative_path_from path.data base.data⟩

/-- The suffix of the accumulator after the last '/' of the scanned list
(or the accumulator itself when the list holds no '/'). -/
def afterLastSlash : List Char → List Char → List Char
  | [], acc => acc
  | c :: cs, acc => if c = '/' then afterLastSlash cs cs else afterLastSlash cs acc

theorem rpf_scan_self (p : List Char) :
    ∀ d, rpf_scan p p (d, d) = (afterLastSlash p d, afterLastSlash p d) := by
  induction p with
  | nil => intro d; rfl
  | cons c cs ih =>
    intro d
    by_cases hc : c = '/'
    · simp [rpf_scan, afterLastSlash, hc, ih cs]
    · simp [rpf_scan, afterLastSlash, hc, ih d]

theorem afterLastSlash_acc_irrel (p : List Char) :
    ∀ a b, '/' ∈ p → afterLastSlash p a = afterLastSlash p b := by
  induction p with
  | nil => intro a b h; cases h
  | cons c cs ih =>
    intro a b h
    by_cases hc : c = '/'
    · simp [afterLastSlash, hc]
    · have h2 : '/' ∈ cs := by
        rcases List.mem_cons.mp h with h3 | h3
        · exact absurd h3.symm hc
        · exact h3
      simp only [afterLastSlash, if_neg hc]
      exact ih a b h2

theorem afterLastSlash_no_slash (p : List Char) :
    ∀ a, '/' ∉ p → afterLastSlash p a = a := by
  induction p with
  | nil => intro a _; rfl
  | cons c cs ih =>
    intro a h
    have hc : c ≠ '/' := fun hh => h (hh ▸ List.mem_cons_self c cs)
    simp only [afterLastSlash, if_neg hc]
    exact ih a (fun hh => h (List.mem_cons_of_mem c hh))

theorem slash_not_mem_afterLastSlash (p : List Char) :
    '/' ∉ afterLastSlash p p := by
  induction p with
  | nil => simp [afterLastSlash]
  | cons c cs ih =>
    by_cases hc : c = '/'
    · simpa [afterLastSlash, hc] using ih
    · simp only [afterLastSlash, if_neg hc]
      by_cases hm : '/' ∈ cs
      · rw [afterLastSlash_acc_irrel cs (c :: cs) cs hm]
        exact ih
      · rw [afterLastSlash_no_slash cs (c :: cs) hm]
        intro hmem
        rcases List.mem_cons.mp hmem with h3 | h3
        · exact hc h3.symm
        · exact hm h3

theorem afterLastSlash_decompose (p : List Char) :
    afterLastSlash p p = p ∨ ∃ l, p = l ++ '/' :: afterLastSlash p p := by
  induction p with
  | nil => exact .inl rfl
  | cons c cs ih =>
    by_cases hc : c = '/'
    · subst hc
      have hstep : afterLastSlash ('/' :: cs) ('/' :: cs) = afterLastSlash cs cs := by
        simp [afterLastSlash]
      rw [hstep]
      rcases ih with h | ⟨l, hl⟩
      · refine .inr ⟨[], ?_⟩
        rw [h]; simp
      · refine .inr ⟨'/' :: l, ?_⟩
        conv_lhs => rw [hl]
        simp
    · have hstep : afterLastSlash (c :: cs) (c :: cs) = afterLastSlash cs (c :: cs) := by
        simp [afterLastSlash, hc]
      rw [hstep]
      by_cases hm : '/' ∈ cs
      · rw [afterLastSlash_acc_irrel cs (c :: cs) cs hm]
        rcases ih with h | ⟨l, hl⟩
        · rw [← h] at hm
          exact absurd hm (slash_not_mem_afterLastSlash cs)
        · refine .inr ⟨c :: l, ?_⟩
          conv_lhs => rw [hl]
          simp
      · rw [afterLastSlash_no_slash cs (c :: cs) hm]
        exact .inl rfl

/-- C10: for every generic forward-slash path p, relative_path_from(p, p)
is exactly the final '/'-separated component of p — a suffix of p holding
no '/' at all (hence no "../" segments), preceded in p by nothing or by a
'/'. -/
theorem c10_self_link_normal_form (p : List Char) :
    '/' ∉ relative_path_from p p ∧
      (relative_path_from p p = p ∨
        ∃ l, p = l ++ '/' :: relative_path_from p p) := by
  have hscan := rpf_scan_self p p
  have hcount : (afterLastSlash p p).count '/' = 0 :=
    List.count_eq_zero.mpr (slash_not_mem_afterLastSlash p)
  have hr : relative_path_from p p = afterLastSlash p p := by
    rw [relative_path_from, hscan]
    simp [hcount]
  rw [hr]
  exact ⟨slash_not_mem_afterLastSlash p, afterLastSlash_decompose p⟩

/-!
Part 3 models the XML element tree, the chunk tree, the id-path index and
the HTML generator of src/bb2html.cpp.  Pointer-linked trees are modelled
as nested lists (the net shapes produced by the builder); the mutable
html_gen object is threaded as explicit state.  C++ undefined behaviour
(dereferencing a null pointer or an end iterator) is modelled by setting
a poison flag `ub` and continuing with a fixed junk value.
-/

/-- xml_element (bb2html.cpp lines 141-183): a tag node with attributes
and children, or a text leaf. -/
inductive XmlElement : Type where
  | node (name : String) (attributes : List (String × String)) (children : List XmlElement)
  | text (contents : String)
deriving Repr

/-- First matching attribute (xml_element::get_attribute, lines 171-182). -/
def getAttr (attrs : List (String × String)) (nm : String) : Option String :=
  (attrs.find? (fun a => a.1 == nm)).map (·.2)

/-- Children list (empty for text leaves, whose children_ pointer stays null). -/
def XmlElement.children : XmlElement → List XmlElement
  | .node _ _ cs => cs
  | .text _ => []

/-- Tag name (empty for text leaves, whose name_ member stays empty). -/
def XmlElement.name : XmlElement → String
  | .node nm _ _ => nm
  | .text _ => ""

/-- get_attribute lifted to elements (a text leaf has no attributes). -/
def XmlElement.get_attribute (x : XmlElement) (nm : String) : Option String :=
  match x with
  | .node _ attrs _ => getAttr attrs nm
  | .text _ => none

/-- callout_data (bb2html.cpp lines 211-215). -/
structure CalloutData where
  link_id : String
  number : Nat
deriving Repr, DecidableEq

/-- The callout-number table: boost::unordered_map from callout id to
callout_data, modelled as an association list with unique keys. -/
def CMap := List (String × CalloutData)

/-- map lookup (find). -/
def calloutFind (cm : CMap) (key : String) : Option CalloutData :=
  (List.find? (fun a => a.1 == key) cm).map (·.2)

/-- operator[] followed by `.number = n` (default-constructs a fresh
entry with empty link_id when the key is absent). -/
def calloutUpdNumber (cm : CMap) (key : String) (n : Nat) : CMap :=
  match cm with
  | [] => [(key, ⟨"", n⟩)]
  | (k, d) :: rest =>
    if k == key then (k, { d with number := n }) :: rest
    else (k, d) :: calloutUpdNumber rest key n

/-- operator[] followed by `.link_id = v`. -/
def calloutUpdLink (cm : CMap) (key : String) (v : String) : CMap :=
  match cm with
  | [] => [(key, ⟨v, 0⟩)]
  | (k, d) :: rest =>
    if k == key then (k, { d with link_id := v }) :: rest
    else (k, d) :: calloutUpdLink rest key v

/-- The id-path index (id_paths_type, bb2html.cpp line 209): an
unordered_map built with emplace, so the first registration of a key
wins; modelled as the registration list in order, looked up by first
match. -/
def idPathsFind (ips : List (String × String)) (key : String) : Option String :=
  (List.find? (fun a => a.1 == key) ips).map (·.2)

/-- Per-page read-only context of html_gen (id_paths, graphics_path and
the page's path). -/
structure GenCtx where
  id_paths : List (String × String)
  graphics_path : String
  path : String
  /-- Modelled from the spec: encode_string from the excluded utils
  collaborator (§1 excluded components), injected as a function. -/
  encode : String → String

/-- Mutable state of html_gen plus the static footnote counter, plus
ghost fields: the labels of emitted inline footnote markers, the labels
of emitted trailing footnote blocks, and the undefined-behaviour poison
flag. -/
structure GState where
  html : String
  in_contents : Bool
  callout_numbers : CMap
  footnotes : List XmlElement
  counter : Nat
  markers : List String
  anchors : List String
  ub : Bool

def tag_start (g : GState) (nm : String) : GState :=
  { g with html := g.html ++ "<" ++ nm }

def tag_attribute (g : GState) (nm value : String) : GState :=
  { g with html := g.html ++ " " ++ nm ++ "=\"" ++ value ++ "\"" }

def tag_start_with_id (g : GState) (nm : String) (x : XmlElement) : GState :=
  let g1 := tag_start g nm
  if g1.in_contents then g1
  else
    match x.get_attribute "id" with
    | some id => tag_attribute g1 "id" id
    | none => g1

def tag_end (g : GState) : GState := { g with html := g.html ++ ">" }

def tag_end_self_close (g : GState) : GState := { g with html := g.html ++ "/>" }

def open_tag (g : GState) (nm : String) : GState := tag_end (tag_start g nm)

def open_tag_with_id (g : GState) (nm : String) (x : XmlElement) : GState :=
  tag_end (tag_start_with_id g nm x)

def close_tag (g : GState) (nm : String) : GState :=
  { g with html := g.html ++ "</" ++ nm ++ ">" }

def tag_self_close (g : GState) (nm : String) (x : XmlElement) : GState :=
  tag_end_self_close (tag_start_with_id g nm x)

/-- graphics_tag (bb2html.cpp lines 304-319). -/
def graphics_tag (ctx : GenCtx) (g : GState) (path fallback : String) : GState :=
  if ctx.graphics_path ≠ "" then
    tag_end (tag_attribute (tag_start g "img") "src" (ctx.graphics_path ++ path))
  else
    { g with html := g.html ++ fallback }

/-- number_callouts2 (bb2html.cpp lines 1454-1466): number every callout
with an id in the sibling list and its subtrees. -/
def number_callouts2 : Nat → CMap → List XmlElement → Nat × CMap
  | cnt, cm, [] => (cnt, cm)
  | cnt, cm, .node nm attrs cs :: xs =>
    let p :=
      if nm = "callout" then
        match getAttr attrs "id" with
        | some id => (cnt + 1, calloutUpdNumber cm id (cnt + 1))
        | none => (cnt, cm)
      else (cnt, cm)
    let p2 := number_callouts2 p.1 p.2 cs
    number_callouts2 p2.1 p2.2 xs
  | cnt, cm, .text _ :: xs => number_callouts2 cnt cm xs

theorem XmlElement.sizeOf_children_le (x : XmlElement) : sizeOf x.children ≤ sizeOf x := by
  cases x with
  | node nm attrs cs =>
    simp only [XmlElement.children, XmlElement.node.sizeOf_spec]
    omega
  | text s =>
    simp only [XmlElement.children, XmlElement.text.sizeOf_spec]
    have h1 : sizeOf ([] : List XmlElement) = 1 := rfl
    omega

/-- number_callouts (bb2html.cpp lines 1468-1487): each calloutlist
restarts a counter and numbers from itself onward; each co with both
linkends and id registers the reverse link. -/
def number_callouts : CMap → List XmlElement → CMap
  | cm, [] => cm
  | cm, x :: xs =>
    let cm1 :=
      match x with
      | .node nm attrs _ =>
        if nm = "calloutlist" then (number_callouts2 0 cm (x :: xs)).2
        else if nm = "co" then
          match getAttr attrs "linkends", getAttr attrs "id" with
          | some le, some id => calloutUpdLink cm le id
          | _, _ => cm
        else cm
      | .text _ => cm
    let cm2 := number_callouts cm1 x.children
    number_callouts cm2 xs
termination_by cm xs => sizeOf xs
decreasing_by
  all_goals simp only [List.cons.sizeOf_spec]
  · have := XmlElement.sizeOf_children_le x
    omega
  · omega

/-- The varlistentry scan of parser_variablelist (bb2html.cpp lines
1275-1286): remember the last term child and the last listitem child. -/
def vl_entry_parts : List XmlElement → Option XmlElement × Option XmlElement →
    Option XmlElement × Option XmlElement
  | [], a => a
  | j :: js, a =>
    match j with
    | .node nm _ _ =>
      if nm = "term" then vl_entry_parts js (some j, a.2)
      else if nm = "listitem" then vl_entry_parts js (a.1, some j)
      else vl_entry_parts js a
    | .text _ => vl_entry_parts js a

theorem vl_entry_parts_fst (js : List XmlElement) :
    ∀ a t, (vl_entry_parts js a).1 = some t → t ∈ js ∨ a.1 = some t := by
  induction js with
  | nil => intro a t h; exact .inr h
  | cons j js ih =>
    intro a t h
    cases j with
    | node nm attrs cs =>
      by_cases h1 : nm = "term"
      · subst h1
        simp only [vl_entry_parts, if_pos] at h
        rcases ih _ _ h with h2 | h2
        · exact .inl (List.mem_cons_of_mem _ h2)
        · have ht := Option.some.inj h2
          exact .inl (by rw [← ht]; exact List.mem_cons_self _ _)
      · by_cases h2 : nm = "listitem"
        · subst h2
          simp only [vl_entry_parts, if_neg h1, if_pos] at h
          rcases ih _ _ h with h3 | h3
          · exact .inl (List.mem_cons_of_mem _ h3)
          · exact .inr h3
        · simp only [vl_entry_parts, if_neg h1, if_neg h2] at h
          rcases ih _ _ h with h3 | h3
          · exact .inl (List.mem_cons_of_mem _ h3)
          · exact .inr h3
    | text s =>
      simp only [vl_entry_parts] at h
      rcases ih _ _ h with h3 | h3
      · exact .inl (List.mem_cons_of_mem _ h3)
      · exact .inr h3

theorem vl_entry_parts_snd (js : List XmlElement) :
    ∀ a t, (vl_entry_parts js a).2 = some t → t ∈ js ∨ a.2 = some t := by
  induction js with
  | nil => intro a t h; exact .inr h
  | cons j js ih =>
    intro a t h
    cases j with
    | node nm attrs cs =>
      by_cases h1 : nm = "term"
      · subst h1
        simp only [vl_entry_parts, if_pos] at h
        rcases ih _ _ h with h2 | h2
        · exact .inl (List.mem_cons_of_mem _ h2)
        · exact .inr h2
      · by_cases h2 : nm = "listitem"
        · subst h2
          simp only [vl_entry_parts, if_neg h1, if_pos] at h
          rcases ih _ _ h with h3 | h3
          · exact .inl (List.mem_cons_of_mem _ h3)
          · have ht := Option.some.inj h3
            exact .inl (by rw [← ht]; exact List.mem_cons_self _ _)
        · simp only [vl_entry_parts, if_neg h1, if_neg h2] at h
          rcases ih _ _ h with h3 | h3
          · exact .inl (List.mem_cons_of_mem _ h3)
          · exact .inr h3
    | text s =>
      simp only [vl_entry_parts] at h
      rcases ih _ _ h with h3 | h3
      · exact .inl (List.mem_cons_of_mem _ h3)
      · exact .inr h3

/-- The last element node named nm in the list (the write_table scans at
bb2html.cpp lines 1331-1355 let later matches overwrite earlier ones). -/
def find_last_named (nm : String) : List XmlElement → Option XmlElement
  | [] => none
  | x :: xs =>
    match find_last_named nm xs with
    | some r => some r
    | none =>
      match x with
      | .node n _ _ => if n = nm then some x else none
      | .text _ => none

theorem find_last_named_mem {nm : String} (xs : List XmlElement) {r : XmlElement} :
    find_last_named nm xs = some r → r ∈ xs := by
  induction xs with
  | nil => intro h; exact Option.noConfusion h
  | cons x xs ih =>
    intro h
    simp only [find_last_named] at h
    rcases h2 : find_last_named nm xs with _ | r2
    · rw [h2] at h
      cases x with
      | node n attrs cs =>
        by_cases h3 : n = nm
        · simp only [if_pos h3] at h
          rw [← Option.some.inj h]
          exact List.mem_cons_self _ _
        · simp only [if_neg h3] at h
          exact Option.noConfusion h
      | text s => exact Option.noConfusion h
    · rw [h2] at h
      have h3 := Option.some.inj h
      rw [h3] at h2
      exact List.mem_cons_of_mem _ (ih h2)

/-- The image search of parser_inlinemediaobject (bb2html.cpp lines
1217-1231) inside one imageobject: assign fileref of each imagedata,
stopping at the first one present; the Bool records whether any
assignment happened at all (the C++ pointer starts uninitialized). -/
def imo_scan_object : List XmlElement → Option String → Option String × Bool
  | [], img => (img, false)
  | j :: js, img =>
    match j with
    | .node nm attrs _ =>
      if nm = "imagedata" then
        match getAttr attrs "fileref" with
        | some v => (some v, true)
        | none => ((imo_scan_object js none).1, true)
      else imo_scan_object js img
    | .text _ => imo_scan_object js img

/-- The outer image loop over all imageobject children. -/
def imo_find_image : List XmlElement → Option String × Bool → Option String × Bool
  | [], a => a
  | i :: is, (img, assigned) =>
    match i with
    | .node nm _ cs =>
      if nm = "imageobject" then
        let p := imo_scan_object cs img
        imo_find_image is (p.1, assigned || p.2)
      else imo_find_image is (img, assigned)
    | .text _ => imo_find_image is (img, assigned)

/-- Does a variablelist child list contain at least one varlistentry
with both a term and a listitem (the items.empty() test)? -/
def vl_items_present (is : List XmlElement) : Bool :=
  is.any (fun i =>
    match i with
    | .node nm _ cs =>
      nm = "varlistentry" ∧
        ((vl_entry_parts cs (none, none)).1.isSome ∧
          (vl_entry_parts cs (none, none)).2.isSome)
    | .text _ => false)

mutual

/-- document (bb2html.cpp lines 1051-1074): text is copied verbatim, a
node dispatches through the node_parsers registry (the NODE_MAP,
NODE_MAP_CLASS and NODE_RULE registrations, lines 1102-1509); unknown
tags log a diagnostic to the console (not modelled) and recurse. -/
def document (ctx : GenCtx) (g : GState) (x : XmlElement) : GState :=
  match hx : x with
  | .text s => { g with html := g.html ++ s }
  | .node nm _ _ =>
    if nm = "para" then tagRule ctx g "p" x
    else if nm = "simpara" then tagRule ctx g "div" x
    else if nm = "orderedlist" then tagRule ctx g "ol" x
    else if nm = "itemizedlist" then tagRule ctx g "ul" x
    else if nm = "listitem" then tagRule ctx g "li" x
    else if nm = "blockquote" then tagRule ctx g "blockquote" x
    else if nm = "quote" then tagRule ctx g "q" x
    else if nm = "code" then tagRule ctx g "code" x
    else if nm = "macronname" then tagRule ctx g "code" x
    else if nm = "classname" then tagRule ctx g "code" x
    else if nm = "programlisting" then tagClassRule ctx g "pre" "programlisting" x
    else if nm = "literal" then tagRule ctx g "tt" x
    else if nm = "subscript" then tagRule ctx g "sub" x
    else if nm = "superscript" then tagRule ctx g "sup" x
    else if nm = "section" then tagRule ctx g "div" x
    else if nm = "anchor" then tagRule ctx g "span" x
    else if nm = "title" then tagRule ctx g "h3" x
    else if nm = "bridgehead" then tagRule ctx g "h3" x
    else if nm = "sidebar" then tagClassRule ctx g "div" "sidebar" x
    else if nm = "warning" then tagClassRule ctx g "div" "warning" x
    else if nm = "caution" then tagClassRule ctx g "div" "caution" x
    else if nm = "important" then tagClassRule ctx g "div" "important" x
    else if nm = "note" then tagClassRule ctx g "div" "note" x
    else if nm = "tip" then tagClassRule ctx g "div" "tip" x
    else if nm = "replaceable" then tagClassRule ctx g "em" "replaceable" x
    else if nm = "sbr" then parser_sbr ctx g x
    else if nm = "ulink" then parser_ulink ctx g x
    else if nm = "link" then parser_link ctx g x
    else if nm = "phrase" then parser_phrase ctx g x
    else if nm = "emphasis" then parser_emphasis ctx g x
    else if nm = "inlinemediaobject" then parser_inlinemediaobject ctx g x
    else if nm = "variablelist" then parser_variablelist ctx g x
    else if nm = "table" then write_table ctx g x
    else if nm = "informaltable" then write_table ctx g x
    else if nm = "calloutlist" then tagRule ctx g "div" x
    else if nm = "callout" then parser_callout ctx g x
    else if nm = "co" then parser_co ctx g x
    else if nm = "footnote" then parser_footnote ctx g x
    else documentList ctx g x.children
termination_by 4 * sizeOf x + 3
decreasing_by
  all_goals subst hx
  all_goals simp only [XmlElement.children, XmlElement.node.sizeOf_spec]
  all_goals omega

/-- document_children (bb2html.cpp lines 1044-1049). -/
def documentList (ctx : GenCtx) (g : GState) (xs : List XmlElement) : GState :=
  match xs with
  | [] => g
  | x :: rest => documentList ctx (document ctx g x) rest
termination_by 4 * sizeOf xs
decreasing_by
  all_goals simp only [List.cons.sizeOf_spec, XmlElement.node.sizeOf_spec,
    XmlElement.text.sizeOf_spec]
  all_goals omega

/-- tag (bb2html.cpp lines 1037-1042), the body of every NODE_MAP rule. -/
def tagRule (ctx : GenCtx) (g : GState) (hname : String) (x : XmlElement) : GState :=
  close_tag (documentList ctx (open_tag_with_id g hname x) x.children) hname
termination_by 4 * sizeOf x + 1
decreasing_by
  all_goals have hcle := XmlElement.sizeOf_children_le x
  all_goals omega

/-- The body of every NODE_MAP_CLASS rule (bb2html.cpp lines 1092-1100). -/
def tagClassRule (ctx : GenCtx) (g : GState) (hname cls : String) (x : XmlElement) : GState :=
  close_tag
    (documentList ctx (tag_end (tag_attribute (tag_start_with_id g hname x) "class" cls))
      x.children)
    hname
termination_by 4 * sizeOf x + 1
decreasing_by
  all_goals have hcle := XmlElement.sizeOf_children_le x
  all_goals omega

/-- parser_sbr (bb2html.cpp lines 1132-1140). -/
def parser_sbr (ctx : GenCtx) (g : GState) (x : XmlElement) : GState :=
  if x.children.isEmpty then tag_self_close g "br" x
  else tagRule ctx g "br" x
termination_by 4 * sizeOf x + 2
decreasing_by
  all_goals try have hcle := XmlElement.sizeOf_children_le x
  all_goals try omega

/-- parser_ulink (bb2html.cpp lines 1142-1154). -/
def parser_ulink (ctx : GenCtx) (g : GState) (x : XmlElement) : GState :=
  let value := x.get_attribute "url"
  let g1 := tag_start_with_id g "a" x
  let g2 :=
    match value with
    | some v => tag_attribute g1 "href" v
    | none => g1
  close_tag (documentList ctx (tag_end g2) x.children) "a"
termination_by 4 * sizeOf x + 2
decreasing_by
  all_goals try have hcle := XmlElement.sizeOf_children_le x
  all_goals try omega

/-- parser_link (bb2html.cpp lines 1156-1174): look the linkend up in the
id-path index; emit href only when found. -/
def parser_link (ctx : GenCtx) (g : GState) (x : XmlElement) : GState :=
  let value := x.get_attribute "linkend"
  let found :=
    match value with
    | some v => idPathsFind ctx.id_paths v
    | none => none
  let g1 := tag_start_with_id g "a" x
  let g2 :=
    match found with
    | some target => tag_attribute g1 "href" (relative_path_from_str target ctx.path)
    | none => g1
  close_tag (documentList ctx (tag_end g2) x.children) "a"
termination_by 4 * sizeOf x + 2
decreasing_by
  all_goals try have hcle := XmlElement.sizeOf_children_le x
  all_goals try omega

/-- parser_phrase (bb2html.cpp lines 1176-1187). -/
def parser_phrase (ctx : GenCtx) (g : GState) (x : XmlElement) : GState :=
  let value := x.get_attribute "role"
  let g1 := tag_start_with_id g "span" x
  let g2 :=
    match value with
    | some v => tag_attribute g1 "class" v
    | none => g1
  close_tag (documentList ctx (tag_end g2) x.children) "span"
termination_by 4 * sizeOf x + 2
decreasing_by
  all_goals try have hcle := XmlElement.sizeOf_children_le x
  all_goals try omega

/-- parser_emphasis (bb2html.cpp lines 1189-1211). -/
def parser_emphasis (ctx : GenCtx) (g : GState) (x : XmlElement) : GState :=
  let value := x.get_attribute "role"
  let tn :=
    match value with
    | some v => if v = "bold" ∨ v = "strong" then "strong" else "span"
    | none => "em"
  let cn :=
    match value with
    | some v => if v = "bold" ∨ v = "strong" then "" else v
    | none => ""
  let g1 := tag_start_with_id g tn x
  let g2 := if cn ≠ "" then tag_attribute g1 "class" cn else g1
  close_tag (documentList ctx (tag_end g2) x.children) tn
termination_by 4 * sizeOf x + 2
decreasing_by
  all_goals try have hcle := XmlElement.sizeOf_children_le x
  all_goals try omega

/-- parser_inlinemediaobject (bb2html.cpp lines 1213-1260): find the
image fileref, render the alt phrase into a separate buffer, fall back
to "[]", and emit a self-closed img.  The C++ image pointer starts
uninitialized, so reading it with no imagedata anywhere is undefined
behaviour, modelled by the poison flag. -/
def parser_inlinemediaobject (ctx : GenCtx) (g : GState) (x : XmlElement) : GState :=
  let img := imo_find_image x.children (none, false)
  let p := imo_alt_scan ctx g x.children ""
  let g1 := if img.2 then p.1 else { p.1 with ub := true }
  let alt := if p.2 = "" then "[]" else p.2
  match img.1 with
  | some image =>
    tag_end_self_close (tag_attribute (tag_attribute (tag_start_with_id g1 "img" x)
      "src" image) "alt" alt)
  | none => g1
termination_by 4 * sizeOf x + 2
decreasing_by
  all_goals try have hcle := XmlElement.sizeOf_children_le x
  all_goals try omega

/-- The alt-text loop of parser_inlinemediaobject (lines 1233-1249):
scan textobject children; the state threads the footnote counter and
ghost fields through the private gen2 renders. -/
def imo_alt_scan (ctx : GenCtx) (g : GState) (is : List XmlElement) (alt : String) :
    GState × String :=
  match is with
  | [] => (g, alt)
  | i :: rest =>
    match i with
    | .node nm _ cs =>
      if nm = "textobject" then
        let p := imo_alt_phrases ctx g cs alt
        imo_alt_scan ctx p.1 rest p.2
      else imo_alt_scan ctx g rest alt
    | .text _ => imo_alt_scan ctx g rest alt
termination_by 4 * sizeOf is + 1
decreasing_by
  all_goals simp only [List.cons.sizeOf_spec, XmlElement.node.sizeOf_spec,
    XmlElement.text.sizeOf_spec]
  all_goals omega

/-- The inner phrase loop: each phrase with role alt is rendered through
a fresh html_gen copy (generate_html: clear callout numbers, number
callouts over the phrase and its following siblings, render); its html
becomes the alt text, and the fresh gen's callouts/footnotes are
discarded while the static footnote counter and the ghost state carry
over. -/
def imo_alt_phrases (ctx : GenCtx) (g : GState) (js : List XmlElement) (alt : String) :
    GState × String :=
  match js with
  | [] => (g, alt)
  | j :: rest =>
    match hj : j with
    | .node nm attrs _ =>
      if nm = "phrase" ∧ getAttr attrs "role" = some "alt" then
        let gen2 : GState :=
          { html := "", in_contents := false,
            callout_numbers := number_callouts [] (j :: rest),
            footnotes := [], counter := g.counter, markers := g.markers,
            anchors := g.anchors, ub := g.ub }
        let gen2' := document ctx gen2 j
        let g' := { g with counter := gen2'.counter, markers := gen2'.markers,
                           anchors := gen2'.anchors, ub := gen2'.ub }
        imo_alt_phrases ctx g' rest gen2'.html
      else imo_alt_phrases ctx g rest alt
    | .text _ => imo_alt_phrases ctx g rest alt
termination_by 4 * sizeOf js + 1
decreasing_by
  all_goals try subst hj
  all_goals simp only [List.cons.sizeOf_spec, XmlElement.node.sizeOf_spec,
    XmlElement.text.sizeOf_spec]
  all_goals omega

/-- parser_variablelist (bb2html.cpp lines 1262-1303): the dl wrapper is
emitted only when at least one varlistentry has both parts; entries are
then rendered in order. -/
def parser_variablelist (ctx : GenCtx) (g : GState) (x : XmlElement) : GState :=
  if (vl_items_present x.children) then
    close_tag (vl_render ctx (open_tag_with_id g "dl" x) x.children) "dl"
  else g
termination_by 4 * sizeOf x + 2
decreasing_by
  all_goals try have hcle := XmlElement.sizeOf_children_le x
  all_goals try omega

/-- Render the dt/dd pairs of a variablelist's children in order. -/
def vl_render (ctx : GenCtx) (g : GState) (is : List XmlElement) : GState :=
  match is with
  | [] => g
  | i :: rest =>
    match i with
    | .node nm _ cs =>
      if nm = "varlistentry" then
        match h : vl_entry_parts cs (none, none) with
        | (some t, some li) =>
          vl_render ctx (tagRule ctx (tagRule ctx g "dt" t) "dd" li) rest
        | _ => vl_render ctx g rest
      else vl_render ctx g rest
    | .text _ => vl_render ctx g rest
termination_by 4 * sizeOf is + 1
decreasing_by
  all_goals simp only [List.cons.sizeOf_spec, XmlElement.node.sizeOf_spec,
    XmlElement.text.sizeOf_spec]
  · rename_i nm attrs cs hnm
    have h1 : t ∈ cs := by
      rcases vl_entry_parts_fst cs (none, none) t (by rw [h]) with hm | hm
      · exact hm
      · exact Option.noConfusion hm
    have h2 := List.sizeOf_lt_of_mem h1
    omega
  · rename_i nm attrs cs f hnm
    have h1 : li ∈ cs := by
      rcases vl_entry_parts_snd cs (none, none) li (by rw [h]) with hm | hm
      · exact hm
      · exact Option.noConfusion hm
    have h2 := List.sizeOf_lt_of_mem h1
    omega
  all_goals omega

/-- write_table (bb2html.cpp lines 1324-1376). -/
def write_table (ctx : GenCtx) (g : GState) (x : XmlElement) : GState :=
  match h : find_last_named "tgroup" x.children with
  | none => g
  | some tgroup =>
    let g1 := tag_end (tag_attribute (tag_start_with_id g "div" x) "class" x.name)
    let g2 := open_tag g1 "table"
    let g3 :=
      match h2 : find_last_named "title" x.children with
      | some title => tagRule ctx g2 "caption" title
      | none => g2
    let g4 :=
      match h3 : find_last_named "thead" tgroup.children with
      | some thead =>
        close_tag (write_table_rows ctx (open_tag g3 "thead") thead.children "th") "thead"
      | none => g3
    let g5 :=
      match h4 : find_last_named "tbody" tgroup.children with
      | some tbody =>
        close_tag (write_table_rows ctx (open_tag g4 "tbody") tbody.children "td") "tbody"
      | none => g4
    close_tag (close_tag g5 "table") "div"
termination_by 4 * sizeOf x + 2
decreasing_by
  all_goals have hcle := XmlElement.sizeOf_children_le x
  · have hm1 := List.sizeOf_lt_of_mem (find_last_named_mem _ h2)
    omega
  · have hm1 := List.sizeOf_lt_of_mem (find_last_named_mem _ h)
    have hm2 := List.sizeOf_lt_of_mem (find_last_named_mem _ h3)
    have hcle2 := XmlElement.sizeOf_children_le tgroup
    have hcle3 := XmlElement.sizeOf_children_le thead
    omega
  · have hm1 := List.sizeOf_lt_of_mem (find_last_named_mem _ h)
    have hm2 := List.sizeOf_lt_of_mem (find_last_named_mem _ h4)
    have hcle2 := XmlElement.sizeOf_children_le tgroup
    have hcle3 := XmlElement.sizeOf_children_le tbody
    omega

/-- write_table_rows (bb2html.cpp lines 1305-1322). -/
def write_table_rows (ctx : GenCtx) (g : GState) (rows : List XmlElement)
    (tdtag : String) : GState :=
  match rows with
  | [] => g
  | i :: rest =>
    match i with
    | .node nm _ cs =>
      if nm = "row" then
        let g1 := close_tag (write_table_entries ctx (open_tag_with_id g "tr" i) cs tdtag) "tr"
        write_table_rows ctx g1 rest tdtag
      else write_table_rows ctx g rest tdtag
    | .text _ => write_table_rows ctx g rest tdtag
termination_by 4 * sizeOf rows + 1
decreasing_by
  all_goals simp only [List.cons.sizeOf_spec, XmlElement.node.sizeOf_spec,
    XmlElement.text.sizeOf_spec]
  all_goals omega

/-- The entry loop inside write_table_rows. -/
def write_table_entries (ctx : GenCtx) (g : GState) (js : List XmlElement)
    (tdtag : String) : GState :=
  match js with
  | [] => g
  | j :: rest =>
    match j with
    | .node nm _ cs =>
      if nm = "entry" then
        let g1 := close_tag (documentList ctx (open_tag_with_id g tdtag j) cs) tdtag
        write_table_entries ctx g1 rest tdtag
      else write_table_entries ctx g rest tdtag
    | .text _ => write_table_entries ctx g rest tdtag
termination_by 4 * sizeOf js + 1
decreasing_by
  all_goals simp only [List.cons.sizeOf_spec, XmlElement.node.sizeOf_spec,
    XmlElement.text.sizeOf_spec]
  all_goals omega

/-- parser_callout (bb2html.cpp lines 1383-1417).  When the id has no
entry in callout_numbers the C++ dereferences the end iterator
(data->second.number); modelled as the poison flag with junk number 0. -/
def parser_callout (ctx : GenCtx) (g : GState) (x : XmlElement) : GState :=
  let idv := x.get_attribute "id"
  let data :=
    match idv with
    | some i => calloutFind g.callout_numbers i
    | none => none
  let link :=
    match data with
    | some d => if d.link_id ≠ "" then idPathsFind ctx.id_paths d.link_id else none
    | none => none
  let num :=
    match data with
    | some d => d.number
    | none => 0
  let g0 := if data.isNone then { g with ub := true } else g
  let g1 := open_tag_with_id g0 "div" x
  let g2 :=
    match link with
    | some target =>
      tag_end (tag_attribute (tag_start g1 "a") "href"
        (relative_path_from_str target ctx.path))
    | none => g1
  let g3 := graphics_tag ctx g2 ("/callouts/" ++ toString num ++ ".png")
    ("(" ++ toString num ++ ")")
  let g4 :=
    match link with
    | some _ => close_tag g3 "a"
    | none => g3
  let g5 := { g4 with html := g4.html ++ " " }
  close_tag (documentList ctx g5 x.children) "div"
termination_by 4 * sizeOf x + 2
decreasing_by
  all_goals try have hcle := XmlElement.sizeOf_children_le x
  all_goals try omega

/-- parser_co (bb2html.cpp lines 1419-1452): missing numbering data
renders the text "(0)". -/
def parser_co (ctx : GenCtx) (g : GState) (x : XmlElement) : GState :=
  let linkends := x.get_attribute "linkends"
  let data :=
    match linkends with
    | some le => calloutFind g.callout_numbers le
    | none => none
  let link :=
    match linkends with
    | some le => idPathsFind ctx.id_paths le
    | none => none
  let g1 :=
    match link with
    | some target =>
      tag_end (tag_attribute (tag_start g "a") "href"
        (relative_path_from_str target ctx.path))
    | none => g
  let g2 :=
    match data with
    | some d =>
      graphics_tag ctx g1 ("/callouts/" ++ toString d.number ++ ".png")
        ("(" ++ toString d.number ++ ")")
    | none => { g1 with html := g1.html ++ "(0)" }
  match link with
  | some _ => close_tag g2 "a"
  | none => g2

/-- parser_footnote (bb2html.cpp lines 1489-1509): bump the static
counter, push the label onto the element's attributes, queue the element
for the trailing block, and emit the inline superscript marker. -/
def parser_footnote (ctx : GenCtx) (g : GState) (x : XmlElement) : GState :=
  match x with
  | .node nm attrs cs =>
    let n := g.counter + 1
    let label := toString n
    let labeled : XmlElement := .node nm (attrs ++ [("(((footnote-label)))", label)]) cs
    let g0 := { g with counter := n, footnotes := g.footnotes ++ [labeled],
                       markers := g.markers ++ [label] }
    let g1 := tag_end (tag_attribute (tag_start_with_id g0 "a" x) "href"
      ("#footnote-" ++ label))
    let g2 := tag_end (tag_attribute (tag_start g1 "sup") "class" "footnote")
    let g3 := { g2 with html := g2.html ++ "[" ++ label ++ "]" }
    close_tag (close_tag g3 "sup") "a"
  | .text _ => g

end

/-- One footnote block of generate_footnotes (bb2html.cpp lines
1523-1543).  The C++ dereferences get_attribute("(((footnote-label)))")
and get_attribute("id") without null checks (the latter carries the
comment "TODO: Might not have an id"), so a missing attribute is a null
pointer dereference: modelled by the poison flag with "" as the junk
string.  The ghost anchors list records the label of each emitted
trailing block. -/
def generate_footnote_block (ctx : GenCtx) (g : GState) (fn : XmlElement) : GState :=
  let label := (fn.get_attribute "(((footnote-label)))").getD ""
  let idv := (fn.get_attribute "id").getD ""
  let g0 :=
    if (fn.get_attribute "(((footnote-label)))").isNone
        ∨ (fn.get_attribute "id").isNone then { g with ub := true }
    else g
  let g1 := tag_end (tag_attribute (tag_attribute (tag_start g0 "div") "id"
    ("footnote-" ++ label)) "class" "footnote")
  let g2 := tag_end (tag_attribute (tag_start g1 "a") "href" ("#" ++ idv))
  let g3 := tag_end (tag_start g2 "sup")
  let g4 := { g3 with html := g3.html ++ "[" ++ label ++ "]" }
  let g5 := close_tag (close_tag g4 "sup") "a"
  let g6 := documentList ctx g5 fn.children
  let g7 := close_tag g6 "div"
  { g7 with anchors := g7.anchors ++ [label] }

/-- The footnote loop (bb2html.cpp lines 1520-1543): the C++ iterates
gen.footnotes with vector iterators while document_children inside the
loop can push further footnotes onto the same vector; any growth can
reallocate the vector and invalidate the iterator, so the model walks
the snapshot and raises the poison flag whenever a body render appends
a new footnote. -/
def generate_footnotes_loop (ctx : GenCtx) (g : GState) : List XmlElement → GState
  | [] => g
  | fn :: rest =>
    let g1 := generate_footnote_block ctx g fn
    let g2 :=
      if g1.footnotes.length ≠ g.footnotes.length then { g1 with ub := true }
      else g1
    generate_footnotes_loop ctx g2 rest

/-- generate_footnotes (bb2html.cpp lines 1511-1546). -/
def generate_footnotes (ctx : GenCtx) (g : GState) : GState :=
  if g.footnotes.isEmpty then g
  else
    let g1 := tag_end (tag_attribute (tag_start g "div") "class" "footnotes")
    let g2 := { g1 with html := g1.html ++ "<br/>" ++ "<hr/>" }
    close_tag (generate_footnotes_loop ctx g2 g.footnotes) "div"

/-- generate_contents_html (bb2html.cpp lines 1548-1554).  The C++ saves
the old in_contents flag but unconditionally clears it afterwards
instead of restoring the saved value; a null element is dereferenced by
document_children (poison flag). -/
def generate_contents_html (ctx : GenCtx) (g : GState) (x? : Option XmlElement) :
    GState :=
  let g1 := { g with in_contents := true }
  let g2 :=
    match x? with
    | some x => documentList ctx g1 x.children
    | none => { g1 with ub := true }
  { g2 with in_contents := false }

/-- generate_html (bb2html.cpp lines 1556-1567): null is skipped; the
callout-number table is cleared and rebuilt from the tree, then the
tree is rendered. -/
def generate_html (ctx : GenCtx) (g : GState) (x? : Option XmlElement) : GState :=
  match x? with
  | none => g
  | some x =>
    let g1 := { g with callout_numbers := number_callouts [] [x] }
    document ctx g1 x

/-- chunk (bb2html.cpp lines 187-207): a tree node holding the extracted
title and info elements, the chunk's own root element, the inline flag,
the id and the output path.  The intrusive child/sibling pointers become
a children list. -/
inductive Chunk : Type where
  | mk (title info : Option XmlElement) (root : XmlElement) (inl : Bool)
      (id path : String) (children : List Chunk)

def Chunk.title : Chunk → Option XmlElement
  | .mk t _ _ _ _ _ _ => t

def Chunk.info : Chunk → Option XmlElement
  | .mk _ i _ _ _ _ _ => i

def Chunk.root : Chunk → XmlElement
  | .mk _ _ r _ _ _ _ => r

def Chunk.inl : Chunk → Bool
  | .mk _ _ _ b _ _ _ => b

def Chunk.id : Chunk → String
  | .mk _ _ _ _ i _ _ => i

def Chunk.path : Chunk → String
  | .mk _ _ _ _ _ p _ => p

def Chunk.children : Chunk → List Chunk
  | .mk _ _ _ _ _ _ cs => cs

theorem Chunk.sizeOf_children_lt (c : Chunk) : sizeOf c.children < sizeOf c := by
  cases c with
  | mk t i r b idv p cs =>
    simp only [Chunk.children, Chunk.mk.sizeOf_spec]
    omega

/-- The chunk element sets (bb2html.cpp lines 930-959). -/
def chunk_types : List String :=
  ["book", "article", "library", "chapter", "part", "appendix", "preface",
   "qandadiv", "qandaset", "reference", "set", "section"]

def chunkinfo_types : List String := chunk_types.map (fun s => s ++ "info")

/-- id_to_path (bb2html.cpp lines 1569-1575): replace every '.' with '/'
and append ".html". -/
def id_to_path (id : String) : String :=
  String.mk (id.data.map (fun c => if c = '.' then '/' else c)) ++ ".html"

/-- chunk_nodes (bb2html.cpp lines 976-1026) rewritten as a fold over a
sibling list.  Returns the updated page counter, the title and info
extracted for the enclosing chunk (a later occurrence overwrites an
earlier one, matching the repeated assignments to parent->title_ /
parent->info_), the chunks created at this level in order, and the
sibling elements that remain in the xml tree.  hasParent mirrors
builder.parent_ being non-null: title/info extraction happens only below
a chunk.  A chunk node with no id attribute takes its id from
next_path_name (bb2html.cpp lines 948-956), which increments the counter
both before and after reading it, so ids use counter+1 and the counter
advances by two. -/
def chunk_level (hasParent : Bool) : Nat → List XmlElement →
    Nat × Option XmlElement × Option XmlElement × List Chunk × List XmlElement
  | cnt, [] => (cnt, none, none, [], [])
  | cnt, .node nm attrs cs :: xs =>
    if hasParent ∧ nm = "title" then
      let r := chunk_level hasParent cnt xs
      (r.1, r.2.1 <|> some (.node nm attrs cs), r.2.2.1, r.2.2.2.1, r.2.2.2.2)
    else if hasParent ∧ nm ∈ chunkinfo_types then
      let r := chunk_level hasParent cnt xs
      (r.1, r.2.1, r.2.2.1 <|> some (.node nm attrs cs), r.2.2.2.1, r.2.2.2.2)
    else if nm ∈ chunk_types then
      let idc : String × Nat :=
        match getAttr attrs "id" with
        | some i => (i, cnt)
        | none => ("page-" ++ toString (cnt + 1), cnt + 2)
      let sub := chunk_level true idc.2 cs
      let c : Chunk := .mk sub.2.1 sub.2.2.1 (.node nm attrs sub.2.2.2.2) false
        idc.1 (id_to_path idc.1) sub.2.2.2.1
      let r := chunk_level hasParent sub.1 xs
      (r.1, r.2.1, r.2.2.1, c :: r.2.2.2.1, r.2.2.2.2)
    else
      let r := chunk_level hasParent cnt xs
      (r.1, r.2.1, r.2.2.1, r.2.2.2.1, XmlElement.node nm attrs cs :: r.2.2.2.2)
  | cnt, .text s :: xs =>
    let r := chunk_level hasParent cnt xs
    (r.1, r.2.1, r.2.2.1, r.2.2.2.1, XmlElement.text s :: r.2.2.2.2)
termination_by cnt xs => sizeOf xs
decreasing_by
  all_goals simp only [List.cons.sizeOf_spec, XmlElement.node.sizeOf_spec,
    XmlElement.text.sizeOf_spec]
  all_goals omega

/-- chunk_document (bb2html.cpp lines 961-974): chunk the builder's
top-level sibling list.  builder.release() returns the first top-level
chunk with the later top-level chunks as its siblings; here that sibling
list is returned whole.  At the top level builder.parent_ is null, so
titles and info elements are never extracted there. -/
def chunk_document (roots : List XmlElement) : List Chunk :=
  (chunk_level false 0 roots).2.2.2.1

mutual

/-- inline_chunks (bb2html.cpp lines 549-556): mark the chunk inline,
copy the parent's path, and recurse into the children.  The C++ reads
c->parent()->path_ unconditionally: on a chunk with no parent (the root,
exactly how boostbook_to_html calls it in single-file mode) that
dereferences a null pointer.  parentPath is the parent's path_, or none
at the root; the Bool result is the poison flag, with "" as the junk
path read through the null pointer. -/
def inline_chunks (parentPath : Option String) : Chunk → Chunk × Bool
  | .mk t i r _ idv _ cs =>
    let p := parentPath.getD ""
    let sub := inline_chunks_list (some p) cs
    (.mk t i r true idv p sub.1, parentPath.isNone || sub.2)

def inline_chunks_list (parentPath : Option String) : List Chunk → List Chunk × Bool
  | [] => ([], false)
  | c :: rest =>
    let r1 := inline_chunks parentPath c
    let r2 := inline_chunks_list parentPath rest
    (r1.1 :: r2.1, r1.2 || r2.2)

end

theorem sizeOf_dropWhile_le {α : Type} [SizeOf α] (P : α → Bool) (l : List α) :
    sizeOf (l.dropWhile P) ≤ sizeOf l := by
  induction l with
  | nil => simp [List.dropWhile]
  | cons a t ih =>
    simp only [List.dropWhile]
    split
    · simp only [List.cons.sizeOf_spec]
      omega
    · omega

mutual

/-- inline_sections (bb2html.cpp lines 558-576): below a section at depth
greater than one the depth decreases; when the depth reaches zero the
leading section children are inlined (with the current chunk as their
parent) and the remaining children recurse. -/
def inline_sections (c : Chunk) (depth : Int) : Chunk :=
  match c with
  | .mk t i r b idv p cs =>
    let depth' := if r.name = "section" ∧ depth > 1 then depth - 1 else depth
    if depth' = 0 then
      let lead := cs.takeWhile (fun it => it.root.name = "section")
      let rest := cs.dropWhile (fun it => it.root.name = "section")
      .mk t i r b idv p
        (lead.map (fun it => (inline_chunks (some p) it).1) ++
          inline_sections_list rest depth')
    else
      .mk t i r b idv p (inline_sections_list cs depth')
termination_by 2 * sizeOf c + 1
decreasing_by
  all_goals simp only [Chunk.mk.sizeOf_spec]
  · exact lt_of_le_of_lt (Nat.mul_le_mul_left 2 (sizeOf_dropWhile_le _ _)) (by omega)
  · omega

def inline_sections_list (cs : List Chunk) (depth : Int) : List Chunk :=
  match cs with
  | [] => []
  | c :: rest => inline_sections c depth :: inline_sections_list rest depth
termination_by 2 * sizeOf cs
decreasing_by
  all_goals simp only [List.cons.sizeOf_spec]
  all_goals omega

end

mutual

/-- get_id_paths_impl2 (bb2html.cpp lines 676-693): in preorder, register
path#id for every element carrying an id attribute.  Registrations are
collected as a list; idPathsFind takes the first match, which is
boost::unordered_map::emplace's first-wins behaviour. -/
def id_paths_impl2 (path : String) : XmlElement → List (String × String)
  | .node _ attrs cs =>
    (match getAttr attrs "id" with
     | some i => [(i, path ++ "#" ++ i)]
     | none => []) ++ id_paths_impl2_list path cs
  | .text _ => []
termination_by x => 2 * sizeOf x + 1
decreasing_by
  simp only [XmlElement.node.sizeOf_spec]
  omega

/-- The child loop of get_id_paths_impl2. -/
def id_paths_impl2_list (path : String) : List XmlElement → List (String × String)
  | [] => []
  | x :: xs => id_paths_impl2 path x ++ id_paths_impl2_list path xs
termination_by xs => 2 * sizeOf xs
decreasing_by
  all_goals simp only [List.cons.sizeOf_spec]
  all_goals omega

end

/-- get_id_paths_impl2 on a possibly-null tree (the early return for a
null node). -/
def optIdPaths (path : String) : Option XmlElement → List (String × String)
  | some t => id_paths_impl2 path t
  | none => []

mutual

/-- get_id_paths_impl (bb2html.cpp lines 659-674): register the chunk's
own id first — against path#id when the chunk is inline, and against the
bare path otherwise — then the ids inside its title, info and root
trees, then the child chunks.  Because the chunk entry precedes the
subtree entries and emplace is first-wins, an element id equal to the
chunk's id resolves to the chunk entry. -/
def id_paths_impl : Chunk → List (String × String)
  | .mk t i r inl idv path cs =>
    (idv, if inl then path ++ "#" ++ idv else path) ::
      (optIdPaths path t ++ optIdPaths path i ++ id_paths_impl2 path r ++
       id_paths_impl_list cs)

def id_paths_impl_list : List Chunk → List (String × String)
  | [] => []
  | c :: rest => id_paths_impl c ++ id_paths_impl_list rest

end

/-- get_id_paths (bb2html.cpp lines 649-657): walk the given chunk only
(a root's later siblings are not visited). -/
def get_id_paths (c : Chunk) : List (String × String) := id_paths_impl c

mutual

/-- generate_contents_impl (bb2html.cpp lines 736-762): a ul of li items
for the chunk's children; a child whose id is in the index gets an a
whose href is the encoded relative path from the page to the child's
index entry; the title is rendered in contents mode; children with
children recurse.  pagePath is page->path_. -/
def generate_contents_impl (ctx : GenCtx) (g : GState) (pagePath : String)
    (c : Chunk) : GState :=
  let g1 := { g with html := g.html ++ "<ul>" }
  let g2 := gci_loop ctx g1 pagePath c.children
  { g2 with html := g2.html ++ "</ul>" }
termination_by 2 * sizeOf c + 1
decreasing_by
  have h1 := Chunk.sizeOf_children_lt c
  omega

/-- The child loop of generate_contents_impl. -/
def gci_loop (ctx : GenCtx) (g : GState) (pagePath : String) : List Chunk → GState
  | [] => g
  | it :: rest =>
    let link := idPathsFind ctx.id_paths it.id
    let g1 := { g with html := g.html ++ "<li>" }
    let g2 :=
      match link with
      | some target =>
        let ga := { g1 with html := (g1.html ++ "<a href=\"" ++
          ctx.encode (relative_path_from_str target pagePath) ++ "\">") }
        let gb := generate_contents_html ctx ga it.title
        { gb with html := gb.html ++ "</a>" }
      | none => generate_contents_html ctx g1 it.title
    let g3 :=
      if it.children.isEmpty then g2
      else generate_contents_impl ctx g2 pagePath it
    gci_loop ctx { g3 with html := g3.html ++ "</li>" } pagePath rest
termination_by cs => 2 * sizeOf cs
decreasing_by
  all_goals simp only [List.cons.sizeOf_spec]
  all_goals omega

end

/-- generate_contents (bb2html.cpp lines 764-779): emitted only when the
chunk has children; the toc div wraps a "Table of contents" header and
the recursive listing, with the chunk itself as the page. -/
def generate_contents (ctx : GenCtx) (g : GState) (c : Chunk) : GState :=
  if c.children.isEmpty then g
  else
    let g1 := tag_end (tag_attribute (tag_start g "div") "class" "toc")
    let g2 := open_tag (open_tag g1 "p") "b"
    let g3 := { g2 with html := g2.html ++ "Table of contents" }
    let g4 := close_tag (close_tag g3 "b") "p"
    let g5 := generate_contents_impl ctx g4 c.path c
    close_tag g5 "div"

mutual

/-- generate_inline_chunks (bb2html.cpp lines 781-796): a div carrying
the chunk's id wrapping title, info, contents, the chunk's root tree and
the recursively inlined children. -/
def generate_inline_chunks (ctx : GenCtx) (g : GState) (c : Chunk) : GState :=
  let g1 := tag_end (tag_attribute (tag_start g "div") "id" c.id)
  let g2 := generate_html ctx g1 c.title
  let g3 := generate_html ctx g2 c.info
  let g4 := generate_contents ctx g3 c
  let g5 := generate_html ctx g4 (some c.root)
  let g6 := gic_loop ctx g5 c.children
  close_tag g6 "div"
termination_by 2 * sizeOf c + 1
decreasing_by
  have h1 := Chunk.sizeOf_children_lt c
  omega

/-- The child loop of generate_inline_chunks. -/
def gic_loop (ctx : GenCtx) (g : GState) : List Chunk → GState
  | [] => g
  | c :: rest => gic_loop ctx (generate_inline_chunks ctx g c) rest
termination_by cs => 2 * sizeOf cs
decreasing_by
  all_goals simp only [List.cons.sizeOf_spec]
  all_goals omega

end

/-- The spirit-nav block of generate_chunks_impl (bb2html.cpp lines
855-899): prev, up and home, then next, each a graphics link whose href
is the raw (unencoded) relative path from the page. -/
def nav_html (ctx : GenCtx) (g : GState) (prevPath parentPath nextPath : Option String)
    (pagePath : String) : GState :=
  let g1 := tag_end (tag_attribute (tag_start g "div") "class" "spirit-nav")
  let g2 :=
    match prevPath with
    | some pp =>
      let ga := tag_end (tag_attribute (tag_attribute (tag_start g1 "a") "href"
        (relative_path_from_str pp pagePath)) "accesskey" "p")
      let gb := close_tag (graphics_tag ctx ga "/prev.png" "prev") "a"
      { gb with html := gb.html ++ " " }
    | none => g1
  let g3 :=
    match parentPath with
    | some pp =>
      let ga := tag_end (tag_attribute (tag_attribute (tag_start g2 "a") "href"
        (relative_path_from_str pp pagePath)) "accesskey" "u")
      let gb := close_tag (graphics_tag ctx ga "/up.png" "up") "a"
      let gc := { gb with html := gb.html ++ " " }
      let gd := tag_end (tag_attribute (tag_attribute (tag_start gc "a") "href"
        (relative_path_from_str "index.html" pagePath)) "accesskey" "h")
      let ge := close_tag (graphics_tag ctx gd "/home.png" "home") "a"
      if nextPath.isSome then { ge with html := ge.html ++ " " } else ge
    | none => g2
  let g4 :=
    match nextPath with
    | some np =>
      let ga := tag_end (tag_attribute (tag_attribute (tag_start g3 "a") "href"
        (relative_path_from_str np pagePath)) "accesskey" "n")
      close_tag (graphics_tag ctx ga "/next.png" "next") "a"
    | none => g3
  close_tag g4 "div"

/-- The static footnote counter and the ghost/poison state that survive
from one page's html_gen to the next. -/
structure Globals where
  counter : Nat
  markers : List String
  anchors : List String
  ub : Bool

/-- Collaborators and options of the chunk writer (html_options from
bb2html.hpp plus chunk_writer, bb2html.cpp lines 715-734). -/
structure HtmlOptions where
  chunked_output : Bool
  /-- Modelled from the spec: the root output filename — "index.html"
  when chunked, else path_to_generic(output_path.filename()) computed by
  the excluded filesystem collaborators (§1 excluded components). -/
  rootFilename : String
  /-- Modelled from the spec: per-page graphics prefix,
  path_to_generic(path_difference(dir(root_path/page), graphics_path)),
  computed by the excluded path collaborators, injected as a function of
  the page path. -/
  graphicsFor : String → String
  /-- Modelled from the spec: css_path.empty() check plus the per-page
  relative css href computed by the excluded path collaborators; none
  models an empty css_path. -/
  cssFor : Option (String → String)
  /-- Modelled from the spec: encode_string from the excluded utils
  collaborator. -/
  encode : String → String
  /-- Modelled from the spec: whether the filesystem accepts the write
  of a given output path (ofstream open/write success in write_file,
  bb2html.cpp lines 909-928). -/
  writeOk : String → Bool

/-- The observable outcome of a run: the files written, the paths whose
writes failed (write_file's error messages), and the surviving global
state. -/
structure RunOut where
  files : List (String × String)
  failures : List String
  glob : Globals

/-- write_file (bb2html.cpp lines 909-928) through chunk_writer's
write_file (lines 727-733): on open or write failure an error is
printed and the function returns — its return type is void, and the
intended error codes survive only as comments (`return /*1*/;`), so no
failure ever reaches the caller. -/
def write_file (writeOk : String → Bool) (path content : String) (out : RunOut) :
    RunOut :=
  if writeOk path then { out with files := out.files ++ [(path, content)] }
  else { out with failures := out.failures ++ [path] }

/-- A fresh per-page html_gen (the html_gen constructor, bb2html.cpp
lines 233-240) carrying over only the process-global state.  Note the
C++ explicit constructor leaves in_contents uninitialized (only the
copy constructor sets it to false); the model picks false, the value
the copy constructor uses — no checked claim depends on it. -/
def freshGState (glob : Globals) : GState :=
  { html := "", in_contents := false, callout_numbers := [], footnotes := [],
    counter := glob.counter, markers := glob.markers, anchors := glob.anchors,
    ub := glob.ub }

def GState.toGlobals (g : GState) : Globals :=
  { counter := g.counter, markers := g.markers, anchors := g.anchors, ub := g.ub }

mutual

/-- generate_chunks_impl (bb2html.cpp lines 840-907): render one page —
css link, spirit-nav, title, info, contents, root tree, the inline
children, the footnote block — write it to the chunk's path, then
recurse into the non-inline children.  next is the first non-inline
child, else the chunk's next sibling; prev is the previous sibling, else
the parent.  prevPath/parentPath/sibsAfter carry the pointer context of
the intrusive tree. -/
def generate_chunks_impl (opts : HtmlOptions) (ips : List (String × String))
    (out : RunOut) (c : Chunk) (prevPath parentPath : Option String)
    (sibsAfter : List Chunk) : RunOut :=
  let nextPath : Option String :=
    match c.children.find? (fun it => !it.inl) with
    | some n => some n.path
    | none =>
      match sibsAfter with
      | n :: _ => some n.path
      | [] => none
  let ctx : GenCtx :=
    { id_paths := ips, graphics_path := opts.graphicsFor c.path,
      path := c.path, encode := opts.encode }
  let g0 := freshGState out.glob
  let g1 :=
    match opts.cssFor with
    | some f =>
      tag_end_self_close (tag_attribute (tag_attribute (tag_attribute
        (tag_start g0 "link") "rel" "stylesheet") "type" "text/css")
        "href" (f c.path))
    | none => g0
  let g2 := nav_html ctx g1 prevPath parentPath nextPath c.path
  let g3 := generate_html ctx g2 c.title
  let g4 := generate_html ctx g3 c.info
  let g5 := generate_contents ctx g4 c
  let g6 := generate_html ctx g5 (some c.root)
  let inlHead := c.children.takeWhile (fun it => it.inl)
  let nonInl := c.children.dropWhile (fun it => it.inl)
  let g7 := gic_loop ctx g6 inlHead
  let g8 := generate_footnotes ctx g7
  let out1 := write_file opts.writeOk c.path g8.html
    { out with glob := g8.toGlobals }
  gcl_loop opts ips out1 (inlHead.getLast?.map Chunk.path) c.path nonInl
termination_by 2 * sizeOf c + 1
decreasing_by
  have h1 := Chunk.sizeOf_children_lt c
  have h2 := sizeOf_dropWhile_le (fun it => it.inl) c.children
  omega

/-- The sibling loop at the tail of generate_chunks_impl (bb2html.cpp
lines 903-906): each remaining (non-inline) child becomes a page;
prevSib is the previous sibling's path if one exists (for the first
page, the last inline sibling's), with the parent's path as the
fallback, matching chunk_root->prev() ? prev->path_ : parent->path_. -/
def gcl_loop (opts : HtmlOptions) (ips : List (String × String)) (out : RunOut)
    (prevSib : Option String) (parentPath : String) : List Chunk → RunOut
  | [] => out
  | c :: rest =>
    let out1 := generate_chunks_impl opts ips out c
      (prevSib <|> some parentPath) (some parentPath) rest
    gcl_loop opts ips out1 (some c.path) parentPath rest
termination_by cs => 2 * sizeOf cs
decreasing_by
  all_goals simp only [List.cons.sizeOf_spec]
  all_goals omega

end

/-- A parse failure (boostbook_parse_error, bb2html.hpp lines 20-29): a
message and the byte offset of the offending construct, computed from
the saved iterator; or undefined behaviour (an end-iterator or null
dereference on a parse path). -/
inductive PErr : Type where
  | perr (msg : String) (pos : Nat)
  | pub
deriving DecidableEq

/-- A single-quote character, written by code point to keep apostrophes
out of the source text. -/
def squote : Char := Char.ofNat 39

/-- The whitespace set " \t\n\r" passed to read_some_of throughout the
parser. -/
def wsChars : List Char := [' ', '\t', '\n', '\r']

/-- The tag-name alphabet (read_tag_name, bb2html.cpp line 452). -/
def nameChars : List Char :=
  "abcdefghijklmnopqrstuvwxyzABCDEFGHIJKLMNOPQRSTUVWXYZ:-".toList

/-- read_string (bb2html.cpp lines 365-379): the head of rem is the
delimiter; scan to the matching delimiter and return the contents.
Hitting the end of input raises "Invalid string" at the offset of the
opening delimiter (the saved start iterator).  total is the whole
input's length, so an offset is total minus the suffix's length. -/
def read_string (total : Nat) (rem : List Char) : Except PErr (String × List Char) :=
  match rem with
  | [] => .error .pub
  | d :: rest =>
    let content := rest.takeWhile (fun x => x ≠ d)
    let rem2 := rest.dropWhile (fun x => x ≠ d)
    match rem2 with
    | [] => .error (.perr "Invalid string" (total - (rest.length + 1)))
    | _ :: rem3 => .ok (String.mk content, rem3)

/-- read_tag_name (bb2html.cpp lines 444-456): skip whitespace, then take
a non-empty run of name characters; an empty run is "Invalid tag" at the
tag's opening '<'.  (The helpers read_to / read_some_of / read_to_one_of
/ read / read_past live in simple_parse.hpp, which is not among the
provided sources; their behaviour here is reconstructed from the call
sites and the spec's description of the input language.) -/
def read_tag_name (startPos : Nat) (rem : List Char) :
    Except PErr (String × List Char) :=
  let r1 := rem.dropWhile (fun c => wsChars.contains c)
  let nm := r1.takeWhile (fun c => nameChars.contains c)
  let r2 := r1.dropWhile (fun c => nameChars.contains c)
  if nm.isEmpty then .error (.perr "Invalid tag" startPos)
  else .ok (String.mk nm, r2)

/-- read_attribute_value (bb2html.cpp lines 458-469): skip whitespace and
read a quoted string; an unquoted value is "Invalid tag" at the opening
'<'.  The C++ dereferences *it without an end check, so running out of
input here is undefined behaviour. -/
def read_attribute_value (total startPos : Nat) (rem : List Char) :
    Except PErr (String × List Char) :=
  let r1 := rem.dropWhile (fun c => wsChars.contains c)
  match r1 with
  | [] => .error .pub
  | c :: _ =>
    if c = '"' ∨ c = squote then read_string total r1
    else .error (.perr "Invalid tag" startPos)

/-- The stop set of skip_question_mark_tag's scan. -/
def qmStops : List Char := ['"', squote, '?', '<', '>']

/-- The stop set of skip_exclamation_mark_tag's scan. -/
def emStops : List Char := ['"', squote, '<', '>']

/-- The scanning loop of skip_question_mark_tag (bb2html.cpp lines
381-409).  The loop consumes at least one character per iteration; the
fuel, set one above the suffix length by the caller, bounds the
iterations, so the out-of-fuel branch is unreachable (it is mapped to
the poison error). -/
def sqm_loop (total startPos : Nat) : Nat → List Char → Except PErr (List Char)
  | 0, _ => .error .pub
  | fuel + 1, rem =>
    let r1 := rem.dropWhile (fun c => !qmStops.contains c)
    match r1 with
    | [] => .error (.perr "Invalid tag" startPos)
    | c :: rest =>
      if c = '"' ∨ c = squote then
        match read_string total r1 with
        | .ok (_, r2) => sqm_loop total startPos fuel r2
        | .error e => .error e
      else if c = '?' then
        if ['?', '>'].isPrefixOf r1 then .ok (r1.drop 2)
        else sqm_loop total startPos fuel rest
      else .error (.perr "Invalid tag" startPos)

/-- skip_question_mark_tag (bb2html.cpp lines 381-409): rem starts at the
'?' after '<'. -/
def skip_question_mark_tag (total startPos : Nat) (rem : List Char) :
    Except PErr (List Char) :=
  match rem with
  | [] => .error .pub
  | _ :: rest => sqm_loop total startPos (rest.length + 1) rest

/-- read_past from simple_parse.hpp (not among the provided sources):
advance until just past the first occurrence of the literal; none when
the literal never occurs. -/
def read_past (lit : List Char) : List Char → Option (List Char)
  | [] => if lit.isEmpty then some [] else none
  | c :: rest =>
    if lit.isPrefixOf (c :: rest) then some ((c :: rest).drop lit.length)
    else read_past lit rest

/-- The scanning loop of skip_exclamation_mark_tag (bb2html.cpp lines
425-441); fuelled like sqm_loop. -/
def sem_loop (total startPos : Nat) : Nat → List Char → Except PErr (List Char)
  | 0, _ => .error .pub
  | fuel + 1, rem =>
    let r1 := rem.dropWhile (fun c => !emStops.contains c)
    match r1 with
    | [] => .error (.perr "Invalid tag" startPos)
    | c :: rest =>
      if c = '"' ∨ c = squote then
        match read_string total r1 with
        | .ok (_, r2) => sem_loop total startPos fuel r2
        | .error e => .error e
      else if c = '>' then .ok rest
      else .error (.perr "Invalid tag" startPos)

/-- skip_exclamation_mark_tag (bb2html.cpp lines 411-442): rem starts at
the '!' after '<'; a "--" opens a comment scanned with read_past. -/
def skip_exclamation_mark_tag (total startPos : Nat) (rem : List Char) :
    Except PErr (List Char) :=
  match rem with
  | [] => .error .pub
  | _ :: rest =>
    if ['-', '-'].isPrefixOf rest then
      match read_past ['-', '-', '>'] (rest.drop 2) with
      | some r2 => .ok r2
      | none => .error (.perr "Invalid comment" startPos)
    else sem_loop total startPos (rest.length + 1) rest

/-- The attribute loop of read_tag (bb2html.cpp lines 478-519): stop at
'>' (descend into children) or '/>' (self-closing); otherwise read a
name, optionally '=' and a quoted value (else the value stays ""), and
push the pair.  Fuelled like sqm_loop (each iteration consumes the
non-empty attribute name). -/
def read_tag_attrs (total startPos : Nat) :
    Nat → List (String × String) → List Char →
    Except PErr (List (String × String) × Bool × List Char)
  | 0, _, _ => .error .pub
  | fuel + 1, attrs, rem =>
    let r1 := rem.dropWhile (fun c => wsChars.contains c)
    match r1 with
    | [] => .error (.perr "Invalid tag" startPos)
    | c :: rest =>
      if c = '>' then .ok (attrs, true, rest)
      else if c = '/' then
        let r2 := rest.dropWhile (fun c2 => wsChars.contains c2)
        match r2 with
        | [] => .error (.perr "Invalid tag" startPos)
        | g :: r3 =>
          if g = '>' then .ok (attrs, false, r3)
          else .error (.perr "Invalid tag" startPos)
      else
        match read_tag_name startPos r1 with
        | .error e => .error e
        | .ok (an, r2) =>
          let r3 := r2.dropWhile (fun c2 => wsChars.contains c2)
          match r3 with
          | [] => .error (.perr "Invalid tag" startPos)
          | c2 :: rest2 =>
            if c2 = '=' then
              match read_attribute_value total startPos rest2 with
              | .error e => .error e
              | .ok (av, r4) =>
                read_tag_attrs total startPos fuel (attrs ++ [(an, av)]) r4
            else
              read_tag_attrs total startPos fuel (attrs ++ [(an, "")]) r3

/-- One frame of the open-element stack: the open tag's name and
attributes and the elder siblings preceding it at its level (the
functional image of the builder's parent_/current_ cursors). -/
structure PFrame where
  name : String
  attrs : List (String × String)
  elders : List XmlElement

/-- read_tag (bb2html.cpp lines 471-519): read the name and attributes;
'>' pushes an open frame (builder.start_children()), '/>' appends a
childless element. -/
def read_tag (total startPos : Nat) (frames : List PFrame)
    (sibs : List XmlElement) (rem : List Char) :
    Except PErr (List PFrame × List XmlElement × List Char) :=
  match read_tag_name startPos rem with
  | .error e => .error e
  | .ok (nm, r2) =>
    match read_tag_attrs total startPos (r2.length + 1) [] r2 with
    | .error e => .error e
    | .ok (attrs, descend, r3) =>
      if descend then .ok (⟨nm, attrs, sibs⟩ :: frames, [], r3)
      else .ok (frames, sibs ++ [.node nm attrs []], r3)

/-- read_close_tag (bb2html.cpp lines 520-540): rem starts at the '/'
after '<'; after the name and '>', the builder's parent must exist and
carry the same name, and end_children() closes the frame. -/
def read_close_tag (total startPos : Nat) (frames : List PFrame)
    (sibs : List XmlElement) (rem : List Char) :
    Except PErr (List PFrame × List XmlElement × List Char) :=
  match rem with
  | [] => .error .pub
  | _ :: r1 =>
    match read_tag_name startPos r1 with
    | .error e => .error e
    | .ok (nm, r2) =>
      let r3 := r2.dropWhile (fun c => wsChars.contains c)
      match r3 with
      | [] => .error (.perr "Invalid close tag" startPos)
      | c :: r4 =>
        if c ≠ '>' then .error (.perr "Invalid close tag" startPos)
        else
          match frames with
          | [] => .error (.perr "Close tag doesn't match" startPos)
          | f :: fs =>
            if f.name ≠ nm then .error (.perr "Close tag doesn't match" startPos)
            else .ok (fs, f.elders ++ [.node f.name f.attrs sibs], r4)

/-- Close the remaining open frames at end of input: the main loop just
breaks, leaving whatever the builder holds; the open elements keep the
children read so far. -/
def unwind : List PFrame → List XmlElement → List XmlElement
  | [], sibs => sibs
  | f :: fs, sibs => unwind fs (f.elders ++ [.node f.name f.attrs sibs])

/-- The parse loop of boostbook_to_html (bb2html.cpp lines 597-627):
text runs become text nodes; '<' at the very end of input is "Invalid
tag" at its own offset; otherwise dispatch on the next character.
Fuelled like sqm_loop (each iteration past the first consumes at least
the '<'). -/
def parse_loop (total : Nat) : Nat → List PFrame → List XmlElement → List Char →
    Except PErr (List XmlElement)
  | 0, _, _, _ => .error .pub
  | fuel + 1, frames, sibs, rem =>
    let txt := rem.takeWhile (fun c => c ≠ '<')
    let r1 := rem.dropWhile (fun c => c ≠ '<')
    let sibs1 :=
      if txt.isEmpty then sibs else sibs ++ [XmlElement.text (String.mk txt)]
    match r1 with
    | [] => .ok (unwind frames sibs1)
    | _ :: r2 =>
      let startPos := total - r1.length
      match r2 with
      | [] => .error (.perr "Invalid tag" startPos)
      | c :: _ =>
        if c = '?' then
          match skip_question_mark_tag total startPos r2 with
          | .error e => .error e
          | .ok r3 => parse_loop total fuel frames sibs1 r3
        else if c = '!' then
          match skip_exclamation_mark_tag total startPos r2 with
          | .error e => .error e
          | .ok r3 => parse_loop total fuel frames sibs1 r3
        else if c = '/' then
          match read_close_tag total startPos frames sibs1 r2 with
          | .error e => .error e
          | .ok (fs, sb, r3) => parse_loop total fuel fs sb r3
        else
          match read_tag total startPos frames sibs1 r2 with
          | .error e => .error e
          | .ok (fs, sb, r3) => parse_loop total fuel fs sb r3

/-- The whole parse phase of boostbook_to_html: the builder's final
top-level sibling list, or the first parse error. -/
def xml_parse_bb (source : String) : Except PErr (List XmlElement) :=
  let cs := source.toList
  parse_loop cs.length (cs.length + 1) [] [] cs

/-- Chunk.path replacement (the `chunked->path_ = root_filename`
assignment, bb2html.cpp line 631). -/
def Chunk.setPath (c : Chunk) (p : String) : Chunk :=
  match c with
  | .mk t i r b idv _ cs => .mk t i r b idv p cs

/-- boostbook_to_html (bb2html.cpp lines 578-645): parse, chunk, force
the root chunk's path to the root filename, inline (sections when
chunked, the whole tree — root included — when not), build the id-path
index, generate, and return 0.  When the document produced no chunks,
chunk_document returned null and the path assignment dereferences it
(poison).  The Nat in the result is the C++ return value. -/
def boostbook_to_html (source : String) (opts : HtmlOptions) :
    Except PErr (RunOut × Nat) :=
  match xml_parse_bb source with
  | .error e => .error e
  | .ok roots =>
    match chunk_document roots with
    | [] => .error .pub
    | c0 :: laterChunks =>
      let c1 := c0.setPath opts.rootFilename
      let c2 :=
        if opts.chunked_output then inline_sections c1 0
        else (inline_chunks none c1).1
      let ubInl := if opts.chunked_output then false else (inline_chunks none c1).2
      let ips := get_id_paths c2
      let out0 : RunOut :=
        { files := [], failures := [],
          glob := { counter := 0, markers := [], anchors := [], ub := ubInl } }
      let out1 := generate_chunks_impl opts ips out0 c2 none none laterChunks
      .ok (out1, 0)

/-- A concrete generation context for witnesses: empty index, no
graphics, page "a.html", identity encoding. -/
def ctx0 : GenCtx :=
  { id_paths := [], graphics_path := "", path := "a.html", encode := fun s => s }

/-- A concrete fresh generator state for witnesses. -/
def g0 : GState :=
  freshGState { counter := 0, markers := [], anchors := [], ub := false }

/-- C8 counterexample: the input "<para x="y — an opened tag never
terminated, whose opening '<' sits at offset 0 — is rejected at offset
8 (the opening quote), not at the offset of the '<'. -/
theorem c8_counterexample :
    xml_parse_bb "<para x=\"y" = .error (.perr "Invalid string" 8) ∧
    (8 : Nat) ≠ 0 :=
  ⟨rfl, by decide⟩

/-- C6: missing callout numbering data, code bug.  parser_co degrades as
claimed: with no entry for its linkends it renders the literal "(0)"
(the graphics/text fallback with number 0 is only in parser_co's else
branch) and raises nothing.  parser_callout does not: when the id has no
entry in callout_numbers, the C++ `data = gen.callout_numbers.find(*id)`
leaves the end iterator and `data->second.number` dereferences it
unconditionally (bb2html.cpp lines 1395, 1406, 1409) — undefined
behaviour, poison in the model — instead of rendering "(0)". -/
theorem c6_callout_missing_data (ctx : GenCtx) (g : GState)
    (hc : calloutFind g.callout_numbers "c1" = none)
    (hl : idPathsFind ctx.id_paths "c1" = none) :
    (parser_callout ctx g (.node "callout" [("id", "c1")] [])).ub = true ∧
    (parser_co ctx g (.node "co" [("linkends", "c1")] [])).html = g.html ++ "(0)" ∧
    (parser_co ctx g (.node "co" [("linkends", "c1")] [])).ub = g.ub := by
  refine ⟨?_, ?_, ?_⟩
  · simp [parser_callout, XmlElement.get_attribute, getAttr, hc,
      XmlElement.children, documentList, close_tag, open_tag_with_id,
      tag_start_with_id, tag_start, tag_end, tag_attribute, graphics_tag]
    split <;> split <;> rfl
  · simp [parser_co, XmlElement.get_attribute, getAttr, hc, hl]
  · simp [parser_co, XmlElement.get_attribute, getAttr, hc, hl]

/-- C6 witness: the empty table and index. -/
theorem c6_callout_missing_data_witness :
    calloutFind g0.callout_numbers "c1" = none ∧
    idPathsFind ctx0.id_paths "c1" = none ∧
    (parser_callout ctx0 g0 (.node "callout" [("id", "c1")] [])).ub = true := by
  have h1 : calloutFind g0.callout_numbers "c1" = none := rfl
  have h2 : idPathsFind ctx0.id_paths "c1" = none := rfl
  exact ⟨h1, h2, (c6_callout_missing_data ctx0 g0 h1 h2).1⟩

/-- C7: unresolvable link degradation, confirmed.  A link whose linkend
is missing from the index — or which has no linkend attribute at all —
renders exactly the anchor with no href attribute wrapping its rendered
children: parser_link equals the render that never calls
tag_attribute "href", and nothing fails. -/
theorem c7_unresolvable_link (ctx : GenCtx) (g : GState)
    (attrs : List (String × String)) (cs : List XmlElement)
    (h : ∀ v, getAttr attrs "linkend" = some v → idPathsFind ctx.id_paths v = none) :
    parser_link ctx g (.node "link" attrs cs) =
      close_tag
        (documentList ctx (open_tag_with_id g "a" (.node "link" attrs cs)) cs)
        "a" := by
  rcases hv : getAttr attrs "linkend" with _ | v
  · simp [parser_link, XmlElement.get_attribute, hv, XmlElement.children,
      open_tag_with_id]
  · have hnone := h v hv
    simp [parser_link, XmlElement.get_attribute, hv, hnone,
      XmlElement.children, open_tag_with_id]

/-- C7 witness: a linkend absent from an empty index. -/
theorem c7_unresolvable_link_witness :
    (∀ v, getAttr [("linkend", "missing")] "linkend" = some v →
      idPathsFind ctx0.id_paths v = none) ∧
    parser_link ctx0 g0 (.node "link" [("linkend", "missing")] []) =
      close_tag
        (documentList ctx0
          (open_tag_with_id g0 "a" (.node "link" [("linkend", "missing")] [])) [])
        "a" := by
  have h : ∀ v, getAttr [("linkend", "missing")] "linkend" = some v →
      idPathsFind ctx0.id_paths v = none := by
    intro v hv
    rfl
  exact ⟨h, c7_unresolvable_link ctx0 g0 [("linkend", "missing")] [] h⟩

/-- C3: I/O error accounting, corrected.  boostbook_to_html's only
return statement is `return 0` (bb2html.cpp line 644): whenever it
returns, the status is 0, regardless of how many per-file writes
failed.  write_file records the failure and generation continues with
the remaining pages, as claimed, but the counter the claim describes
does not exist — the intended codes survive only as the comments
`return /*1*/;` in the void write_file. -/
theorem c3_exit_always_zero (source : String) (opts : HtmlOptions)
    (out : RunOut) (n : Nat)
    (h : boostbook_to_html source opts = .ok (out, n)) : n = 0 := by
  unfold boostbook_to_html at h
  split at h
  · cases h
  · split at h
    · cases h
    · cases h
      rfl

/-- Options for the C3 run: chunked output to "index.html", every file
write refused by the filesystem. -/
def opts3 : HtmlOptions :=
  { chunked_output := true, rootFilename := "index.html",
    graphicsFor := fun _ => "", cssFor := none, encode := fun s => s,
    writeOk := fun _ => false }

/-- C3 witness: a run of the pipeline reaching `return 0`. -/
theorem c3_exit_always_zero_witness :
    ∃ out n, boostbook_to_html "<book id=\"b\"></book>" opts3 = .ok (out, n) ∧
      n = 0 := by
  have hp : xml_parse_bb "<book id=\"b\"></book>" =
      .ok [.node "book" [("id", "b")] []] := rfl
  have h : (boostbook_to_html "<book id=\"b\"></book>" opts3).map
      (fun r => r.2) = .ok 0 := by
    simp [boostbook_to_html, hp, opts3, chunk_document, chunk_level,
      chunk_types, getAttr, id_to_path, Chunk.setPath, inline_sections,
      inline_sections_list, XmlElement.name, Chunk.root, Chunk.children,
      Chunk.path, Chunk.id, Chunk.title, Chunk.info, Chunk.inl, get_id_paths,
      id_paths_impl, id_paths_impl_list, id_paths_impl2, id_paths_impl2_list,
      generate_chunks_impl, gcl_loop, freshGState, nav_html, generate_html,
      generate_contents, generate_contents_impl, gci_loop, gic_loop,
      generate_inline_chunks, generate_footnotes, generate_footnotes_loop,
      number_callouts, number_callouts2, document, documentList,
      XmlElement.children, write_file, GState.toGlobals, tag_start, tag_end,
      tag_attribute, close_tag, open_tag, open_tag_with_id, tag_start_with_id,
      tag_end_self_close, XmlElement.get_attribute, Except.map]
  rcases hres : boostbook_to_html "<book id=\"b\"></book>" opts3 with e | ⟨out, n⟩
  · rw [hres] at h
    cases h
  · exact ⟨out, n, rfl,
      c3_exit_always_zero "<book id=\"b\"></book>" opts3 out n hres⟩

/-- C3 counterexample: a run in which the write of "index.html" failed
(it is recorded in failures) and the exit status is nevertheless 0 —
refuting "non-zero exactly when at least one per-file write failed". -/
theorem c3_counterexample :
    (boostbook_to_html "<book id=\"b\"></book>" opts3).map
      (fun r => (r.1.failures, r.2)) = .ok (["index.html"], 0) := by
  have hp : xml_parse_bb "<book id=\"b\"></book>" =
      .ok [.node "book" [("id", "b")] []] := rfl
  simp [boostbook_to_html, hp, opts3, chunk_document, chunk_level, chunk_types,
    getAttr, id_to_path, Chunk.setPath, inline_sections, inline_sections_list,
    XmlElement.name, Chunk.root, Chunk.children, Chunk.path, Chunk.id,
    Chunk.title, Chunk.info, Chunk.inl, get_id_paths, id_paths_impl,
    id_paths_impl_list, id_paths_impl2, id_paths_impl2_list,
    generate_chunks_impl, gcl_loop, freshGState, nav_html, generate_html,
    generate_contents, generate_contents_impl, gci_loop, gic_loop,
    generate_inline_chunks, generate_footnotes, generate_footnotes_loop,
    number_callouts, number_callouts2, document, documentList,
    XmlElement.children, write_file, GState.toGlobals, tag_start, tag_end,
    tag_attribute, close_tag, open_tag, open_tag_with_id, tag_start_with_id,
    tag_end_self_close, XmlElement.get_attribute, Except.map]


/-- C8 (amended), by cases: an unterminated tag is not uniformly
rejected at the offset of its opening '<'.  The spec's own example
"<para" is rejected with "Invalid tag" at offset 0 — the position of its
opening '<' (the parse loop's saved start iterator) — and the pipeline
produces no output for the document, only that error.  But when end of
input falls inside a quoted attribute value, read_string reports
"Invalid string" at the offset of the opening quote (its own saved
start): "<para x=\"y" is rejected at offset 8, not at its '<' at offset
0.  And when the input ends immediately after '=' in an attribute,
read_attribute_value dereferences the end iterator — undefined
behaviour, poison in the model — rather than raising any positioned
error: "<para x=". -/
theorem c8_unterminated_tag_positions :
    xml_parse_bb "<para" = .error (.perr "Invalid tag" 0) ∧
    boostbook_to_html "<para" opts3 = .error (.perr "Invalid tag" 0) ∧
    xml_parse_bb "<para x=\"y" = .error (.perr "Invalid string" 8) ∧
    xml_parse_bb "<para x=" = .error PErr.pub :=
  ⟨rfl, rfl, rfl, rfl⟩

/-!  C1 machinery: reachability in the element and chunk trees, the
number of registrations a key receives, and the characterisation of the
first-wins lookup. -/

/-- Reachability of an element inside an element tree. -/
inductive ElemIn : XmlElement → XmlElement → Prop where
  | refl (x : XmlElement) : ElemIn x x
  | via_child (e c x : XmlElement) (hc : c ∈ x.children) (h : ElemIn e c) :
      ElemIn e x

/-- Reachability of a chunk inside a chunk tree. -/
inductive ChunkIn : Chunk → Chunk → Prop where
  | refl (c : Chunk) : ChunkIn c c
  | via_child (c ck x : Chunk) (hm : ck ∈ x.children) (h : ChunkIn c ck) :
      ChunkIn c x

/-- The element occurs in one of the chunk's three element trees
(title, info or root), the trees get_id_paths_impl walks. -/
def ElemInChunk (e : XmlElement) (c : Chunk) : Prop :=
  (∃ t, c.title = some t ∧ ElemIn e t) ∨
  (∃ t, c.info = some t ∧ ElemIn e t) ∨
  ElemIn e c.root

mutual

/-- How many elements of the tree carry an id attribute equal to i —
each is one registration get_id_paths_impl2 makes. -/
def elemIdCount (i : String) : XmlElement → Nat
  | .node _ attrs cs =>
    (if getAttr attrs "id" = some i then 1 else 0) + elemIdCountList i cs
  | .text _ => 0
termination_by x => 2 * sizeOf x + 1
decreasing_by
  simp only [XmlElement.node.sizeOf_spec]
  omega

/-- The list form of elemIdCount. -/
def elemIdCountList (i : String) : List XmlElement → Nat
  | [] => 0
  | x :: xs => elemIdCount i x + elemIdCountList i xs
termination_by xs => 2 * sizeOf xs
decreasing_by
  all_goals simp only [List.cons.sizeOf_spec]
  all_goals omega

end

mutual

/-- How many chunks of the tree have id i — each is one chunk-entry
registration get_id_paths_impl makes. -/
def chunkIdCount (i : String) (c : Chunk) : Nat :=
  (if c.id = i then 1 else 0) + chunkIdCountList i c.children
termination_by 2 * sizeOf c + 1
decreasing_by
  have h1 := Chunk.sizeOf_children_lt c
  omega

/-- The list form of chunkIdCount. -/
def chunkIdCountList (i : String) : List Chunk → Nat
  | [] => 0
  | c :: rest => chunkIdCount i c + chunkIdCountList i rest
termination_by cs => 2 * sizeOf cs
decreasing_by
  all_goals simp only [List.cons.sizeOf_spec]
  all_goals omega

end

/-- elemIdCount on a possibly-null tree. -/
def optElemCount (i : String) : Option XmlElement → Nat
  | some t => elemIdCount i t
  | none => 0

/-- elemIdCount over a chunk's own three trees. -/
def chunkOwnElemCount (i : String) (c : Chunk) : Nat :=
  optElemCount i c.title + optElemCount i c.info + elemIdCount i c.root

mutual

/-- How many elements with an id attribute equal to i the chunk tree's
element trees hold in total. -/
def chunkElemCount (i : String) (c : Chunk) : Nat :=
  chunkOwnElemCount i c + chunkElemCountList i c.children
termination_by 2 * sizeOf c + 1
decreasing_by
  have h1 := Chunk.sizeOf_children_lt c
  omega

/-- The list form of chunkElemCount. -/
def chunkElemCountList (i : String) : List Chunk → Nat
  | [] => 0
  | c :: rest => chunkElemCount i c + chunkElemCountList i rest
termination_by cs => 2 * sizeOf cs
decreasing_by
  all_goals simp only [List.cons.sizeOf_spec]
  all_goals omega

end

/-- find? is the head of filter. -/
theorem qbfind_eq_head_filter {α : Type} (p : α → Bool) (l : List α) :
    l.find? p = (l.filter p).head? := by
  induction l with
  | nil => rfl
  | cons a t ih =>
    by_cases h : p a
    · rw [List.find?_cons_of_pos _ h, List.filter_cons_of_pos h]
      rfl
    · rw [List.find?_cons_of_neg _ h, List.filter_cons_of_neg h, ih]

/-- get_id_paths_impl2's registrations of key i are exactly
elemIdCount-many copies of (i, path#i). -/
theorem impl2_filter_replicate (path : String) :
    (∀ (t : XmlElement), ∀ i,
      (id_paths_impl2 path t).filter (fun pr => pr.1 == i) =
        List.replicate (elemIdCount i t) (i, path ++ "#" ++ i)) ∧
    (∀ (ts : List XmlElement), ∀ i,
      (id_paths_impl2_list path ts).filter (fun pr => pr.1 == i) =
        List.replicate (elemIdCountList i ts) (i, path ++ "#" ++ i)) := by
  refine id_paths_impl2.mutual_induct path
    (fun t => ∀ i,
      (id_paths_impl2 path t).filter (fun pr => pr.1 == i) =
        List.replicate (elemIdCount i t) (i, path ++ "#" ++ i))
    (fun ts => ∀ i,
      (id_paths_impl2_list path ts).filter (fun pr => pr.1 == i) =
        List.replicate (elemIdCountList i ts) (i, path ++ "#" ++ i))
    ?_ ?_ ?_ ?_
  · intro nm attrs cs ih i
    rcases hv : getAttr attrs "id" with _ | j
    · simp [id_paths_impl2, elemIdCount, hv, ih i]
    · by_cases hj : j = i
      · subst hj
        simp [id_paths_impl2, elemIdCount, hv, ih j, List.filter_append,
          List.replicate_add]
      · have hne : ¬ (getAttr attrs "id" = some i) := by
          rw [hv]
          simp [hj]
        simp [id_paths_impl2, elemIdCount, hv, ih i, List.filter_append, hj,
          hne]
  · intro s i
    simp only [id_paths_impl2, elemIdCount]
    rfl
  · intro i
    simp only [id_paths_impl2_list, elemIdCountList]
    rfl
  · intro x xs ih1 ih2 i
    simp only [id_paths_impl2_list, elemIdCountList, List.filter_append,
      ih1 i, ih2 i, List.replicate_add]

/-- A member's count is at most the list's. -/
theorem elemIdCount_member_le (i : String) (c : XmlElement)
    (cs : List XmlElement) (h : c ∈ cs) :
    elemIdCount i c ≤ elemIdCountList i cs := by
  induction cs with
  | nil => cases h
  | cons a t ih =>
    rcases List.mem_cons.mp h with h1 | h1
    · subst h1
      simp only [elemIdCountList]
      omega
    · have h2 := ih h1
      simp only [elemIdCountList]
      omega

/-- An element of the tree carrying id i makes the count positive. -/
theorem elemIdCount_pos_of_in (e t : XmlElement) (i : String)
    (h : ElemIn e t) (hid : e.get_attribute "id" = some i) :
    1 ≤ elemIdCount i t := by
  induction h with
  | refl =>
    cases e with
    | node nm attrs cs =>
      simp only [XmlElement.get_attribute] at hid
      simp only [elemIdCount, hid, if_true]
      omega
    | text s => simp [XmlElement.get_attribute] at hid
  | via_child c x hc hsub ih =>
    cases x with
    | node nm attrs cs =>
      simp only [XmlElement.children] at hc
      have h2 := elemIdCount_member_le i c cs hc
      simp only [elemIdCount]
      omega
    | text s =>
      simp only [XmlElement.children] at hc
      cases hc

theorem chunkIdCountList_member_le (i : String) (c : Chunk) (cs : List Chunk)
    (h : c ∈ cs) : chunkIdCount i c ≤ chunkIdCountList i cs := by
  induction cs with
  | nil => cases h
  | cons a t ih =>
    rcases List.mem_cons.mp h with h1 | h1
    · subst h1
      simp only [chunkIdCountList]
      omega
    · have h2 := ih h1
      simp only [chunkIdCountList]
      omega

theorem chunkElemCountList_member_le (i : String) (c : Chunk) (cs : List Chunk)
    (h : c ∈ cs) : chunkElemCount i c ≤ chunkElemCountList i cs := by
  induction cs with
  | nil => cases h
  | cons a t ih =>
    rcases List.mem_cons.mp h with h1 | h1
    · subst h1
      simp only [chunkElemCountList]
      omega
    · have h2 := ih h1
      simp only [chunkElemCountList]
      omega

/-- A chunk of the tree with id i makes the chunk-id count positive. -/
theorem chunkIdCount_pos (i : String) (c X : Chunk) (h : ChunkIn c X)
    (hid : c.id = i) : 1 ≤ chunkIdCount i X := by
  induction h with
  | refl =>
    rw [chunkIdCount, hid]
    simp
  | via_child ck x hm hsub ih =>
    have h2 := chunkIdCountList_member_le i ck x.children hm
    rw [chunkIdCount]
    omega

/-- An element with id i in a chunk of the tree makes the element count
positive. -/
theorem chunkElemCount_pos (i : String) (e : XmlElement) (c X : Chunk)
    (h : ChunkIn c X) (he : ElemInChunk e c)
    (hid : e.get_attribute "id" = some i) : 1 ≤ chunkElemCount i X := by
  induction h with
  | refl =>
    rw [chunkElemCount]
    have hown : 1 ≤ chunkOwnElemCount i c := by
      rcases he with ⟨te, hte, hin⟩ | ⟨ie, hie, hin⟩ | hin
      · have h2 := elemIdCount_pos_of_in e te i hin hid
        simp only [chunkOwnElemCount, hte, optElemCount]
        omega
      · have h2 := elemIdCount_pos_of_in e ie i hin hid
        simp only [chunkOwnElemCount, hie, optElemCount]
        omega
      · have h2 := elemIdCount_pos_of_in e c.root i hin hid
        simp only [chunkOwnElemCount]
        omega
    omega
  | via_child ck x hm hsub ih =>
    have h2 := chunkElemCountList_member_le i ck x.children hm
    rw [chunkElemCount]
    omega

theorem chunkIdCountList_append (i : String) (l1 l2 : List Chunk) :
    chunkIdCountList i (l1 ++ l2) =
      chunkIdCountList i l1 + chunkIdCountList i l2 := by
  induction l1 with
  | nil => simp [chunkIdCountList]
  | cons a t ih =>
    simp only [List.cons_append, chunkIdCountList, ih]
    omega

theorem chunkElemCountList_append (i : String) (l1 l2 : List Chunk) :
    chunkElemCountList i (l1 ++ l2) =
      chunkElemCountList i l1 + chunkElemCountList i l2 := by
  induction l1 with
  | nil => simp [chunkElemCountList]
  | cons a t ih =>
    simp only [List.cons_append, chunkElemCountList, ih]
    omega

theorem id_paths_impl_list_append (l1 l2 : List Chunk) :
    id_paths_impl_list (l1 ++ l2) =
      id_paths_impl_list l1 ++ id_paths_impl_list l2 := by
  induction l1 with
  | nil => simp [id_paths_impl_list]
  | cons a t ih =>
    simp only [List.cons_append, id_paths_impl_list, List.append_eq, ih,
      List.append_assoc]

theorem head?_append_of_some {α : Type} (l1 l2 : List α) (a : α)
    (h : l1.head? = some a) : (l1 ++ l2).head? = some a := by
  cases l1 with
  | nil => cases h
  | cons b t =>
    cases h
    rfl

/-- optIdPaths' registrations of key i, as a replicate. -/
theorem opt_filter_replicate (path : String) (t? : Option XmlElement)
    (i : String) :
    (optIdPaths path t?).filter (fun pr => pr.1 == i) =
      List.replicate (optElemCount i t?) (i, path ++ "#" ++ i) := by
  cases t? with
  | none => rfl
  | some t =>
    simp only [optIdPaths, optElemCount]
    exact (impl2_filter_replicate path).1 t i

/-- The number of registrations get_id_paths_impl makes for key i: one
per chunk with that id plus one per element with that id attribute. -/
theorem impl_filter_length :
    (∀ (c : Chunk), ∀ i,
      ((id_paths_impl c).filter (fun pr => pr.1 == i)).length =
        chunkIdCount i c + chunkElemCount i c) ∧
    (∀ (cs : List Chunk), ∀ i,
      ((id_paths_impl_list cs).filter (fun pr => pr.1 == i)).length =
        chunkIdCountList i cs + chunkElemCountList i cs) := by
  refine id_paths_impl.mutual_induct
    (fun c => ∀ i,
      ((id_paths_impl c).filter (fun pr => pr.1 == i)).length =
        chunkIdCount i c + chunkElemCount i c)
    (fun cs => ∀ i,
      ((id_paths_impl_list cs).filter (fun pr => pr.1 == i)).length =
        chunkIdCountList i cs + chunkElemCountList i cs)
    ?_ ?_ ?_
  · intro t inf r inl idv path cs ih i
    by_cases hidv : idv = i <;>
      simp [id_paths_impl, chunkIdCount, chunkElemCount, chunkOwnElemCount,
        Chunk.id, Chunk.title, Chunk.info, Chunk.root, Chunk.children,
        List.filter_append, opt_filter_replicate path,
        (impl2_filter_replicate path).1, ih, hidv, List.length_append] <;>
      omega
  · intro i
    simp only [id_paths_impl_list, chunkIdCountList, chunkElemCountList]
    rfl
  · intro c rest ih1 ih2 i
    simp only [id_paths_impl_list, chunkIdCountList, chunkElemCountList,
      List.filter_append, List.length_append, ih1 i, ih2 i]
    omega

/-- The C1 resolution target: the owning chunk's page path, with the
"#id" fragment unless the id is the chunk's own id and the chunk is not
inlined. -/
def c1Target (c : Chunk) (i : String) : String :=
  if i = c.id ∧ c.inl = false then c.path else c.path ++ "#" ++ i

/-- A non-empty list whose members all equal a has head a. -/
theorem head?_of_mem_all {α : Type} (l : List α) (a : α)
    (hne : l.length ≠ 0) (hall : ∀ x ∈ l, x = a) : l.head? = some a := by
  cases l with
  | nil => simp at hne
  | cons b t =>
    have hb := hall b (List.mem_cons_self b t)
    rw [hb]
    rfl

/-- id_paths_impl through the accessors. -/
theorem id_paths_impl_eq (x : Chunk) :
    id_paths_impl x =
      (x.id, if x.inl then x.path ++ "#" ++ x.id else x.path) ::
        (optIdPaths x.path x.title ++ optIdPaths x.path x.info ++
         id_paths_impl2 x.path x.root ++ id_paths_impl_list x.children) := by
  cases x
  simp [id_paths_impl, Chunk.id, Chunk.inl, Chunk.path, Chunk.title,
    Chunk.info, Chunk.root, Chunk.children]

/-- Under global id-uniqueness (the id names exactly one chunk — c, when
it is c's id — and exactly one element), the first registration of i in
the index built from X is the one owned by c: the chunk entry when i is
c's id (which get_id_paths_impl registers before walking c's trees),
otherwise the element entry path#i. -/
theorem impl_find_first (i : String) (e : XmlElement) (c X : Chunk)
    (h : ChunkIn c X) (he : ElemInChunk e c)
    (hid : e.get_attribute "id" = some i)
    (hcc : chunkIdCount i X = if i = c.id then 1 else 0)
    (hec : chunkElemCount i X = 1) :
    ((id_paths_impl X).filter (fun pr => pr.1 == i)).head? =
      some (i, c1Target c i) := by
  induction h with
  | refl =>
    rcases c with ⟨t, inf, r, inl, idv, path, cs⟩
    by_cases hidv : i = idv
    · subst hidv
      cases inl <;>
        simp [id_paths_impl, c1Target, Chunk.id, Chunk.inl, Chunk.path,
          List.filter_cons]
    · have hidv2 : ¬ (idv = i) := fun hh => hidv hh.symm
      have hown : 1 ≤ chunkOwnElemCount i (.mk t inf r inl idv path cs) := by
        rcases he with ⟨te, hte, hin⟩ | ⟨ie, hie, hin⟩ | hin
        · have h2 := elemIdCount_pos_of_in e te i hin hid
          simp only [Chunk.title] at hte
          simp only [chunkOwnElemCount, Chunk.title, Chunk.info, Chunk.root,
            hte, optElemCount]
          omega
        · have h2 := elemIdCount_pos_of_in e ie i hin hid
          simp only [Chunk.info] at hie
          simp only [chunkOwnElemCount, Chunk.title, Chunk.info, Chunk.root,
            hie, optElemCount]
          omega
        · simp only [Chunk.root] at hin
          have h2 := elemIdCount_pos_of_in e r i hin hid
          simp only [chunkOwnElemCount, Chunk.title, Chunk.info, Chunk.root]
          omega
      rw [chunkIdCount] at hcc
      rw [chunkElemCount] at hec
      simp only [Chunk.id, Chunk.children] at hcc hec
      rw [if_neg hidv2, if_neg hidv] at hcc
      have hown1 : chunkOwnElemCount i (.mk t inf r inl idv path cs) = 1 := by
        omega
      have hel : chunkElemCountList i cs = 0 := by omega
      have hcl : chunkIdCountList i cs = 0 := by omega
      have hflist : (id_paths_impl_list cs).filter (fun pr => pr.1 == i) = [] := by
        have hlen := impl_filter_length.2 cs i
        rw [hcl, hel] at hlen
        exact List.eq_nil_of_length_eq_zero hlen
      have hbeq : (idv == i) = false := by
        simp [hidv2]
      have hc1 : c1Target (.mk t inf r inl idv path cs) i =
          path ++ "#" ++ i := by
        simp [c1Target, Chunk.id, Chunk.path, hidv]
      rw [hc1]
      simp only [id_paths_impl, List.filter_cons, hbeq, Bool.false_eq_true,
        if_false, List.filter_append, hflist, List.append_nil]
      simp only [chunkOwnElemCount, Chunk.title, Chunk.info, Chunk.root]
        at hown1
      refine head?_of_mem_all _ _ ?_ ?_
      · simp only [List.length_append, opt_filter_replicate path,
          (impl2_filter_replicate path).1, List.length_replicate]
        omega
      · intro y hy
        simp only [opt_filter_replicate path,
          (impl2_filter_replicate path).1, List.mem_append,
          List.mem_replicate] at hy
        tauto
  | via_child ck x hm hsub ih =>
    have hckpos := chunkElemCount_pos i e c ck hsub he hid
    have hmle_elem := chunkElemCountList_member_le i ck x.children hm
    have hmle_id := chunkIdCountList_member_le i ck x.children hm
    have hxid : ¬ (x.id = i) := by
      intro hxi
      rw [chunkIdCount, if_pos hxi] at hcc
      by_cases hci : i = c.id
      · have hpos := chunkIdCount_pos i c ck hsub hci.symm
        rw [if_pos hci] at hcc
        omega
      · rw [if_neg hci] at hcc
        omega
    rw [chunkIdCount, if_neg hxid] at hcc
    rw [chunkElemCount] at hec
    have hlist1 : chunkElemCountList i x.children = 1 := by omega
    have hown0 : chunkOwnElemCount i x = 0 := by omega
    simp only [chunkOwnElemCount] at hown0
    have hTc : optElemCount i x.title = 0 := by omega
    have hIc : optElemCount i x.info = 0 := by omega
    have hRc : elemIdCount i x.root = 0 := by omega
    obtain ⟨pre, post, hsplit⟩ := List.append_of_mem hm
    rw [hsplit, chunkIdCountList_append] at hcc
    rw [hsplit, chunkElemCountList_append] at hlist1
    simp only [chunkIdCountList, chunkElemCountList] at hcc hlist1
    have hck_elem1 : chunkElemCount i ck = 1 := by omega
    have hpre_elem : chunkElemCountList i pre = 0 := by omega
    have hpost_elem : chunkElemCountList i post = 0 := by omega
    have hck_id : chunkIdCount i ck = if i = c.id then 1 else 0 := by
      by_cases hci : i = c.id
      · have hpos := chunkIdCount_pos i c ck hsub hci.symm
        rw [if_pos hci] at hcc ⊢
        omega
      · rw [if_neg hci] at hcc ⊢
        omega
    have hpre_id : chunkIdCountList i pre = 0 := by
      by_cases hci : i = c.id
      · have hpos := chunkIdCount_pos i c ck hsub hci.symm
        rw [if_pos hci] at hcc
        omega
      · rw [if_neg hci] at hcc
        omega
    have hIH := ih hck_id hck_elem1
    have hbeq : (x.id == i) = false := by simp [hxid]
    have hTf : (optIdPaths x.path x.title).filter (fun pr => pr.1 == i) = [] := by
      rw [opt_filter_replicate, hTc]
      rfl
    have hIf : (optIdPaths x.path x.info).filter (fun pr => pr.1 == i) = [] := by
      rw [opt_filter_replicate, hIc]
      rfl
    have hRf : (id_paths_impl2 x.path x.root).filter (fun pr => pr.1 == i) = [] := by
      rw [(impl2_filter_replicate x.path).1, hRc]
      rfl
    have hPref : (id_paths_impl_list pre).filter (fun pr => pr.1 == i) = [] := by
      have hlen := impl_filter_length.2 pre i
      rw [hpre_id, hpre_elem] at hlen
      exact List.eq_nil_of_length_eq_zero hlen
    rw [id_paths_impl_eq x, hsplit, id_paths_impl_list_append]
    simp only [id_paths_impl_list, List.filter_cons, hbeq,
      Bool.false_eq_true, if_false, List.filter_append, hTf, hIf, hRf, hPref,
      List.nil_append]
    exact head?_append_of_some _ _ _ hIH

/-- The path suffix rpf_scan keeps is either the whole accumulator or
the suffix of the path following one of its slashes. -/
theorem rpf_scan_fst_cases (p : List Char) :
    ∀ (b : List Char) (s : List Char × List Char),
      (rpf_scan p b s).1 = s.1 ∨
        ∃ l, p = l ++ '/' :: (rpf_scan p b s).1 := by
  induction p with
  | nil =>
    intro b s
    exact .inl rfl
  | cons c p' ih =>
    intro b s
    cases b with
    | nil => exact .inl rfl
    | cons c2 b' =>
      by_cases hc : c = c2
      · subst hc
        by_cases hs : c = '/'
        · subst hs
          have hstep : rpf_scan ('/' :: p') ('/' :: b') s =
              rpf_scan p' b' (p', b') := by
            simp [rpf_scan]
          rw [hstep]
          rcases ih b' (p', b') with h | ⟨l, hl⟩
          · right
            refine ⟨[], ?_⟩
            rw [h]
            simp
          · right
            refine ⟨'/' :: l, ?_⟩
            conv_lhs => rw [hl]
            simp
        · have hstep : rpf_scan (c :: p') (c :: b') s = rpf_scan p' b' s := by
            simp [rpf_scan, hs]
          rw [hstep]
          rcases ih b' s with h | ⟨l, hl⟩
          · exact .inl h
          · right
            refine ⟨c :: l, ?_⟩
            conv_lhs => rw [hl]
            simp
      · have hstep : rpf_scan (c :: p') (c2 :: b') s = s := by
          simp [rpf_scan, hc]
        rw [hstep]
        exact .inl rfl

/-- A path that is non-empty and does not end in '/' has a non-empty
relative path from any base. -/
theorem relative_path_from_ne_nil (p b : List Char)
    (hp : p ≠ []) (hl : p.getLast? ≠ some '/') :
    relative_path_from p b ≠ [] := by
  intro hcontra
  rw [relative_path_from] at hcontra
  have h1 : (rpf_scan p b (p, b)).1 = [] := (List.append_eq_nil.mp hcontra).2
  rcases rpf_scan_fst_cases p b (p, b) with h | ⟨l, hl2⟩
  · rw [h1] at h
    exact hp h.symm
  · rw [h1] at hl2
    apply hl
    rw [hl2]
    simp [List.getLast?_append]

/-- String-level corollary. -/
theorem relative_path_from_str_ne (p b : String)
    (hp : p.data ≠ []) (hl : p.data.getLast? ≠ some '/') :
    relative_path_from_str p b ≠ "" := by
  intro hcontra
  have h2 := congrArg String.data hcontra
  simp only [relative_path_from_str] at h2
  exact relative_path_from_ne_nil p.data b.data hp hl h2

/-- C1: round-trip id resolution, confirmed under global id-uniqueness.
For an element e carrying id i inside chunk c of the chunk tree R —
with i naming no other chunk and no other element (the count
hypotheses) — the index built by get_id_paths maps i to c's page path
plus the "#i" fragment, or to the bare page path when i is c's own id
and c is not inlined (get_id_paths_impl registers the chunk entry
before walking c's trees and emplace is first-wins).  Rendering a link
whose linkend is i then emits exactly an anchor whose href is the
relative path from the current page to that target, and — when c's
path and the id are non-empty and do not end in '/' — that href is
non-empty. -/
theorem c1_round_trip (R c : Chunk) (e : XmlElement) (i : String)
    (ctx : GenCtx) (g : GState) (attrs : List (String × String))
    (cs : List XmlElement)
    (hct : ChunkIn c R) (hel : ElemInChunk e c)
    (hid : e.get_attribute "id" = some i)
    (hcc : chunkIdCount i R = if i = c.id then 1 else 0)
    (hec : chunkElemCount i R = 1)
    (hlink : getAttr attrs "linkend" = some i)
    (hctx : ctx.id_paths = get_id_paths R)
    (hpath : c.path.data ≠ [] ∧ c.path.data.getLast? ≠ some '/')
    (hi : i.data ≠ [] ∧ i.data.getLast? ≠ some '/') :
    idPathsFind (get_id_paths R) i = some (c1Target c i) ∧
    parser_link ctx g (.node "link" attrs cs) =
      close_tag
        (documentList ctx
          (tag_end (tag_attribute (tag_start_with_id g "a" (.node "link" attrs cs))
            "href" (relative_path_from_str (c1Target c i) ctx.path))) cs) "a" ∧
    relative_path_from_str (c1Target c i) ctx.path ≠ "" := by
  have hfind : idPathsFind (get_id_paths R) i = some (c1Target c i) := by
    rw [idPathsFind, get_id_paths, qbfind_eq_head_filter,
      impl_find_first i e c R hct hel hid hcc hec]
    rfl
  refine ⟨hfind, ?_, ?_⟩
  · have hfind2 : idPathsFind ctx.id_paths i = some (c1Target c i) := by
      rw [hctx]
      exact hfind
    simp [parser_link, XmlElement.get_attribute, hlink, hfind2,
      XmlElement.children]
  · have htgt1 : (c1Target c i).data ≠ [] := by
      rw [c1Target]
      split
      · exact hpath.1
      · intro hh
        have hh2 : (c.path ++ "#" ++ i).data = c.path.data ++ "#".data ++ i.data := by
          simp
        rw [hh2] at hh
        rcases List.append_eq_nil.mp hh with ⟨_, h2⟩
        exact hi.1 h2
    have htgt2 : (c1Target c i).data.getLast? ≠ some '/' := by
      rw [c1Target]
      split
      · exact hpath.2
      · have hh2 : (c.path ++ "#" ++ i).data =
            (c.path.data ++ "#".data) ++ i.data := by
          simp
        rw [hh2, List.getLast?_append]
        have hsome : (i.data.getLast?).isSome := by
          rw [List.getLast?_isSome]
          exact hi.1
        obtain ⟨lc, hlast⟩ := Option.isSome_iff_exists.mp hsome
        rw [hlast]
        have hor : (some lc).or (c.path.data ++ "#".data).getLast? = some lc :=
          rfl
        rw [hor]
        intro hcon
        apply hi.2
        rw [hlast]
        exact hcon
    exact relative_path_from_str_ne (c1Target c i) ctx.path htgt1 htgt2

/-- The concrete element, chunk and context of the C1 witness. -/
def c1w_elem : XmlElement := .node "book" [("id", "b")] []

def c1w_chunk : Chunk := .mk none none c1w_elem false "b" "b.html" []

def c1w_ctx : GenCtx :=
  { id_paths := get_id_paths c1w_chunk, graphics_path := "",
    path := "b.html", encode := fun s => s }

/-- C1 witness: a one-chunk document whose root element carries the
chunk's id; the link resolves to the bare page path. -/
theorem c1_round_trip_witness :
    c1w_elem.get_attribute "id" = some "b" ∧
    chunkIdCount "b" c1w_chunk = 1 ∧
    chunkElemCount "b" c1w_chunk = 1 ∧
    idPathsFind (get_id_paths c1w_chunk) "b" = some (c1Target c1w_chunk "b") ∧
    relative_path_from_str (c1Target c1w_chunk "b") c1w_ctx.path ≠ "" := by
  have h1 : c1w_elem.get_attribute "id" = some "b" := rfl
  have h2 : chunkIdCount "b" c1w_chunk = if "b" = c1w_chunk.id then 1 else 0 := by
    simp [chunkIdCount, chunkIdCountList, c1w_chunk, Chunk.id, Chunk.children]
  have h3 : chunkElemCount "b" c1w_chunk = 1 := by
    simp [chunkElemCount, chunkOwnElemCount, chunkElemCountList, optElemCount,
      c1w_chunk, Chunk.title, Chunk.info, Chunk.root, Chunk.children,
      elemIdCount, elemIdCountList, c1w_elem, getAttr]
  have hmain := c1_round_trip c1w_chunk c1w_chunk c1w_elem "b" c1w_ctx g0
    [("linkend", "b")] [] (ChunkIn.refl c1w_chunk)
    (Or.inr (Or.inr (ElemIn.refl c1w_elem))) h1 h2 h3 rfl rfl
    (by constructor <;> decide) (by constructor <;> decide)
  have h2b : chunkIdCount "b" c1w_chunk = 1 := by
    rw [h2]
    simp [c1w_chunk, Chunk.id]
  exact ⟨h1, h2b, h3, hmain.1, hmain.2.2⟩
def opts2 : HtmlOptions :=
  { chunked_output := false, rootFilename := "out.html",
    graphicsFor := fun _ => "", cssFor := none, encode := fun s => s,
    writeOk := fun _ => true }

/-- C2: single-file mode, code bug.  The claim says the inlining pass
marks every chunk beyond the root inline and the root keeps the root
output filename.  boostbook_to_html's single-file branch calls
inline_chunks on the root chunk itself (bb2html.cpp line 638), and
inline_chunks unconditionally sets c->inline_ and reads
c->parent()->path_ (lines 551-552): the root has no parent, so the root
is marked inline too and its path is read through a null pointer —
undefined behaviour that also discards the root filename assigned just
before.  First conjunct: on every chunk, inline_chunks with no parent
marks that chunk inline, replaces its path with the junk value read
through the null pointer, and poisons the run.  Second: a concrete
single-file pipeline run is poisoned (and still exits 0). -/
theorem c2_single_file_root_inline :
    (∀ c : Chunk,
      (inline_chunks none c).1.inl = true ∧
      (inline_chunks none c).1.path = "" ∧
      (inline_chunks none c).2 = true) ∧
    (boostbook_to_html "<book id=\"b\"></book>" opts2).map
      (fun r => (r.1.glob.ub, r.2)) = .ok (true, 0) := by
  constructor
  · intro c
    cases c with
    | mk t i r b idv p cs => simp [inline_chunks, Chunk.inl, Chunk.path]
  · have hp : xml_parse_bb "<book id=\"b\"></book>" =
        .ok [.node "book" [("id", "b")] []] := rfl
    simp [boostbook_to_html, hp, opts2, chunk_document, chunk_level,
      chunk_types, getAttr, id_to_path, Chunk.setPath, inline_chunks,
      inline_chunks_list, XmlElement.name, Chunk.root, Chunk.children,
      Chunk.path, Chunk.id, Chunk.title, Chunk.info, Chunk.inl, get_id_paths,
      id_paths_impl, id_paths_impl_list, id_paths_impl2, id_paths_impl2_list,
      generate_chunks_impl, gcl_loop, freshGState, nav_html, generate_html,
      generate_contents, generate_contents_impl, gci_loop, gic_loop,
      generate_inline_chunks, generate_footnotes, generate_footnotes_loop,
      number_callouts, number_callouts2, document, documentList,
      XmlElement.children, write_file, GState.toGlobals, tag_start, tag_end,
      tag_attribute, close_tag, open_tag, open_tag_with_id, tag_start_with_id,
      tag_end_self_close, XmlElement.get_attribute, Except.map]

/-!  C5: the footnote-numbering invariant.  parser_footnote (bb2html.cpp
lines 1489-1509) increments the static counter, stores the label under
the reserved attribute key "(((footnote-label)))" on a copy of the
element pushed onto gen.footnotes, and emits the inline superscript
marker; generate_footnotes (lines 1511-1546) then walks the queue
emitting one trailing block per entry, whose body anchor carries the
stored label.  The invariant below relates the ghost marker/anchor lists
to the counter under a syntactic safety condition on the document: no
element carries the reserved key itself (a later lookup would see it
instead of the stored one), and the subtrees of footnote elements (whose
bodies generate_footnotes renders while iterating the very vector those
bodies would push to) and of inlinemediaobject elements (whose alt
renders share the static counter) contain no footnotes. -/

/-- The reserved attribute key parser_footnote stores the label under. -/
def fnLABEL : String := "(((footnote-label)))"

/-- No footnote element anywhere in the trees of the list. -/
def footnoteFreeL : List XmlElement → Bool
  | [] => true
  | .node nm _ cs :: xs =>
    (nm != "footnote") && footnoteFreeL cs && footnoteFreeL xs
  | .text _ :: xs => footnoteFreeL xs

/-- No element of the trees carries the reserved label key. -/
def noLabelL : List XmlElement → Bool
  | [] => true
  | .node _ attrs cs :: xs =>
    (getAttr attrs fnLABEL).isNone && noLabelL cs && noLabelL xs
  | .text _ :: xs => noLabelL xs

/-- Footnote-safety of a sibling list: no reserved key anywhere, and
footnote/inlinemediaobject subtrees are footnote-free. -/
def fnSafeL : List XmlElement → Bool
  | [] => true
  | .node nm attrs cs :: xs =>
    (getAttr attrs fnLABEL).isNone &&
    (if nm = "footnote" ∨ nm = "inlinemediaobject" then
      footnoteFreeL cs && noLabelL cs
     else fnSafeL cs) &&
    fnSafeL xs
  | .text _ :: xs => fnSafeL xs

/-- The labels the counter values a+1 .. b produce. -/
def mkLabels (a b : Nat) : List String :=
  (List.range' (a + 1) (b - a)).map (fun n => toString n)

/-- The stored labels of the queued footnote elements. -/
def qlabels (fns : List XmlElement) : List String :=
  fns.map (fun fn => (fn.get_attribute fnLABEL).getD "")

/-- Every queued footnote has footnote-free, label-free children. -/
def queueClean (fns : List XmlElement) : Bool :=
  fns.all (fun fn => footnoteFreeL fn.children && noLabelL fn.children)

/-- The generator-state fields the C5 invariant tracks: static counter,
inline-marker ghost, trailing-anchor ghost, footnote queue. -/
def ghost (g : GState) : Nat × List String × List String × List XmlElement :=
  (g.counter, g.markers, g.anchors, g.footnotes)

/-- The render invariant between an initial and a final generator state:
the counter only grows, each increment appends exactly its decimal label
to the inline-marker ghost and to the queue's stored labels (in
lockstep), the anchors ghost is untouched, and queue-cleanliness is
preserved. -/
def FnInv (g g' : GState) : Prop :=
  g.counter ≤ g'.counter ∧
  g'.markers = g.markers ++ mkLabels g.counter g'.counter ∧
  g'.anchors = g.anchors ∧
  qlabels g'.footnotes = qlabels g.footnotes ++ mkLabels g.counter g'.counter ∧
  (queueClean g.footnotes = true → queueClean g'.footnotes = true)

theorem FnInv_elim {g g' : GState} (h : FnInv g g') :
    g.counter ≤ g'.counter ∧
    g'.markers = g.markers ++ mkLabels g.counter g'.counter ∧
    g'.anchors = g.anchors ∧
    qlabels g'.footnotes = qlabels g.footnotes ++ mkLabels g.counter g'.counter ∧
    (queueClean g.footnotes = true → queueClean g'.footnotes = true) := h

theorem FnInv_intro {g g' : GState}
    (h1 : g.counter ≤ g'.counter)
    (h2 : g'.markers = g.markers ++ mkLabels g.counter g'.counter)
    (h3 : g'.anchors = g.anchors)
    (h4 : qlabels g'.footnotes = qlabels g.footnotes ++ mkLabels g.counter g'.counter)
    (h5 : queueClean g.footnotes = true → queueClean g'.footnotes = true) :
    FnInv g g' := ⟨h1, h2, h3, h4, h5⟩

theorem mkLabels_self (a : Nat) : mkLabels a a = [] := by
  simp [mkLabels]

theorem mkLabels_succ (a : Nat) : mkLabels a (a + 1) = [toString (a + 1)] := by
  simp [mkLabels, List.range']

theorem mkLabels_trans (a b c : Nat) (h1 : a ≤ b) (h2 : b ≤ c) :
    mkLabels a b ++ mkLabels b c = mkLabels a c := by
  rw [mkLabels, mkLabels, mkLabels, ← List.map_append]
  have h3 : b + 1 = (a + 1) + (b - a) := by omega
  have h4 : c - a = (c - b) + (b - a) := by omega
  rw [h3, h4, ← List.range'_append_1]

theorem FnInv_refl (g : GState) : FnInv g g :=
  FnInv_intro (le_refl _) (by simp [mkLabels_self]) rfl (by simp [mkLabels_self])
    (fun h => h)

theorem FnInv_trans {g1 g2 g3 : GState} (h : FnInv g1 g2) (h' : FnInv g2 g3) :
    FnInv g1 g3 := by
  obtain ⟨a1, b1, c1, d1, e1⟩ := FnInv_elim h
  obtain ⟨a2, b2, c2, d2, e2⟩ := FnInv_elim h'
  refine FnInv_intro (le_trans a1 a2) ?_ (c2.trans c1) ?_ (fun hq => e2 (e1 hq))
  · rw [b2, b1, List.append_assoc, mkLabels_trans _ _ _ a1 a2]
  · rw [d2, d1, List.append_assoc, mkLabels_trans _ _ _ a1 a2]

theorem ghost_eq_parts {a b : GState} (h : ghost a = ghost b) :
    a.counter = b.counter ∧ a.markers = b.markers ∧ a.anchors = b.anchors ∧
    a.footnotes = b.footnotes := by
  rw [ghost, ghost, Prod.mk.injEq, Prod.mk.injEq, Prod.mk.injEq] at h
  exact h

theorem FnInv_of_ghost {g g' : GState} (h : ghost g' = ghost g) :
    FnInv g g' := by
  obtain ⟨h1, h2, h3, h4⟩ := ghost_eq_parts h
  refine FnInv_intro (le_of_eq h1.symm) ?_ h3 ?_ ?_
  · rw [h2, h1, mkLabels_self, List.append_nil]
  · rw [h4, h1, mkLabels_self, List.append_nil]
  · rw [h4]
    exact fun hq => hq

theorem FnInv_wrap {g X Y : GState} (hg : ghost Y = ghost X)
    (h : FnInv g X) : FnInv g Y := FnInv_trans h (FnInv_of_ghost hg)

theorem FnInv_pre {g g1 g2 : GState} (hg : ghost g1 = ghost g)
    (h : FnInv g1 g2) : FnInv g g2 := FnInv_trans (FnInv_of_ghost hg) h

/-!  ghost-stability of the html-only tag helpers, one lemma per tracked
projection: each helper at bb2html.cpp lines 232-319 appends to the html
string (and reads in_contents / the id attribute) but never touches the
footnote counter, the footnote queue, or the ghost lists. -/

@[simp] theorem tag_start_counter (g : GState) (nm : String) :
    (tag_start g nm).counter = g.counter := rfl

@[simp] theorem tag_start_markers (g : GState) (nm : String) :
    (tag_start g nm).markers = g.markers := rfl

@[simp] theorem tag_start_anchors (g : GState) (nm : String) :
    (tag_start g nm).anchors = g.anchors := rfl

@[simp] theorem tag_start_footnotes (g : GState) (nm : String) :
    (tag_start g nm).footnotes = g.footnotes := rfl

@[simp] theorem tag_attribute_counter (g : GState) (nm v : String) :
    (tag_attribute g nm v).counter = g.counter := rfl

@[simp] theorem tag_attribute_markers (g : GState) (nm v : String) :
    (tag_attribute g nm v).markers = g.markers := rfl

@[simp] theorem tag_attribute_anchors (g : GState) (nm v : String) :
    (tag_attribute g nm v).anchors = g.anchors := rfl

@[simp] theorem tag_attribute_footnotes (g : GState) (nm v : String) :
    (tag_attribute g nm v).footnotes = g.footnotes := rfl

@[simp] theorem tag_end_counter (g : GState) : (tag_end g).counter = g.counter := rfl

@[simp] theorem tag_end_markers (g : GState) : (tag_end g).markers = g.markers := rfl

@[simp] theorem tag_end_anchors (g : GState) : (tag_end g).anchors = g.anchors := rfl

@[simp] theorem tag_end_footnotes (g : GState) :
    (tag_end g).footnotes = g.footnotes := rfl

@[simp] theorem tag_end_self_close_counter (g : GState) :
    (tag_end_self_close g).counter = g.counter := rfl

@[simp] theorem tag_end_self_close_markers (g : GState) :
    (tag_end_self_close g).markers = g.markers := rfl

@[simp] theorem tag_end_self_close_anchors (g : GState) :
    (tag_end_self_close g).anchors = g.anchors := rfl

@[simp] theorem tag_end_self_close_footnotes (g : GState) :
    (tag_end_self_close g).footnotes = g.footnotes := rfl

@[simp] theorem close_tag_counter (g : GState) (nm : String) :
    (close_tag g nm).counter = g.counter := rfl

@[simp] theorem close_tag_markers (g : GState) (nm : String) :
    (close_tag g nm).markers = g.markers := rfl

@[simp] theorem close_tag_anchors (g : GState) (nm : String) :
    (close_tag g nm).anchors = g.anchors := rfl

@[simp] theorem close_tag_footnotes (g : GState) (nm : String) :
    (close_tag g nm).footnotes = g.footnotes := rfl

@[simp] theorem tag_start_with_id_counter (g : GState) (nm : String) (x : XmlElement) :
    (tag_start_with_id g nm x).counter = g.counter := by
  rw [tag_start_with_id]
  split
  · rfl
  · split <;> rfl

@[simp] theorem tag_start_with_id_markers (g : GState) (nm : String) (x : XmlElement) :
    (tag_start_with_id g nm x).markers = g.markers := by
  rw [tag_start_with_id]
  split
  · rfl
  · split <;> rfl

@[simp] theorem tag_start_with_id_anchors (g : GState) (nm : String) (x : XmlElement) :
    (tag_start_with_id g nm x).anchors = g.anchors := by
  rw [tag_start_with_id]
  split
  · rfl
  · split <;> rfl

@[simp] theorem tag_start_with_id_footnotes (g : GState) (nm : String) (x : XmlElement) :
    (tag_start_with_id g nm x).footnotes = g.footnotes := by
  rw [tag_start_with_id]
  split
  · rfl
  · split <;> rfl

@[simp] theorem open_tag_counter (g : GState) (nm : String) :
    (open_tag g nm).counter = g.counter := rfl

@[simp] theorem open_tag_markers (g : GState) (nm : String) :
    (open_tag g nm).markers = g.markers := rfl

@[simp] theorem open_tag_anchors (g : GState) (nm : String) :
    (open_tag g nm).anchors = g.anchors := rfl

@[simp] theorem open_tag_footnotes (g : GState) (nm : String) :
    (open_tag g nm).footnotes = g.footnotes := rfl

@[simp] theorem open_tag_with_id_counter (g : GState) (nm : String) (x : XmlElement) :
    (open_tag_with_id g nm x).counter = g.counter := by
  simp [open_tag_with_id]

@[simp] theorem open_tag_with_id_markers (g : GState) (nm : String) (x : XmlElement) :
    (open_tag_with_id g nm x).markers = g.markers := by
  simp [open_tag_with_id]

@[simp] theorem open_tag_with_id_anchors (g : GState) (nm : String) (x : XmlElement) :
    (open_tag_with_id g nm x).anchors = g.anchors := by
  simp [open_tag_with_id]

@[simp] theorem open_tag_with_id_footnotes (g : GState) (nm : String) (x : XmlElement) :
    (open_tag_with_id g nm x).footnotes = g.footnotes := by
  simp [open_tag_with_id]

@[simp] theorem tag_self_close_counter (g : GState) (nm : String) (x : XmlElement) :
    (tag_self_close g nm x).counter = g.counter := by
  simp [tag_self_close]

@[simp] theorem tag_self_close_markers (g : GState) (nm : String) (x : XmlElement) :
    (tag_self_close g nm x).markers = g.markers := by
  simp [tag_self_close]

@[simp] theorem tag_self_close_anchors (g : GState) (nm : String) (x : XmlElement) :
    (tag_self_close g nm x).anchors = g.anchors := by
  simp [tag_self_close]

@[simp] theorem tag_self_close_footnotes (g : GState) (nm : String) (x : XmlElement) :
    (tag_self_close g nm x).footnotes = g.footnotes := by
  simp [tag_self_close]

@[simp] theorem graphics_tag_counter (ctx : GenCtx) (g : GState) (p f : String) :
    (graphics_tag ctx g p f).counter = g.counter := by
  rw [graphics_tag]
  split <;> rfl

@[simp] theorem graphics_tag_markers (ctx : GenCtx) (g : GState) (p f : String) :
    (graphics_tag ctx g p f).markers = g.markers := by
  rw [graphics_tag]
  split <;> rfl

@[simp] theorem graphics_tag_anchors (ctx : GenCtx) (g : GState) (p f : String) :
    (graphics_tag ctx g p f).anchors = g.anchors := by
  rw [graphics_tag]
  split <;> rfl

@[simp] theorem graphics_tag_footnotes (ctx : GenCtx) (g : GState) (p f : String) :
    (graphics_tag ctx g p f).footnotes = g.footnotes := by
  rw [graphics_tag]
  split <;> rfl

/-- The poison-flag update of a missing-data branch keeps the ghost. -/
theorem ghost_poison (c : Prop) [Decidable c] (p : GState) :
    ghost (if c then p else { p with ub := true }) = ghost p := by
  split <;> rfl

theorem ffnl_safe_aux : ∀ (n : Nat) (l : List XmlElement), sizeOf l ≤ n →
    footnoteFreeL l = true → noLabelL l = true → fnSafeL l = true := by
  intro n
  induction n with
  | zero =>
    intro l hl
    cases l with
    | nil => intro _ _; simp [fnSafeL]
    | cons x xs =>
      exfalso
      have h1 : 1 ≤ sizeOf x := by
        cases x <;> simp only [XmlElement.node.sizeOf_spec,
          XmlElement.text.sizeOf_spec] <;> omega
      simp only [List.cons.sizeOf_spec] at hl
      omega
  | succ n ih =>
    intro l hl hff hnl
    cases l with
    | nil => simp [fnSafeL]
    | cons x xs =>
      cases x with
      | text s =>
        simp only [footnoteFreeL] at hff
        simp only [noLabelL] at hnl
        simp only [fnSafeL]
        refine ih xs ?_ hff hnl
        simp only [List.cons.sizeOf_spec, XmlElement.text.sizeOf_spec] at hl
        omega
      | node nm attrs cs =>
        simp only [footnoteFreeL, Bool.and_eq_true, bne_iff_ne, ne_eq] at hff
        simp only [noLabelL, Bool.and_eq_true] at hnl
        obtain ⟨⟨hne, hffcs⟩, hffxs⟩ := hff
        obtain ⟨⟨hna, hnlcs⟩, hnlxs⟩ := hnl
        have hsz : sizeOf cs ≤ n ∧ sizeOf xs ≤ n := by
          simp only [List.cons.sizeOf_spec, XmlElement.node.sizeOf_spec] at hl
          omega
        simp only [fnSafeL, Bool.and_eq_true]
        refine ⟨⟨hna, ?_⟩, ih xs hsz.2 hffxs hnlxs⟩
        split
        · simp [hffcs, hnlcs]
        · exact ih cs hsz.1 hffcs hnlcs

/-- Footnote-free label-free trees are footnote-safe. -/
theorem ffnl_imp_safe (l : List XmlElement) (hff : footnoteFreeL l = true)
    (hnl : noLabelL l = true) : fnSafeL l = true :=
  ffnl_safe_aux (sizeOf l) l (le_refl _) hff hnl

theorem safe_cons (x : XmlElement) (xs : List XmlElement) :
    fnSafeL (x :: xs) = (fnSafeL [x] && fnSafeL xs) := by
  cases x <;> simp [fnSafeL, Bool.and_assoc]

theorem ff_cons (x : XmlElement) (xs : List XmlElement) :
    footnoteFreeL (x :: xs) = (footnoteFreeL [x] && footnoteFreeL xs) := by
  cases x <;> simp [footnoteFreeL, Bool.and_assoc]

theorem safe_of_mem {x : XmlElement} {xs : List XmlElement} (hm : x ∈ xs)
    (hs : fnSafeL xs = true) : fnSafeL [x] = true := by
  induction xs with
  | nil => cases hm
  | cons y ys ih =>
    rw [safe_cons, Bool.and_eq_true] at hs
    rcases List.mem_cons.mp hm with h | h
    · rw [h]; exact hs.1
    · exact ih h hs.2

theorem ff_of_mem {x : XmlElement} {xs : List XmlElement} (hm : x ∈ xs)
    (hf : footnoteFreeL xs = true) : footnoteFreeL [x] = true := by
  induction xs with
  | nil => cases hm
  | cons y ys ih =>
    rw [ff_cons, Bool.and_eq_true] at hf
    rcases List.mem_cons.mp hm with h | h
    · rw [h]; exact hf.1
    · exact ih h hf.2

/-- A safe element's children are safe (footnote/inlinemediaobject
children are footnote-free and label-free, hence safe). -/
theorem safe_children_all (x : XmlElement) (h : fnSafeL [x] = true) :
    fnSafeL x.children = true := by
  cases x with
  | text s => simp [XmlElement.children, fnSafeL]
  | node nm attrs cs =>
    simp only [fnSafeL, Bool.and_eq_true] at h
    obtain ⟨⟨hna, h2⟩, -⟩ := h
    show fnSafeL cs = true
    by_cases hc : nm = "footnote" ∨ nm = "inlinemediaobject"
    · rw [if_pos hc] at h2
      rw [Bool.and_eq_true] at h2
      exact ffnl_imp_safe cs h2.1 h2.2
    · rwa [if_neg hc] at h2

theorem ff_children_all (x : XmlElement) (h : footnoteFreeL [x] = true) :
    footnoteFreeL x.children = true := by
  cases x with
  | text s => simp [XmlElement.children, footnoteFreeL]
  | node nm attrs cs =>
    simp only [footnoteFreeL, Bool.and_eq_true] at h
    exact h.1.2

theorem safe_footnote_parts {attrs : List (String × String)}
    {cs : List XmlElement}
    (h : fnSafeL [XmlElement.node "footnote" attrs cs] = true) :
    getAttr attrs fnLABEL = none ∧ footnoteFreeL cs = true ∧
      noLabelL cs = true := by
  simp only [fnSafeL, Bool.and_eq_true] at h
  obtain ⟨⟨hna, hif⟩, -⟩ := h
  rw [if_pos (Or.inl trivial), Bool.and_eq_true] at hif
  exact ⟨Option.isNone_iff_eq_none.mp hna, hif.1, hif.2⟩

theorem safe_imo_parts {attrs : List (String × String)} {cs : List XmlElement}
    (h : fnSafeL [XmlElement.node "inlinemediaobject" attrs cs] = true) :
    getAttr attrs fnLABEL = none ∧ footnoteFreeL cs = true ∧
      noLabelL cs = true := by
  simp only [fnSafeL, Bool.and_eq_true] at h
  obtain ⟨⟨hna, hif⟩, -⟩ := h
  rw [if_pos (Or.inr trivial), Bool.and_eq_true] at hif
  exact ⟨Option.isNone_iff_eq_none.mp hna, hif.1, hif.2⟩

/-- An attribute pushed at the back is found when the key was absent
(push_back at bb2html.cpp line 1504 followed by get_attribute). -/
theorem getAttr_append_last (attrs : List (String × String)) (k v : String)
    (h : getAttr attrs k = none) : getAttr (attrs ++ [(k, v)]) k = some v := by
  induction attrs with
  | nil => simp [getAttr, List.find?]
  | cons a as ih =>
    by_cases hb : ((fun x : String × String => x.1 == k) a = true)
    · exfalso
      rw [getAttr,
        @List.find?_cons_of_pos _ (fun x : String × String => x.1 == k) a as hb] at h
      exact Option.noConfusion h
    · rw [getAttr,
        @List.find?_cons_of_neg _ (fun x : String × String => x.1 == k) a as hb] at h
      rw [List.cons_append, getAttr,
        @List.find?_cons_of_neg _ (fun x : String × String => x.1 == k) a
          (as ++ [(k, v)]) hb]
      exact ih h

/-- parser_co is html-only: its counter, ghosts and queue never move. -/
theorem ghost_parser_co (ctx : GenCtx) (g : GState) (x : XmlElement) :
    ghost (parser_co ctx g x) = ghost g := by
  simp only [parser_co]
  repeat' split
  all_goals simp [ghost]

/-- parser_footnote satisfies the render invariant on a label-free
element with footnote-free, label-free children: the counter bumps by
one, the new label is appended to the inline-marker ghost and (via the
pushed attribute) to the queue's stored labels, the anchors ghost is
untouched, and the queued element is clean. -/
theorem parser_footnote_fninv (ctx : GenCtx) (g : GState) (nm : String)
    (attrs : List (String × String)) (cs : List XmlElement)
    (hn : getAttr attrs fnLABEL = none) (hff : footnoteFreeL cs = true)
    (hnl : noLabelL cs = true) :
    FnInv g (parser_footnote ctx g (XmlElement.node nm attrs cs)) := by
  simp only [parser_footnote]
  refine FnInv_intro ?_ ?_ ?_ ?_ ?_
  · simp
  · simp [mkLabels_succ]
  · simp
  · simp only [close_tag_footnotes, close_tag_counter]
    simp [qlabels, fnLABEL, mkLabels_succ, XmlElement.get_attribute,
      getAttr_append_last attrs "(((footnote-label)))" (toString (g.counter + 1)) hn]
  · intro hq
    rw [queueClean] at hq ⊢
    simp only [close_tag_footnotes, tag_end_footnotes, tag_attribute_footnotes,
      tag_start_footnotes, tag_start_with_id_footnotes]
    rw [List.all_append, hq, Bool.true_and]
    simp [XmlElement.children, hff, hnl]

theorem ghost_tag_start_with_id (g : GState) (nm : String) (x : XmlElement) :
    ghost (tag_start_with_id g nm x) = ghost g := by simp [ghost]

theorem ghost_graphics_tag (ctx : GenCtx) (g : GState) (p f : String) :
    ghost (graphics_tag ctx g p f) = ghost g := by simp [ghost]

set_option maxHeartbeats 4000000 in
theorem fn_master (ctx : GenCtx) :
    (∀ (g : GState) (x : XmlElement),
      (fnSafeL [x] = true → FnInv g (document ctx g x)) ∧
      (footnoteFreeL [x] = true → ghost (document ctx g x) = ghost g)) ∧
    (∀ (g : GState) (xs : List XmlElement),
      (fnSafeL xs = true → FnInv g (documentList ctx g xs)) ∧
      (footnoteFreeL xs = true → ghost (documentList ctx g xs) = ghost g)) ∧
    (∀ (g : GState) (x : XmlElement),
      (fnSafeL x.children = true → FnInv g (parser_callout ctx g x)) ∧
      (footnoteFreeL x.children = true → ghost (parser_callout ctx g x) = ghost g)) ∧
    (∀ (g : GState) (x : XmlElement),
      (fnSafeL x.children = true → FnInv g (write_table ctx g x)) ∧
      (footnoteFreeL x.children = true → ghost (write_table ctx g x) = ghost g)) ∧
    (∀ (g : GState) (rows : List XmlElement) (tdtag : String),
      (fnSafeL rows = true → FnInv g (write_table_rows ctx g rows tdtag)) ∧
      (footnoteFreeL rows = true → ghost (write_table_rows ctx g rows tdtag) = ghost g)) ∧
    (∀ (g : GState) (js : List XmlElement) (tdtag : String),
      (fnSafeL js = true → FnInv g (write_table_entries ctx g js tdtag)) ∧
      (footnoteFreeL js = true → ghost (write_table_entries ctx g js tdtag) = ghost g)) ∧
    (∀ (g : GState) (hname : String) (x : XmlElement),
      (fnSafeL x.children = true → FnInv g (tagRule ctx g hname x)) ∧
      (footnoteFreeL x.children = true → ghost (tagRule ctx g hname x) = ghost g)) ∧
    (∀ (g : GState) (x : XmlElement),
      (fnSafeL x.children = true → FnInv g (parser_variablelist ctx g x)) ∧
      (footnoteFreeL x.children = true → ghost (parser_variablelist ctx g x) = ghost g)) ∧
    (∀ (g : GState) (is : List XmlElement),
      (fnSafeL is = true → FnInv g (vl_render ctx g is)) ∧
      (footnoteFreeL is = true → ghost (vl_render ctx g is) = ghost g)) ∧
    (∀ (g : GState) (x : XmlElement),
      footnoteFreeL x.children = true →
        ghost (parser_inlinemediaobject ctx g x) = ghost g) ∧
    (∀ (g : GState) (is : List XmlElement) (alt : String),
      footnoteFreeL is = true → ghost (imo_alt_scan ctx g is alt).1 = ghost g) ∧
    (∀ (g : GState) (js : List XmlElement) (alt : String),
      footnoteFreeL js = true → ghost (imo_alt_phrases ctx g js alt).1 = ghost g) ∧
    (∀ (g : GState) (x : XmlElement),
      (fnSafeL x.children = true → FnInv g (parser_emphasis ctx g x)) ∧
      (footnoteFreeL x.children = true → ghost (parser_emphasis ctx g x) = ghost g)) ∧
    (∀ (g : GState) (x : XmlElement),
      (fnSafeL x.children = true → FnInv g (parser_phrase ctx g x)) ∧
      (footnoteFreeL x.children = true → ghost (parser_phrase ctx g x) = ghost g)) ∧
    (∀ (g : GState) (x : XmlElement),
      (fnSafeL x.children = true → FnInv g (parser_link ctx g x)) ∧
      (footnoteFreeL x.children = true → ghost (parser_link ctx g x) = ghost g)) ∧
    (∀ (g : GState) (x : XmlElement),
      (fnSafeL x.children = true → FnInv g (parser_ulink ctx g x)) ∧
      (footnoteFreeL x.children = true → ghost (parser_ulink ctx g x) = ghost g)) ∧
    (∀ (g : GState) (x : XmlElement),
      (fnSafeL x.children = true → FnInv g (parser_sbr ctx g x)) ∧
      (footnoteFreeL x.children = true → ghost (parser_sbr ctx g x) = ghost g)) ∧
    (∀ (g : GState) (hname cls : String) (x : XmlElement),
      (fnSafeL x.children = true → FnInv g (tagClassRule ctx g hname cls x)) ∧
      (footnoteFreeL x.children = true →
        ghost (tagClassRule ctx g hname cls x) = ghost g)) := by
  apply document.mutual_induct ctx
  -- text leaf
  · intro g s
    refine ⟨fun _ => ?_, fun _ => ?_⟩ <;> simp only [document]
    · exact FnInv_of_ghost rfl
    · rfl
  · intros
    rename_i ih
    refine ⟨fun hs => ?_, fun hf => ?_⟩ <;> simp only [document, reduceIte]
    · exact ih.1 (safe_children_all _ hs)
    · exact ih.2 (ff_children_all _ hf)
  · intros
    rename_i ih
    refine ⟨fun hs => ?_, fun hf => ?_⟩ <;> simp only [document, reduceIte]
    · exact ih.1 (safe_children_all _ hs)
    · exact ih.2 (ff_children_all _ hf)
  · intros
    rename_i ih
    refine ⟨fun hs => ?_, fun hf => ?_⟩ <;> simp only [document, reduceIte]
    · exact ih.1 (safe_children_all _ hs)
    · exact ih.2 (ff_children_all _ hf)
  · intros
    rename_i ih
    refine ⟨fun hs => ?_, fun hf => ?_⟩ <;> simp only [document, reduceIte]
    · exact ih.1 (safe_children_all _ hs)
    · exact ih.2 (ff_children_all _ hf)
  · intros
    rename_i ih
    refine ⟨fun hs => ?_, fun hf => ?_⟩ <;> simp only [document, reduceIte]
    · exact ih.1 (safe_children_all _ hs)
    · exact ih.2 (ff_children_all _ hf)
  · intros
    rename_i ih
    refine ⟨fun hs => ?_, fun hf => ?_⟩ <;> simp only [document, reduceIte]
    · exact ih.1 (safe_children_all _ hs)
    · exact ih.2 (ff_children_all _ hf)
  · intros
    rename_i ih
    refine ⟨fun hs => ?_, fun hf => ?_⟩ <;> simp only [document, reduceIte]
    · exact ih.1 (safe_children_all _ hs)
    · exact ih.2 (ff_children_all _ hf)
  · intros
    rename_i ih
    refine ⟨fun hs => ?_, fun hf => ?_⟩ <;> simp only [document, reduceIte]
    · exact ih.1 (safe_children_all _ hs)
    · exact ih.2 (ff_children_all _ hf)
  · intros
    rename_i ih
    refine ⟨fun hs => ?_, fun hf => ?_⟩ <;> simp only [document, reduceIte]
    · exact ih.1 (safe_children_all _ hs)
    · exact ih.2 (ff_children_all _ hf)
  · intros
    rename_i ih
    refine ⟨fun hs => ?_, fun hf => ?_⟩ <;> simp only [document, reduceIte]
    · exact ih.1 (safe_children_all _ hs)
    · exact ih.2 (ff_children_all _ hf)
  · intros
    rename_i ih
    refine ⟨fun hs => ?_, fun hf => ?_⟩ <;> simp only [document, reduceIte]
    · exact ih.1 (safe_children_all _ hs)
    · exact ih.2 (ff_children_all _ hf)
  · intros
    rename_i ih
    refine ⟨fun hs => ?_, fun hf => ?_⟩ <;> simp only [document, reduceIte]
    · exact ih.1 (safe_children_all _ hs)
    · exact ih.2 (ff_children_all _ hf)
  · intros
    rename_i ih
    refine ⟨fun hs => ?_, fun hf => ?_⟩ <;> simp only [document, reduceIte]
    · exact ih.1 (safe_children_all _ hs)
    · exact ih.2 (ff_children_all _ hf)
  · intros
    rename_i ih
    refine ⟨fun hs => ?_, fun hf => ?_⟩ <;> simp only [document, reduceIte]
    · exact ih.1 (safe_children_all _ hs)
    · exact ih.2 (ff_children_all _ hf)
  · intros
    rename_i ih
    refine ⟨fun hs => ?_, fun hf => ?_⟩ <;> simp only [document, reduceIte]
    · exact ih.1 (safe_children_all _ hs)
    · exact ih.2 (ff_children_all _ hf)
  · intros
    rename_i ih
    refine ⟨fun hs => ?_, fun hf => ?_⟩ <;> simp only [document, reduceIte]
    · exact ih.1 (safe_children_all _ hs)
    · exact ih.2 (ff_children_all _ hf)
  · intros
    rename_i ih
    refine ⟨fun hs => ?_, fun hf => ?_⟩ <;> simp only [document, reduceIte]
    · exact ih.1 (safe_children_all _ hs)
    · exact ih.2 (ff_children_all _ hf)
  · intros
    rename_i ih
    refine ⟨fun hs => ?_, fun hf => ?_⟩ <;> simp only [document, reduceIte]
    · exact ih.1 (safe_children_all _ hs)
    · exact ih.2 (ff_children_all _ hf)
  · intros
    rename_i ih
    refine ⟨fun hs => ?_, fun hf => ?_⟩ <;> simp only [document, reduceIte]
    · exact ih.1 (safe_children_all _ hs)
    · exact ih.2 (ff_children_all _ hf)
  · intros
    rename_i ih
    refine ⟨fun hs => ?_, fun hf => ?_⟩ <;> simp only [document, reduceIte]
    · exact ih.1 (safe_children_all _ hs)
    · exact ih.2 (ff_children_all _ hf)
  · intros
    rename_i ih
    refine ⟨fun hs => ?_, fun hf => ?_⟩ <;> simp only [document, reduceIte]
    · exact ih.1 (safe_children_all _ hs)
    · exact ih.2 (ff_children_all _ hf)
  · intros
    rename_i ih
    refine ⟨fun hs => ?_, fun hf => ?_⟩ <;> simp only [document, reduceIte]
    · exact ih.1 (safe_children_all _ hs)
    · exact ih.2 (ff_children_all _ hf)
  · intros
    rename_i ih
    refine ⟨fun hs => ?_, fun hf => ?_⟩ <;> simp only [document, reduceIte]
    · exact ih.1 (safe_children_all _ hs)
    · exact ih.2 (ff_children_all _ hf)
  · intros
    rename_i ih
    refine ⟨fun hs => ?_, fun hf => ?_⟩ <;> simp only [document, reduceIte]
    · exact ih.1 (safe_children_all _ hs)
    · exact ih.2 (ff_children_all _ hf)
  · intros
    rename_i ih
    refine ⟨fun hs => ?_, fun hf => ?_⟩ <;> simp only [document, reduceIte]
    · exact ih.1 (safe_children_all _ hs)
    · exact ih.2 (ff_children_all _ hf)
  · intros
    rename_i ih
    refine ⟨fun hs => ?_, fun hf => ?_⟩ <;> simp only [document, reduceIte]
    · exact ih.1 (safe_children_all _ hs)
    · exact ih.2 (ff_children_all _ hf)
  · intros
    rename_i ih
    refine ⟨fun hs => ?_, fun hf => ?_⟩ <;> simp only [document, reduceIte]
    · exact ih.1 (safe_children_all _ hs)
    · exact ih.2 (ff_children_all _ hf)
  · intros
    rename_i ih
    refine ⟨fun hs => ?_, fun hf => ?_⟩ <;> simp only [document, reduceIte]
    · exact ih.1 (safe_children_all _ hs)
    · exact ih.2 (ff_children_all _ hf)
  · intros
    rename_i ih
    refine ⟨fun hs => ?_, fun hf => ?_⟩ <;> simp only [document, reduceIte]
    · exact ih.1 (safe_children_all _ hs)
    · exact ih.2 (ff_children_all _ hf)
  · intros
    rename_i ih
    refine ⟨fun hs => ?_, fun hf => ?_⟩ <;> simp only [document, reduceIte]
    · exact ih.1 (safe_children_all _ hs)
    · exact ih.2 (ff_children_all _ hf)
  · intros
    rename_i ih
    refine ⟨fun hs => ?_, fun hf => ?_⟩ <;> simp only [document, reduceIte]
    · exact FnInv_of_ghost (ih (safe_imo_parts hs).2.1)
    · exact ih (ff_children_all _ hf)
  · intros
    rename_i ih
    refine ⟨fun hs => ?_, fun hf => ?_⟩ <;> simp only [document, reduceIte]
    · exact ih.1 (safe_children_all _ hs)
    · exact ih.2 (ff_children_all _ hf)
  · intros
    rename_i ih
    refine ⟨fun hs => ?_, fun hf => ?_⟩ <;> simp only [document, reduceIte]
    · exact ih.1 (safe_children_all _ hs)
    · exact ih.2 (ff_children_all _ hf)
  · intros
    rename_i ih
    refine ⟨fun hs => ?_, fun hf => ?_⟩ <;> simp only [document, reduceIte]
    · exact ih.1 (safe_children_all _ hs)
    · exact ih.2 (ff_children_all _ hf)
  · intros
    rename_i ih
    refine ⟨fun hs => ?_, fun hf => ?_⟩ <;> simp only [document, reduceIte]
    · exact ih.1 (safe_children_all _ hs)
    · exact ih.2 (ff_children_all _ hf)
  · intros
    rename_i ih
    refine ⟨fun hs => ?_, fun hf => ?_⟩ <;> simp only [document, reduceIte]
    · exact ih.1 (safe_children_all _ hs)
    · exact ih.2 (ff_children_all _ hf)
  · intro g attrs cs
    intros
    refine ⟨fun hs => ?_, fun hf => ?_⟩ <;> simp only [document, reduceIte]
    · exact FnInv_of_ghost (ghost_parser_co ctx g _)
    · exact ghost_parser_co ctx g _
  · intro g attrs cs
    intros
    refine ⟨fun hs => ?_, fun hf => ?_⟩
    · obtain ⟨h1, h2, h3⟩ := safe_footnote_parts hs
      simp only [document, reduceIte]
      exact parser_footnote_fninv ctx g "footnote" attrs cs h1 h2 h3
    · exfalso
      simp [footnoteFreeL] at hf
  · intro g nm attrs cs
    intro h1 h2 h3 h4 h5 h6 h7 h8 h9 h10 h11 h12 h13 h14 h15 h16 h17 h18 h19 h20 h21 h22 h23 h24 h25 h26 h27 h28 h29 h30 h31 h32 h33 h34 h35 h36 h37 h38 ih
    refine ⟨fun hs => ?_, fun hf => ?_⟩ <;>
      simp only [document, XmlElement.children, if_neg h1, if_neg h2, if_neg h3,
        if_neg h4, if_neg h5, if_neg h6, if_neg h7, if_neg h8, if_neg h9,
        if_neg h10, if_neg h11, if_neg h12, if_neg h13, if_neg h14, if_neg h15,
        if_neg h16, if_neg h17, if_neg h18, if_neg h19, if_neg h20, if_neg h21,
        if_neg h22, if_neg h23, if_neg h24, if_neg h25, if_neg h26, if_neg h27,
        if_neg h28, if_neg h29, if_neg h30, if_neg h31, if_neg h32, if_neg h33,
        if_neg h34, if_neg h35, if_neg h36, if_neg h37, if_neg h38]
    · exact ih.1 (safe_children_all _ hs)
    · exact ih.2 (ff_children_all _ hf)
  · intro g
    refine ⟨fun _ => ?_, fun _ => ?_⟩
    · simp only [documentList]
      exact FnInv_refl g
    · simp only [documentList]
  · intro g x xs ih1 ih2
    refine ⟨fun hs => ?_, fun hf => ?_⟩ <;> simp only [documentList]
    · rw [safe_cons, Bool.and_eq_true] at hs
      exact FnInv_trans (ih1.1 hs.1) (ih2.1 hs.2)
    · rw [ff_cons, Bool.and_eq_true] at hf
      exact (ih2.2 hf.2).trans (ih1.2 hf.1)
  · intro g x idv data link num g0 g1 g2 g3 g4 g5 ih
    have hg5 : ghost g5 = ghost g := by
      simp only [g5, g4, g3, g2, g1, g0]
      clear ih
      clear g5 g4 g3 g2 g1 g0
      clear_value idv data link num
      rcases data with _ | d <;> rcases link with _ | t <;> simp [ghost]
    refine ⟨fun hs => ?_, fun hf => ?_⟩ <;> simp only [parser_callout]
    · exact FnInv_pre hg5 (ih.1 hs)
    · exact (ih.2 hf).trans hg5
  · intro g x h
    refine ⟨fun _ => ?_, fun _ => ?_⟩ <;> simp only [write_table]
    · split
      · exact FnInv_refl g
      · rename_i tgroup heq
        rw [h] at heq
        exact Option.noConfusion heq
    · split
      · rfl
      · rename_i tgroup heq
        rw [h] at heq
        exact Option.noConfusion heq
  · intro g x tgroup htg g1 g2 g3 g4 iht1 iht2 ihh1 ihh2 ihb
    refine ⟨fun hs => ?_, fun hf => ?_⟩
    · have hstg : fnSafeL tgroup.children = true :=
        safe_children_all _ (safe_of_mem (find_last_named_mem _ htg) hs)
      have hA : FnInv g g2 := FnInv_of_ghost (by simp [g2, g1, ghost])
      have hB : FnInv g g3 := by
        simp only [g3]
        split
        · rename_i title heq
          exact FnInv_trans hA ((iht1 title heq).1
            (safe_children_all _ (safe_of_mem (find_last_named_mem _ heq) hs)))
        · exact hA
      have hC : FnInv g g4 := by
        simp only [g4]
        split
        · rename_i thead heq
          have h5 := (ihh1 thead heq).1
            (safe_children_all _ (safe_of_mem (find_last_named_mem _ heq) hstg))
          have hO : FnInv g (open_tag g3 "thead") := FnInv_wrap (by simp [ghost]) hB
          exact FnInv_trans hO h5
        · exact hB
      simp only [write_table]
      split
      · rename_i heq
        rw [htg] at heq
        exact Option.noConfusion heq
      · rename_i tg2 heq
        rw [htg] at heq
        cases Option.some.inj heq
        split
        · rename_i tbody heq2
          have h6 := (ihb tbody heq2).1
            (safe_children_all _ (safe_of_mem (find_last_named_mem _ heq2) hstg))
          have hO2 : FnInv g (open_tag g4 "tbody") := FnInv_wrap (by simp [ghost]) hC
          exact FnInv_trans hO2 h6
        · exact hC
    · have hftg : footnoteFreeL tgroup.children = true :=
        ff_children_all _ (ff_of_mem (find_last_named_mem _ htg) hf)
      have hA : ghost g2 = ghost g := by simp [g2, g1, ghost]
      have hB : ghost g3 = ghost g := by
        simp only [g3]
        split
        · rename_i title heq
          exact ((iht1 title heq).2
            (ff_children_all _ (ff_of_mem (find_last_named_mem _ heq) hf))).trans hA
        · exact hA
      have hC : ghost g4 = ghost g := by
        simp only [g4]
        split
        · rename_i thead heq
          have h5 := (ihh1 thead heq).2
            (ff_children_all _ (ff_of_mem (find_last_named_mem _ heq) hftg))
          exact h5.trans ((by simp [ghost] :
            ghost (open_tag g3 "thead") = ghost g3).trans hB)
        · exact hB
      simp only [write_table]
      split
      · rfl
      · rename_i tg2 heq
        rw [htg] at heq
        cases Option.some.inj heq
        split
        · rename_i tbody heq2
          have h6 := (ihb tbody heq2).2
            (ff_children_all _ (ff_of_mem (find_last_named_mem _ heq2) hftg))
          exact h6.trans ((by simp [ghost] :
            ghost (open_tag g4 "tbody") = ghost g4).trans hC)
        · exact hC
  · intro g tdtag
    refine ⟨fun _ => ?_, fun _ => ?_⟩
    · simp only [write_table_rows]
      exact FnInv_refl g
    · simp only [write_table_rows]
  · intro g tdtag xs attrs cs g1 ih1 ih2
    refine ⟨fun hs => ?_, fun hf => ?_⟩ <;>
      simp only [write_table_rows, reduceIte]
    · rw [safe_cons, Bool.and_eq_true] at hs
      have hA : FnInv g g1 := FnInv_pre (by simp [ghost])
        (ih1.1 (safe_children_all _ hs.1))
      exact FnInv_trans hA (ih2.1 hs.2)
    · rw [ff_cons, Bool.and_eq_true] at hf
      have hA : ghost g1 = ghost g :=
        (ih1.2 (ff_children_all _ hf.1)).trans (by simp [ghost])
      exact (ih2.2 hf.2).trans hA
  · intro g tdtag xs nm attrs cs hne ih
    refine ⟨fun hs => ?_, fun hf => ?_⟩ <;>
      simp only [write_table_rows, if_neg hne]
    · rw [safe_cons, Bool.and_eq_true] at hs
      exact ih.1 hs.2
    · rw [ff_cons, Bool.and_eq_true] at hf
      exact ih.2 hf.2
  · intro g tdtag xs s ih
    refine ⟨fun hs => ?_, fun hf => ?_⟩ <;> simp only [write_table_rows]
    · rw [safe_cons, Bool.and_eq_true] at hs
      exact ih.1 hs.2
    · rw [ff_cons, Bool.and_eq_true] at hf
      exact ih.2 hf.2
  · intro g tdtag
    refine ⟨fun _ => ?_, fun _ => ?_⟩
    · simp only [write_table_entries]
      exact FnInv_refl g
    · simp only [write_table_entries]
  · intro g tdtag xs attrs cs g1 ih1 ih2
    refine ⟨fun hs => ?_, fun hf => ?_⟩ <;>
      simp only [write_table_entries, reduceIte]
    · rw [safe_cons, Bool.and_eq_true] at hs
      have hA : FnInv g g1 := FnInv_pre (by simp [ghost])
        (ih1.1 (safe_children_all _ hs.1))
      exact FnInv_trans hA (ih2.1 hs.2)
    · rw [ff_cons, Bool.and_eq_true] at hf
      have hA : ghost g1 = ghost g :=
        (ih1.2 (ff_children_all _ hf.1)).trans (by simp [ghost])
      exact (ih2.2 hf.2).trans hA
  · intro g tdtag xs nm attrs cs hne ih
    refine ⟨fun hs => ?_, fun hf => ?_⟩ <;>
      simp only [write_table_entries, if_neg hne]
    · rw [safe_cons, Bool.and_eq_true] at hs
      exact ih.1 hs.2
    · rw [ff_cons, Bool.and_eq_true] at hf
      exact ih.2 hf.2
  · intro g tdtag xs s ih
    refine ⟨fun hs => ?_, fun hf => ?_⟩ <;> simp only [write_table_entries]
    · rw [safe_cons, Bool.and_eq_true] at hs
      exact ih.1 hs.2
    · rw [ff_cons, Bool.and_eq_true] at hf
      exact ih.2 hf.2
  · intro g hname x ih
    refine ⟨fun hs => ?_, fun hf => ?_⟩ <;> simp only [tagRule]
    · exact FnInv_pre (by simp [ghost]) (ih.1 hs)
    · exact (ih.2 hf).trans (by simp [ghost])
  · intro g x hvl ih
    refine ⟨fun hs => ?_, fun hf => ?_⟩ <;>
      simp only [parser_variablelist, if_pos hvl]
    · exact FnInv_pre (by simp [ghost]) (ih.1 hs)
    · exact (ih.2 hf).trans (by simp [ghost])
  · intro g x hvl
    refine ⟨fun _ => ?_, fun _ => ?_⟩
    · simp only [parser_variablelist, if_neg hvl]
      exact FnInv_refl g
    · simp only [parser_variablelist, if_neg hvl]
  · intro g
    refine ⟨fun _ => ?_, fun _ => ?_⟩
    · simp only [vl_render]
      exact FnInv_refl g
    · simp only [vl_render]
  · intro g xs attrs cs t li hparts iht ihl ihrest
    refine ⟨fun hs => ?_, fun hf => ?_⟩ <;> simp only [vl_render, reduceIte]
    · rw [safe_cons, Bool.and_eq_true] at hs
      have hcs : fnSafeL cs = true := safe_children_all _ hs.1
      have hst : fnSafeL t.children = true := by
        rcases vl_entry_parts_fst cs (none, none) t (by rw [hparts]) with hm | hm
        · exact safe_children_all _ (safe_of_mem hm hcs)
        · exact Option.noConfusion hm
      have hsl : fnSafeL li.children = true := by
        rcases vl_entry_parts_snd cs (none, none) li (by rw [hparts]) with hm | hm
        · exact safe_children_all _ (safe_of_mem hm hcs)
        · exact Option.noConfusion hm
      split
      · rename_i t2 li2 heq
        rw [hparts] at heq
        injection heq with e1 e2
        injection e1 with e1
        injection e2 with e2
        subst e1
        subst e2
        exact FnInv_trans (FnInv_trans (iht.1 hst) (ihl.1 hsl)) (ihrest.1 hs.2)
      · rename_i hcon
        exact (hcon t li hparts).elim
    · rw [ff_cons, Bool.and_eq_true] at hf
      have hfc : footnoteFreeL cs = true := ff_children_all _ hf.1
      have hft : footnoteFreeL t.children = true := by
        rcases vl_entry_parts_fst cs (none, none) t (by rw [hparts]) with hm | hm
        · exact ff_children_all _ (ff_of_mem hm hfc)
        · exact Option.noConfusion hm
      have hfl : footnoteFreeL li.children = true := by
        rcases vl_entry_parts_snd cs (none, none) li (by rw [hparts]) with hm | hm
        · exact ff_children_all _ (ff_of_mem hm hfc)
        · exact Option.noConfusion hm
      split
      · rename_i t2 li2 heq
        rw [hparts] at heq
        injection heq with e1 e2
        injection e1 with e1
        injection e2 with e2
        subst e1
        subst e2
        exact (ihrest.2 hf.2).trans (((ihl.2 hfl)).trans (iht.2 hft))
      · rename_i hcon
        exact (hcon t li hparts).elim
  · intro g xs attrs cs hnone ih
    refine ⟨fun hs => ?_, fun hf => ?_⟩ <;> simp only [vl_render, reduceIte]
    · rw [safe_cons, Bool.and_eq_true] at hs
      exact ih.1 hs.2
    · rw [ff_cons, Bool.and_eq_true] at hf
      exact ih.2 hf.2
  · intro g xs nm attrs cs hne ih
    refine ⟨fun hs => ?_, fun hf => ?_⟩ <;> simp only [vl_render, if_neg hne]
    · rw [safe_cons, Bool.and_eq_true] at hs
      exact ih.1 hs.2
    · rw [ff_cons, Bool.and_eq_true] at hf
      exact ih.2 hf.2
  · intro g xs s ih
    refine ⟨fun hs => ?_, fun hf => ?_⟩ <;> simp only [vl_render]
    · rw [safe_cons, Bool.and_eq_true] at hs
      exact ih.1 hs.2
    · rw [ff_cons, Bool.and_eq_true] at hf
      exact ih.2 hf.2
  · intro g x img id himg ih
    intro hf
    simp only [parser_inlinemediaobject]
    simp only [img] at himg
    rw [himg]
    exact (ghost_tag_start_with_id _ _ _).trans ((ghost_poison _ _).trans (ih hf))
  · intro g x img hnone ih
    intro hf
    simp only [parser_inlinemediaobject]
    simp only [img] at hnone
    rw [hnone]
    exact (ghost_poison _ _).trans (ih hf)
  · intro g alt
    intro _
    simp only [imo_alt_scan]
  · intro g alt xs attrs cs p ih1 ih2
    intro hf
    rw [ff_cons, Bool.and_eq_true] at hf
    simp only [imo_alt_scan, reduceIte]
    exact (ih2 hf.2).trans (ih1 (ff_children_all _ hf.1))
  · intro g alt xs nm attrs cs hne ih
    intro hf
    rw [ff_cons, Bool.and_eq_true] at hf
    simp only [imo_alt_scan, if_neg hne]
    exact ih hf.2
  · intro g alt xs s ih
    intro hf
    rw [ff_cons, Bool.and_eq_true] at hf
    simp only [imo_alt_scan]
    exact ih hf.2
  · intro g alt
    intro _
    simp only [imo_alt_phrases]
  · intro g alt xs nm attrs cs hguard gen2 gen2' g2 ih1 ih1b ih1c ih1d ih2
    intro hf
    rw [ff_cons, Bool.and_eq_true] at hf
    obtain ⟨e1, e2, e3, e4⟩ := ghost_eq_parts (ih1.2 hf.1)
    have hg2 : ghost g2 = ghost g := by
      simp [g2, gen2', gen2, ghost, e1, e2, e3]
    simp only [imo_alt_phrases, if_pos hguard]
    exact (ih2 hf.2).trans hg2
  · intro g alt xs nm attrs cs hng ih
    intro hf
    rw [ff_cons, Bool.and_eq_true] at hf
    simp only [imo_alt_phrases, if_neg hng]
    exact ih hf.2
  · intro g alt xs s ih
    intro hf
    rw [ff_cons, Bool.and_eq_true] at hf
    simp only [imo_alt_phrases]
    exact ih hf.2
  · intro g x value tn cn g1 g2 ih
    have hg : ghost (tag_end g2) = ghost g := by
      simp only [g2, g1]
      split <;> simp [ghost]
    refine ⟨fun hs => ?_, fun hf => ?_⟩ <;> simp only [parser_emphasis]
    · exact FnInv_pre hg (ih.1 hs)
    · exact (ih.2 hf).trans hg
  · intro g x value g1 g2 ih
    have hg : ghost (tag_end g2) = ghost g := by
      simp only [g2, g1]
      clear ih
      clear g2 g1
      clear_value value
      cases value <;> simp [ghost]
    refine ⟨fun hs => ?_, fun hf => ?_⟩ <;> simp only [parser_phrase]
    · exact FnInv_pre hg (ih.1 hs)
    · exact (ih.2 hf).trans hg
  · intro g x value found g1 g2 ih
    have hg : ghost (tag_end g2) = ghost g := by
      simp only [g2, g1]
      clear ih
      clear g2 g1
      clear_value found
      cases found <;> simp [ghost]
    refine ⟨fun hs => ?_, fun hf => ?_⟩ <;> simp only [parser_link]
    · exact FnInv_pre hg (ih.1 hs)
    · exact (ih.2 hf).trans hg
  · intro g x value g1 g2 ih
    have hg : ghost (tag_end g2) = ghost g := by
      simp only [g2, g1]
      clear ih
      clear g2 g1
      clear_value value
      cases value <;> simp [ghost]
    refine ⟨fun hs => ?_, fun hf => ?_⟩ <;> simp only [parser_ulink]
    · exact FnInv_pre hg (ih.1 hs)
    · exact (ih.2 hf).trans hg
  · intro g x he
    refine ⟨fun _ => ?_, fun _ => ?_⟩ <;> simp only [parser_sbr, if_pos he]
    · exact FnInv_of_ghost (by simp [ghost])
    · simp [ghost]
  · intro g x he ih
    refine ⟨fun hs => ?_, fun hf => ?_⟩ <;> simp only [parser_sbr, if_neg he]
    · exact ih.1 hs
    · exact ih.2 hf
  · intro g hname cls x ih
    refine ⟨fun hs => ?_, fun hf => ?_⟩ <;> simp only [tagClassRule]
    · exact FnInv_pre (by simp [ghost]) (ih.1 hs)
    · exact (ih.2 hf).trans (by simp [ghost])


/-- Rendering a footnote-free sibling list never moves the counter. -/
theorem documentList_counter (ctx : GenCtx) (h : GState) (l : List XmlElement)
    (hff : footnoteFreeL l = true) : (documentList ctx h l).counter = h.counter :=
  (ghost_eq_parts (((fn_master ctx).2.1 h l).2 hff)).1

theorem documentList_markers (ctx : GenCtx) (h : GState) (l : List XmlElement)
    (hff : footnoteFreeL l = true) : (documentList ctx h l).markers = h.markers :=
  (ghost_eq_parts (((fn_master ctx).2.1 h l).2 hff)).2.1

theorem documentList_anchors (ctx : GenCtx) (h : GState) (l : List XmlElement)
    (hff : footnoteFreeL l = true) : (documentList ctx h l).anchors = h.anchors :=
  (ghost_eq_parts (((fn_master ctx).2.1 h l).2 hff)).2.2.1

theorem documentList_footnotes (ctx : GenCtx) (h : GState) (l : List XmlElement)
    (hff : footnoteFreeL l = true) :
    (documentList ctx h l).footnotes = h.footnotes :=
  (ghost_eq_parts (((fn_master ctx).2.1 h l).2 hff)).2.2.2

/-- generate_html on a safe tree satisfies the render invariant (the
callout renumbering touches only the callout table). -/
theorem generate_html_fninv (ctx : GenCtx) (g : GState) (x : XmlElement)
    (hs : fnSafeL [x] = true) : FnInv g (generate_html ctx g (some x)) := by
  show FnInv g (document ctx { g with callout_numbers := number_callouts [] [x] } x)
  exact FnInv_pre rfl
    (((fn_master ctx).1 { g with callout_numbers := number_callouts [] [x] } x).1 hs)

/-- One trailing footnote block: counter, markers and queue unchanged
(the body is footnote-free), and the stored label is appended to the
anchors ghost. -/
theorem gfb_spec (ctx : GenCtx) (g : GState) (fn : XmlElement)
    (hff : footnoteFreeL fn.children = true) :
    (generate_footnote_block ctx g fn).counter = g.counter ∧
    (generate_footnote_block ctx g fn).markers = g.markers ∧
    (generate_footnote_block ctx g fn).footnotes = g.footnotes ∧
    (generate_footnote_block ctx g fn).anchors =
      g.anchors ++ [(fn.get_attribute fnLABEL).getD ""] := by
  simp only [generate_footnote_block]
  refine ⟨?_, ?_, ?_, ?_⟩ <;>
    simp [documentList_counter _ _ _ hff, documentList_markers _ _ _ hff,
      documentList_anchors _ _ _ hff, documentList_footnotes _ _ _ hff,
      fnLABEL] <;>
    split <;> simp

/-- The footnote loop over a clean queue: counter, markers and queue
unchanged, and the queue's stored labels appended to the anchors ghost
in order. -/
theorem gfl_spec (ctx : GenCtx) : ∀ (fns : List XmlElement) (g : GState),
    queueClean fns = true →
    (generate_footnotes_loop ctx g fns).counter = g.counter ∧
    (generate_footnotes_loop ctx g fns).markers = g.markers ∧
    (generate_footnotes_loop ctx g fns).footnotes = g.footnotes ∧
    (generate_footnotes_loop ctx g fns).anchors = g.anchors ++ qlabels fns := by
  intro fns
  induction fns with
  | nil =>
    intro g _
    refine ⟨rfl, rfl, rfl, ?_⟩
    simp [generate_footnotes_loop, qlabels]
  | cons fn rest ih =>
    intro g hq
    simp only [queueClean, List.all_cons, Bool.and_eq_true] at hq
    obtain ⟨⟨hff, hnl⟩, hqrest⟩ := hq
    obtain ⟨e1, e2, e3, e4⟩ := gfb_spec ctx g fn hff
    simp only [generate_footnotes_loop]
    have hcond :
        ¬((generate_footnote_block ctx g fn).footnotes.length ≠
          g.footnotes.length) := by
      rw [e3]
      exact fun hcc => hcc rfl
    rw [if_neg hcond]
    obtain ⟨f1, f2, f3, f4⟩ := ih (generate_footnote_block ctx g fn) hqrest
    refine ⟨?_, ?_, ?_, ?_⟩
    · rw [f1, e1]
    · rw [f2, e2]
    · rw [f3, e3]
    · rw [f4, e4]
      simp [qlabels]

/-- generate_footnotes on a clean queue: markers and counter unchanged,
anchors extended by exactly the queue's stored labels. -/
theorem generate_footnotes_spec (ctx : GenCtx) (g : GState)
    (hq : queueClean g.footnotes = true) :
    (generate_footnotes ctx g).counter = g.counter ∧
    (generate_footnotes ctx g).markers = g.markers ∧
    (generate_footnotes ctx g).anchors = g.anchors ++ qlabels g.footnotes := by
  simp only [generate_footnotes]
  split
  · rename_i he
    refine ⟨rfl, rfl, ?_⟩
    have h2 : g.footnotes = [] := by
      cases hfe : g.footnotes
      · rfl
      · rw [hfe] at he
        exact absurd he (by simp [List.isEmpty])
    rw [h2]
    simp [qlabels]
  · have key := fun (h : GState) => gfl_spec ctx g.footnotes h hq
    refine ⟨?_, ?_, ?_⟩
    · rw [close_tag_counter, (key _).1]
      simp
    · rw [close_tag_markers, (key _).2.1]
      simp
    · rw [close_tag_anchors, (key _).2.2.2]
      simp

/-- C5 (amended): footnote numbering over one rendered document whose
tree is footnote-safe (no element carries the reserved label key, and
footnote/inlinemediaobject subtrees contain no footnotes), with the
static counter at 0 and empty ghosts and queue: the inline forward
markers emitted by parser_footnote carry, in encounter order, exactly
the labels "1", "2", ... up to the final counter value (strictly
increasing from 1); generate_footnotes then emits no further inline
markers, and the trailing blocks' body anchors carry exactly the same
label list once each, so each label appears exactly twice: once as the
inline forward marker and once as that footnote's trailing body anchor.
Without the safety condition the pairing fails — see c5_counterexample,
where a footnote inside an inlinemediaobject alt phrase takes a label
that never receives a trailing anchor. -/
theorem c5_footnote_numbering (ctx : GenCtx) (x : XmlElement) (g0 : GState)
    (hc : g0.counter = 0) (hm : g0.markers = []) (ha : g0.anchors = [])
    (hf : g0.footnotes = []) (hs : fnSafeL [x] = true) :
    (generate_html ctx g0 (some x)).markers =
      (List.range' 1 (generate_html ctx g0 (some x)).counter).map
        (fun n => toString n) ∧
    (generate_footnotes ctx (generate_html ctx g0 (some x))).markers =
      (generate_html ctx g0 (some x)).markers ∧
    (generate_footnotes ctx (generate_html ctx g0 (some x))).anchors =
      (generate_html ctx g0 (some x)).markers := by
  obtain ⟨h1, h2, h3, h4, h5⟩ := FnInv_elim (generate_html_fninv ctx g0 x hs)
  have hqc : queueClean (generate_html ctx g0 (some x)).footnotes = true := by
    apply h5
    rw [hf]
    rfl
  obtain ⟨k1, k2, k3⟩ :=
    generate_footnotes_spec ctx (generate_html ctx g0 (some x)) hqc
  have hmk : (generate_html ctx g0 (some x)).markers =
      mkLabels 0 (generate_html ctx g0 (some x)).counter := by
    rw [h2, hm, hc]
    simp
  refine ⟨?_, k2, ?_⟩
  · rw [hmk, mkLabels]
    simp
  · rw [k3, h3, ha, h4, hf, hc, hmk]
    simp [qlabels]

/-- Concrete run for the C5 theorem: a paragraph with one footnote. -/
def c5ctx : GenCtx :=
  { id_paths := [], graphics_path := "", path := "out.html",
    encode := fun s => s }

def c5x : XmlElement :=
  .node "para" []
    [.text "before", .node "footnote" [] [.node "para" [] [.text "the note"]],
     .text "after"]

def c5g : GState :=
  { html := "", in_contents := false, callout_numbers := [], footnotes := [],
    counter := 0, markers := [], anchors := [], ub := false }

theorem c5_footnote_numbering_witness :
    (c5g.counter = 0 ∧ c5g.markers = [] ∧ c5g.anchors = [] ∧
      c5g.footnotes = [] ∧ fnSafeL [c5x] = true) ∧
    ((generate_html c5ctx c5g (some c5x)).markers =
      (List.range' 1 (generate_html c5ctx c5g (some c5x)).counter).map
        (fun n => toString n) ∧
     (generate_footnotes c5ctx (generate_html c5ctx c5g (some c5x))).markers =
      (generate_html c5ctx c5g (some c5x)).markers ∧
     (generate_footnotes c5ctx (generate_html c5ctx c5g (some c5x))).anchors =
      (generate_html c5ctx c5g (some c5x)).markers) :=
  ⟨⟨rfl, rfl, rfl, rfl,
    by simp [c5x, fnSafeL, footnoteFreeL, noLabelL, getAttr, fnLABEL]⟩,
   c5_footnote_numbering c5ctx c5x c5g rfl rfl rfl rfl
     (by simp [c5x, fnSafeL, footnoteFreeL, noLabelL, getAttr, fnLABEL])⟩

/-- A document with a footnote inside an inlinemediaobject alt phrase
and a second, ordinary footnote. -/
def c5xbad : XmlElement :=
  .node "para" []
    [.node "inlinemediaobject" []
      [.node "imageobject" [] [.node "imagedata" [("fileref", "pic.png")] []],
       .node "textobject" []
        [.node "phrase" [("role", "alt")]
          [.node "footnote" [] [.node "para" [] [.text "inner note"]]]]],
     .node "footnote" [("id", "fn2")] [.node "para" [] [.text "outer note"]]]

/-- C5 counterexample: a footnote inside an inlinemediaobject alt phrase
is rendered through the discarded private html_gen gen2 (bb2html.cpp
lines 1242-1244): it consumes counter value 1 from the shared static
counter and emits its inline marker into the alt text, but its queued
body is thrown away with gen2, so label "1" never receives a trailing
body anchor.  With a second, ordinary footnote (label "2") the run is
free of undefined behaviour and ends with inline markers ["1", "2"] but
trailing anchors ["2"]: label "1" appears once, refuting "each label
appears exactly twice" on a document the original claim covers. -/
theorem c5_counterexample :
    (generate_footnotes c5ctx (generate_html c5ctx c5g (some c5xbad))).markers =
      ["1", "2"] ∧
    (generate_footnotes c5ctx (generate_html c5ctx c5g (some c5xbad))).anchors =
      ["2"] ∧
    (generate_footnotes c5ctx (generate_html c5ctx c5g (some c5xbad))).ub =
      false := by
  refine ⟨?_, ?_, ?_⟩ <;>
    simp [c5xbad, c5ctx, c5g, generate_html, generate_footnotes,
      generate_footnotes_loop, generate_footnote_block, document, documentList,
      parser_inlinemediaobject, imo_find_image, imo_scan_object, imo_alt_scan,
      imo_alt_phrases, parser_footnote, parser_phrase, tagRule,
      number_callouts, number_callouts2, getAttr, XmlElement.get_attribute,
      XmlElement.children, tag_start, tag_attribute, tag_end,
      tag_end_self_close, close_tag, open_tag, open_tag_with_id,
      tag_start_with_id, tag_self_close, graphics_tag] <;>
    decide

end QB
